import Mathlib

/-!
The tokenizer and the recursive-descent recognizer of micro

A shallow embedding of the Go packages `token`, `errors`, `scanner`, `parser`
and of `run` from `cmd/micro`, followed by theorems about them.

Conventions of the embedding.

* A Go `error` value is an `Option Error`; `none` is `nil`.
* A `*token.Value` that may be `nil` is an `Option Value`.
* `os.Stderr` is a list of the lines written so far, kept in structured form.
* A `for` loop whose number of iterations is not the length of a list takes a
  fuel argument; running out of fuel is the outer `none` of the result, and
  the entry points come with a proof that this never happens.
-/

set_option linter.dupNamespace false

namespace Micro

/-! ## package token -/

/-- The token kinds of `token/token.go`, in the order of the `iota` block. -/
inductive Token where
  | Begin | End | Read | Write | Ident | IntLiteral
  | LeftParen | RightParen | Semicolon | Comma | AssignOP | PlusOP | MinusOP
  deriving DecidableEq, Repr

/-- The struct `token.Value`: a token kind and its spelling. -/
structure Value where
  Token : Token
  Value : String
  deriving DecidableEq, Repr

/-- The struct `token.Set`: the most recently consumed token and the tokens
still to be consumed. -/
structure Set where
  Current : Option Value
  Tokens : List Value
  deriving DecidableEq, Repr

/-- Embeds `token.NewSet`. -/
def NewSet (tokens : List Value) : Set :=
  { Current := none, Tokens := tokens }

/-- Embeds `Set.Next`: the returned token and the updated set. -/
def Set.Next (set : Set) : Option Value × Set :=
  match set.Tokens with
  | [] => (none, { set with Current := none })
  | t :: rest => (some t, { Current := some t, Tokens := rest })

/-- Embeds `Set.Peek`. -/
def Set.Peek (set : Set) : Option Value :=
  match set.Tokens with
  | [] => none
  | t :: _ => some t

/-- The value of each token kind in the `iota` block of `token/token.go`. -/
def Token.toInt : Token → Int
  | .Begin => 0 | .End => 1 | .Read => 2 | .Write => 3 | .Ident => 4 | .IntLiteral => 5
  | .LeftParen => 6 | .RightParen => 7 | .Semicolon => 8 | .Comma => 9 | .AssignOP => 10
  | .PlusOP => 11 | .MinusOP => 12

/-- Embeds `Token.String`; a `Token` is an `int`, so the `switch` has a
`default` branch for the values that are no token kind. -/
def Token.String (token : Int) : String :=
  if token = Token.Begin.toInt then "begin"
  else if token = Token.End.toInt then "end"
  else if token = Token.Read.toInt then "read"
  else if token = Token.Write.toInt then "write"
  else if token = Token.Ident.toInt then "identifier"
  else if token = Token.IntLiteral.toInt then "integer"
  else if token = Token.LeftParen.toInt then "("
  else if token = Token.RightParen.toInt then ")"
  else if token = Token.Semicolon.toInt then ";"
  else if token = Token.Comma.toInt then ","
  else if token = Token.AssignOP.toInt then ":="
  else if token = Token.PlusOP.toInt then "+"
  else if token = Token.MinusOP.toInt then "-"
  else "unknown"

/-! ## package errors -/

/-- The struct `errors.ParseError`. -/
structure ParseError where
  Expected : List Token
  Actual : Value
  deriving DecidableEq, Repr

/-- The error values that occur: `io.EOF`, `errors.ScanError`,
`errors.StepError`, and any other error of the reader. -/
inductive Error where
  | EOF
  | ScanError (char : Char)
  | StepError (step : String)
  | other (msg : String)
  deriving DecidableEq, Repr

/-! ## package parser -/

/-- One line `error #n: ...` written by `Parser.handleError`.  `cursor` is a
history variable: the tokens not yet consumed when the line was written. -/
structure ParseReport where
  number : Nat
  error : ParseError
  cursor : List Value
  deriving DecidableEq, Repr

/-- The struct `parser.Parser`, together with the lines written to
`os.Stderr`. -/
structure Parser where
  TokenSet : Set
  MaxErrors : Int
  errorCount : Nat
  stderr : List ParseReport
  deriving DecidableEq, Repr

/-- Embeds `parser.New`. -/
def Parser.New (tokens : List Value) (maxErrors : Int) : Parser :=
  { TokenSet := NewSet tokens, MaxErrors := maxErrors, errorCount := 0, stderr := [] }

/-- The result of a parser method: `none` when the fuel ran out, otherwise the
returned `error` and the parser afterwards. -/
abbrev ParseResult := Option (Option Error × Parser)

/-- The idiom `err := f(); if err != nil { return err }; rest`. -/
def andThen (r : ParseResult) (rest : Parser → ParseResult) : ParseResult :=
  match r with
  | none => none
  | some (some err, p) => some (some err, p)
  | some (none, p) => rest p

/-- Embeds `Parser.handleError`. -/
def Parser.handleError (parser : Parser) (actual : Option Value) (expected : List Token) :
    Option Error × Parser :=
  let errorCount := parser.errorCount + 1
  let actual := match actual with
    | none => ({ Token := Token.Begin, Value := "EOF" } : Value)
    | some a => a
  let err : ParseError := { Expected := expected, Actual := actual }
  let parser := { parser with
    errorCount := errorCount
    stderr := parser.stderr ++ [⟨errorCount, err, parser.TokenSet.Tokens⟩] }
  if (errorCount : Int) ≥ parser.MaxErrors then
    (some (Error.StepError "parsing"), parser)
  else
    (none, parser)

/-- Embeds `Parser.match`. -/
def Parser.match_ (parser : Parser) (tokens : List Token) : Option Error × Parser :=
  let (next, set) := parser.TokenSet.Next
  let parser := { parser with TokenSet := set }
  match next with
  | none => parser.handleError none tokens
  | some next =>
    if tokens.any (fun token => next.Token == token) then
      (none, parser)
    else
      parser.handleError parser.TokenSet.Current tokens

/-- Embeds `Parser.parseArithmeticOP`. -/
def Parser.parseArithmeticOP (parser : Parser) : Option Error × Parser :=
  parser.match_ [Token.PlusOP, Token.MinusOP]

mutual
/-- Embeds `Parser.parsePrimary`. -/
def Parser.parsePrimary : Nat → Parser → ParseResult
  | 0, _ => none
  | fuel + 1, parser =>
    let (next, set) := parser.TokenSet.Next
    let parser := { parser with TokenSet := set }
    match next with
    | none =>
      some (parser.handleError none [Token.LeftParen, Token.Ident, Token.IntLiteral])
    | some next =>
      match next.Token with
      | Token.LeftParen =>
        andThen (Parser.parseExpression fuel parser) fun parser =>
        some (parser.match_ [Token.RightParen])
      | Token.Ident | Token.IntLiteral => some (none, parser)
      | _ =>
        some (parser.handleError (some next) [Token.LeftParen, Token.Ident, Token.IntLiteral])
/-- Embeds `Parser.parseExpression`: the first primary, then the loop. -/
def Parser.parseExpression : Nat → Parser → ParseResult
  | 0, _ => none
  | fuel + 1, parser =>
    andThen (Parser.parsePrimary fuel parser) fun parser =>
    Parser.parseExpressionLoop fuel parser
/-- The `for` loop of `Parser.parseExpression`. -/
def Parser.parseExpressionLoop : Nat → Parser → ParseResult
  | 0, _ => none
  | fuel + 1, parser =>
    match parser.TokenSet.Peek with
    | none => some (none, parser)
    | some next =>
      if !(next.Token == Token.PlusOP || next.Token == Token.MinusOP) then
        some (none, parser)
      else
        andThen (some parser.parseArithmeticOP) fun parser =>
        andThen (Parser.parsePrimary fuel parser) fun parser =>
        Parser.parseExpressionLoop fuel parser
end



/-- The `for` loop of `Parser.parseExpressionList`. -/
def Parser.parseExpressionListLoop : Nat → Parser → ParseResult
  | 0, _ => none
  | fuel + 1, parser =>
    match parser.TokenSet.Peek with
    | none => some (none, parser)
    | some next =>
      if next.Token != Token.Comma then
        some (none, parser)
      else
        andThen (some (parser.match_ [Token.Comma])) fun parser =>
        andThen (Parser.parseExpression fuel parser) fun parser =>
        Parser.parseExpressionListLoop fuel parser

/-- Embeds `Parser.parseExpressionList`. -/
def Parser.parseExpressionList (fuel : Nat) (parser : Parser) : ParseResult :=
  andThen (Parser.parseExpression fuel parser) fun parser =>
  Parser.parseExpressionListLoop fuel parser

/-- The `for` loop of `Parser.parseIdentList`. -/
def Parser.parseIdentListLoop : Nat → Parser → ParseResult
  | 0, _ => none
  | fuel + 1, parser =>
    match parser.TokenSet.Peek with
    | none => some (none, parser)
    | some next =>
      if next.Token != Token.Comma then
        some (none, parser)
      else
        andThen (some (parser.match_ [Token.Comma])) fun parser =>
        andThen (some (parser.match_ [Token.Ident])) fun parser =>
        Parser.parseIdentListLoop fuel parser

/-- Embeds `Parser.parseIdentList`. -/
def Parser.parseIdentList (fuel : Nat) (parser : Parser) : ParseResult :=
  andThen (some (parser.match_ [Token.Ident])) fun parser =>
  Parser.parseIdentListLoop fuel parser

/-- Embeds `Parser.parseWrite`. -/
def Parser.parseWrite (fuel : Nat) (parser : Parser) : ParseResult :=
  andThen (some (parser.match_ [Token.LeftParen])) fun parser =>
  andThen (Parser.parseExpressionList fuel parser) fun parser =>
  some (parser.match_ [Token.RightParen])

/-- Embeds `Parser.parseRead`. -/
def Parser.parseRead (fuel : Nat) (parser : Parser) : ParseResult :=
  andThen (some (parser.match_ [Token.LeftParen])) fun parser =>
  andThen (Parser.parseIdentList fuel parser) fun parser =>
  some (parser.match_ [Token.RightParen])

/-- Embeds `Parser.parseAssignment`. -/
def Parser.parseAssignment (fuel : Nat) (parser : Parser) : ParseResult :=
  andThen (some (parser.match_ [Token.AssignOP])) fun parser =>
  Parser.parseExpression fuel parser

/-- Embeds `Parser.parseStatement`. -/
def Parser.parseStatement (fuel : Nat) (parser : Parser) : ParseResult :=
  let (next, set) := parser.TokenSet.Next
  let parser := { parser with TokenSet := set }
  match next with
  | none => some (parser.handleError none [Token.Ident, Token.Read, Token.Write])
  | some next =>
    match next.Token with
    | Token.Ident =>
      andThen (Parser.parseAssignment fuel parser) fun parser =>
      some (parser.match_ [Token.Semicolon])
    | Token.Read =>
      andThen (Parser.parseRead fuel parser) fun parser =>
      some (parser.match_ [Token.Semicolon])
    | Token.Write =>
      andThen (Parser.parseWrite fuel parser) fun parser =>
      some (parser.match_ [Token.Semicolon])
    | _ => some (parser.handleError (some next) [Token.Ident, Token.Read, Token.Write])

/-- The `for` loop of `Parser.parseStatementList`. -/
def Parser.parseStatementListLoop : Nat → Parser → ParseResult
  | 0, _ => none
  | fuel + 1, parser =>
    match parser.TokenSet.Peek with
    | none => some (none, parser)
    | some next =>
      match next.Token with
      | Token.Ident | Token.Read | Token.Write =>
        andThen (Parser.parseStatement fuel parser) fun parser =>
        Parser.parseStatementListLoop fuel parser
      | _ => some (none, parser)

/-- Embeds `Parser.parseStatementList`. -/
def Parser.parseStatementList (fuel : Nat) (parser : Parser) : ParseResult :=
  andThen (Parser.parseStatement fuel parser) fun parser =>
  Parser.parseStatementListLoop fuel parser

/-- Embeds `Parser.parseProgram`. -/
def Parser.parseProgram (fuel : Nat) (parser : Parser) : ParseResult :=
  andThen (some (parser.match_ [Token.Begin])) fun parser =>
  andThen (Parser.parseStatementList fuel parser) fun parser =>
  some (parser.match_ [Token.End])

/-- The fuel `Parser.Parse` gives to `parseProgram`: enough for every loop
iteration and every nested call, each of which follows a consumed token. -/
def Parser.fuel (parser : Parser) : Nat :=
  2 * parser.TokenSet.Tokens.length + 4

/-- Embeds `Parser.Parse`: the returned `error` and the parser afterwards. -/
def Parser.Parse (parser : Parser) : ParseResult :=
  match Parser.parseProgram parser.fuel parser with
  | none => none
  | some (err, parser) =>
    if err ≠ none ∨ parser.errorCount > 0 then
      some (some (Error.StepError "parsing"), parser)
    else
      some (none, parser)

/-! ## package scanner -/

/-- The range tables of Go's `unicode` package for the runes above Latin-1;
they are data of the standard library and are taken as a parameter. -/
structure UnicodeTables where
  Letter : Char → Bool
  Digit : Char → Bool
  White_Space : Char → Bool

/-- Embeds `unicode.IsSpace`: the Latin-1 runes are decided by the `switch` of the
library, the others by the table. -/
def IsSpace (T : UnicodeTables) (r : Char) : Bool :=
  if r.val ≤ 0xFF then
    r == '\t' || r == '\n' || r.val == 0x0B || r.val == 0x0C || r == '\r' || r == ' ' ||
      r.val == 0x85 || r.val == 0xA0
  else
    T.White_Space r

/-- Embeds `unicode.IsLetter`: the Latin-1 runes are decided by the `properties` array
of the library, the others by the table. -/
def IsLetter (T : UnicodeTables) (r : Char) : Bool :=
  if r.val ≤ 0xFF then
    ('A' ≤ r && r ≤ 'Z') || ('a' ≤ r && r ≤ 'z') || r.val == 0xAA || r.val == 0xB5 ||
      r.val == 0xBA || (0xC0 ≤ r.val && r.val ≤ 0xD6) || (0xD8 ≤ r.val && r.val ≤ 0xF6) ||
      (0xF8 ≤ r.val && r.val ≤ 0xFF)
  else
    T.Letter r

/-- Embeds `unicode.IsDigit`. -/
def IsDigit (T : UnicodeTables) (r : Char) : Bool :=
  if r.val ≤ 0xFF then
    '0' ≤ r && r ≤ '9'
  else
    T.Digit r

/-- Tables with no entry, for running the scanner on ASCII text, where the
tables are never consulted. -/
def noTables : UnicodeTables :=
  { Letter := fun _ => false, Digit := fun _ => false, White_Space := fun _ => false }

/-- The map `token.ReservedIdents`. -/
def ReservedIdents (value : String) : Option Token :=
  if value = "begin" then some Token.Begin
  else if value = "end" then some Token.End
  else if value = "read" then some Token.Read
  else if value = "write" then some Token.Write
  else none

/-- The result of a read method of the scanner and the input left in the
reader.  The reader is the list of runes not yet read: `ReadRune` takes the
head, `io.EOF` is the empty list, and `UnreadRune`, always called right after a
successful `ReadRune`, puts the rune back and returns `nil`. -/
abbrev Read (α : Type) := Except Error α × List Char

/-- The loop of `Scanner.readIdentToken`; `chars` is the slice built so far. -/
def Scanner.readIdentTokenLoop (T : UnicodeTables) (chars : List Char) :
    List Char → Read Value
  | [] => (.error Error.EOF, [])
  | char :: reader =>
    let chars := chars ++ [char]
    if !(IsLetter T char || IsDigit T char || char == '_') then
      let value := String.mk (chars.take (chars.length - 1))
      let tok := match ReservedIdents value with
        | some tok => tok
        | none => Token.Ident
      (.ok { Token := tok, Value := value }, char :: reader)
    else
      Scanner.readIdentTokenLoop T chars reader

/-- Embeds `Scanner.readIdentToken`. -/
def Scanner.readIdentToken (T : UnicodeTables) (initial : Char) (reader : List Char) :
    Read Value :=
  Scanner.readIdentTokenLoop T [initial] reader

/-- The loop of `Scanner.readIntLiteralToken`. -/
def Scanner.readIntLiteralTokenLoop (T : UnicodeTables) (chars : List Char) :
    List Char → Read Value
  | [] => (.error Error.EOF, [])
  | char :: reader =>
    let chars := chars ++ [char]
    if !(IsDigit T char) then
      (.ok { Token := Token.IntLiteral, Value := String.mk (chars.take (chars.length - 1)) },
        char :: reader)
    else
      Scanner.readIntLiteralTokenLoop T chars reader

/-- Embeds `Scanner.readIntLiteralToken`. -/
def Scanner.readIntLiteralToken (T : UnicodeTables) (initial : Char) (reader : List Char) :
    Read Value :=
  Scanner.readIntLiteralTokenLoop T [initial] reader

/-- Embeds `Scanner.readAssignOPToken`. -/
def Scanner.readAssignOPToken : List Char → Read Value
  | [] => (.error Error.EOF, [])
  | char :: reader =>
    if char != '=' then
      (.error (Error.ScanError ':'), char :: reader)
    else
      (.ok { Token := Token.AssignOP, Value := ":=" }, reader)

/-- The comment loop of `Scanner.readMinusOPOrCommentToken`: read through the
next newline. -/
def Scanner.skipComment : List Char → Read (Option Value)
  | [] => (.error Error.EOF, [])
  | char :: reader =>
    if char == '\n' then
      (.ok none, reader)
    else
      Scanner.skipComment reader

/-- Embeds `Scanner.readMinusOPOrCommentToken`; `.ok none` is the return `nil, nil`
after a comment. -/
def Scanner.readMinusOPOrCommentToken : List Char → Read (Option Value)
  | [] => (.error Error.EOF, [])
  | char :: reader =>
    if char != '-' then
      (.ok (some { Token := Token.MinusOP, Value := "-" }), char :: reader)
    else
      Scanner.skipComment reader

/-- The loop of `Scanner.Next`; the outer `none` is the fuel running out. -/
def Scanner.NextLoop (T : UnicodeTables) : Nat → List Char → Option (Read Value)
  | 0, _ => none
  | _ + 1, [] => some (.error Error.EOF, [])
  | fuel + 1, char :: reader =>
    if IsSpace T char then Scanner.NextLoop T fuel reader
    else if char == '(' then some (.ok { Token := Token.LeftParen, Value := "(" }, reader)
    else if char == ')' then some (.ok { Token := Token.RightParen, Value := ")" }, reader)
    else if char == ';' then some (.ok { Token := Token.Semicolon, Value := ";" }, reader)
    else if char == ',' then some (.ok { Token := Token.Comma, Value := "," }, reader)
    else if char == '+' then some (.ok { Token := Token.PlusOP, Value := "+" }, reader)
    else if IsLetter T char then some (Scanner.readIdentToken T char reader)
    else if IsDigit T char then some (Scanner.readIntLiteralToken T char reader)
    else if char == ':' then some (Scanner.readAssignOPToken reader)
    else if char == '-' then
      match Scanner.readMinusOPOrCommentToken reader with
      | (.error err, reader) => some (.error err, reader)
      | (.ok (some token), reader) => some (.ok token, reader)
      | (.ok none, reader) => Scanner.NextLoop T fuel reader
    else some (.error (Error.ScanError char), reader)

/-- Embeds `Scanner.Next`: every turn of its loop reads a rune, so one more turn than
there are runes is enough. -/
def Scanner.Next (T : UnicodeTables) (reader : List Char) : Option (Read Value) :=
  Scanner.NextLoop T (reader.length + 1) reader

/-- One line `error #n: ...` written by `Scanner.Scan`.  `unread` is a history
variable: the input not yet read when the line was written. -/
structure ScanReport where
  number : Nat
  char : Char
  unread : List Char
  deriving DecidableEq, Repr

/-- What `Scanner.Scan` returns and leaves behind: the tokens, the error, the
lines written to `os.Stderr` and the input left in the reader. -/
structure ScanResult where
  tokens : List Value
  err : Option Error
  stderr : List ScanReport
  Reader : List Char
  deriving DecidableEq, Repr

/-- The end of `Scanner.Scan`, after the loop. -/
def Scanner.scanEnd (errorCount : Nat) (tokens : List Value) (stderr : List ScanReport)
    (reader : List Char) : ScanResult :=
  { tokens := tokens
    err := if errorCount > 0 then some (Error.StepError "token scanning") else none
    stderr := stderr
    Reader := reader }

/-- The loop of `Scanner.Scan`. -/
def Scanner.ScanLoop (T : UnicodeTables) (MaxErrors : Int) :
    Nat → Nat → List Value → List ScanReport → List Char → Option ScanResult
  | 0, _, _, _, _ => none
  | fuel + 1, errorCount, tokens, stderr, reader =>
    if (errorCount : Int) ≥ MaxErrors then
      some (Scanner.scanEnd errorCount tokens stderr reader)
    else
      match Scanner.Next T reader with
      | none => none
      | some (.error Error.EOF, reader) => some (Scanner.scanEnd errorCount tokens stderr reader)
      | some (.ok token, reader) =>
        Scanner.ScanLoop T MaxErrors fuel errorCount (tokens ++ [token]) stderr reader
      | some (.error (Error.ScanError char), reader) =>
        Scanner.ScanLoop T MaxErrors fuel (errorCount + 1) tokens
          (stderr ++ [⟨errorCount + 1, char, reader⟩]) reader
      | some (.error err, reader) =>
        some { tokens := tokens, err := some err, stderr := stderr, Reader := reader }

/-- Embeds `Scanner.Scan` on a scanner made by `scanner.New(reader, maxErrors)`: every
turn of the loop but the last reads a rune. -/
def Scanner.Scan (T : UnicodeTables) (maxErrors : Int) (reader : List Char) :
    Option ScanResult :=
  Scanner.ScanLoop T maxErrors (reader.length + 1) 0 [] [] reader

/-! ## package main -/

/-- The constant `maxErrors` of `cmd/micro`. -/
def maxErrors : Int := 5

/-- What `run` returns and what the two stages wrote to `os.Stderr`. -/
structure RunResult where
  err : Option Error
  scanErrors : List ScanReport
  parseErrors : List ParseReport
  deriving DecidableEq, Repr

/-- The function `run` of `cmd/micro`, from the contents of the opened file
on. -/
def run (T : UnicodeTables) (file : List Char) : Option RunResult :=
  match Scanner.Scan T maxErrors file with
  | none => none
  | some scanned =>
    match scanned.err with
    | some err => some { err := some err, scanErrors := scanned.stderr, parseErrors := [] }
    | none =>
      match (Parser.New scanned.tokens maxErrors).Parse with
      | none => none
      | some (err, parser) =>
        some { err := err, scanErrors := scanned.stderr, parseErrors := parser.stderr }

/-! ## The grammar of the specification -/

/-- The productions of the grammar; the four `...Rest` productions are the
repetitions in braces. -/
inductive Production where
  | Program | StatementList | StatementRest | Statement | Assignment | ReadCall | WriteCall
  | IdentList | IdentRest | ExpressionList | ExpressionRest | Expression | PrimaryRest | Primary
  deriving DecidableEq, Repr

/-- The sequences of token kinds each production derives, following the EBNF of
the specification:
```
Program        ::= "begin" StatementList "end"
StatementList  ::= Statement { Statement }
Statement      ::= ( Assignment | ReadCall | WriteCall ) ";"
Assignment     ::= Ident ":=" Expression
ReadCall       ::= "read" "(" IdentList ")"
WriteCall      ::= "write" "(" ExpressionList ")"
IdentList      ::= Ident { "," Ident }
ExpressionList ::= Expression { "," Expression }
Expression     ::= Primary { ("+" | "-") Primary }
Primary        ::= "(" Expression ")" | Ident | IntLiteral
```
-/
inductive Sentence : Production → List Token → Prop where
  | program {sl} : Sentence .StatementList sl →
      Sentence .Program (Token.Begin :: sl ++ [Token.End])
  | statementList {s r} : Sentence .Statement s → Sentence .StatementRest r →
      Sentence .StatementList (s ++ r)
  | statementRestNil : Sentence .StatementRest []
  | statementRestCons {s r} : Sentence .Statement s → Sentence .StatementRest r →
      Sentence .StatementRest (s ++ r)
  | statementAssignment {a} : Sentence .Assignment a →
      Sentence .Statement (a ++ [Token.Semicolon])
  | statementRead {a} : Sentence .ReadCall a → Sentence .Statement (a ++ [Token.Semicolon])
  | statementWrite {a} : Sentence .WriteCall a → Sentence .Statement (a ++ [Token.Semicolon])
  | assignment {e} : Sentence .Expression e →
      Sentence .Assignment (Token.Ident :: Token.AssignOP :: e)
  | readCall {l} : Sentence .IdentList l →
      Sentence .ReadCall (Token.Read :: Token.LeftParen :: l ++ [Token.RightParen])
  | writeCall {l} : Sentence .ExpressionList l →
      Sentence .WriteCall (Token.Write :: Token.LeftParen :: l ++ [Token.RightParen])
  | identList {r} : Sentence .IdentRest r → Sentence .IdentList (Token.Ident :: r)
  | identRestNil : Sentence .IdentRest []
  | identRestCons {r} : Sentence .IdentRest r →
      Sentence .IdentRest (Token.Comma :: Token.Ident :: r)
  | expressionList {e r} : Sentence .Expression e → Sentence .ExpressionRest r →
      Sentence .ExpressionList (e ++ r)
  | expressionRestNil : Sentence .ExpressionRest []
  | expressionRestCons {e r} : Sentence .Expression e → Sentence .ExpressionRest r →
      Sentence .ExpressionRest (Token.Comma :: e ++ r)
  | expression {a r} : Sentence .Primary a → Sentence .PrimaryRest r →
      Sentence .Expression (a ++ r)
  | primaryRestNil : Sentence .PrimaryRest []
  | primaryRestPlus {a r} : Sentence .Primary a → Sentence .PrimaryRest r →
      Sentence .PrimaryRest (Token.PlusOP :: a ++ r)
  | primaryRestMinus {a r} : Sentence .Primary a → Sentence .PrimaryRest r →
      Sentence .PrimaryRest (Token.MinusOP :: a ++ r)
  | primaryParen {e} : Sentence .Expression e →
      Sentence .Primary (Token.LeftParen :: e ++ [Token.RightParen])
  | primaryIdent : Sentence .Primary [Token.Ident]
  | primaryIntLiteral : Sentence .Primary [Token.IntLiteral]

/-- The kinds of a token sequence. -/
def kinds (ts : List Value) : List Token :=
  ts.map (fun t => t.Token)

/-! ## Vocabulary of the statements -/

/-- A relation between the parser before a call, the returned error and the
parser after it that holds of every step a parser method is made of. -/
structure StepRel (R : Parser → Option Error → Parser → Prop) : Prop where
  refl : ∀ p, R p none p
  trans : ∀ p q r e, R p none q → R q e r → R p e r
  next : ∀ p : Parser, R p none { p with TokenSet := p.TokenSet.Next.2 }
  handle : ∀ (p : Parser) a ex, R p (p.handleError a ex).1 (p.handleError a ex).2

/-- Every completed call recorded in `res` satisfies `R`. -/
def Holds (R : Parser → Option Error → Parser → Prop) (p : Parser) (res : ParseResult) : Prop :=
  ∀ e q, res = some (e, q) → R p e q

/-- What every parser method does to the error budget: the budget and the
order of the tokens are untouched, the lines written are numbered on from the
counter, a method that returns `nil` has stayed below the budget, and a method
that returns an error has just written the line that reached it. -/
def Budget (p : Parser) (e : Option Error) (q : Parser) : Prop :=
  q.MaxErrors = p.MaxErrors ∧ q.TokenSet.Tokens <:+ p.TokenSet.Tokens ∧
  ∃ new : List ParseReport, q.stderr = p.stderr ++ new ∧
    q.errorCount = p.errorCount + new.length ∧
    new.map (fun r => r.number) = List.range' (p.errorCount + 1) new.length ∧
    (e = none → ∀ r ∈ new, (r.number : Int) < p.MaxErrors) ∧
    (∀ err, e = some err → err = Error.StepError "parsing" ∧
      ∃ init last, new = init ++ [last] ∧ p.MaxErrors ≤ (last.number : Int) ∧
        last.cursor = q.TokenSet.Tokens ∧ ∀ r ∈ init, (r.number : Int) < p.MaxErrors)

/-- The method `f` accepts the word `w`: started on tokens whose kinds are `w`,
followed by anything that does not begin with a kind in `bad`, and given
`2 * length + c` fuel, it returns `nil`, consumes exactly those tokens and
writes nothing. -/
def Accepts (f : Nat → Parser → ParseResult) (c : Nat) (bad : List Token)
    (w : List Token) : Prop :=
  ∀ (ts rest : List Value) (p : Parser) (fuel : Nat),
    kinds ts = w → p.TokenSet.Tokens = ts ++ rest →
    (∀ t, rest.head? = some t → t.Token ∉ bad) →
    2 * (ts ++ rest).length + c ≤ fuel →
    ∃ cur, f fuel p = some (none, { p with TokenSet := ⟨cur, rest⟩ })

/-- What the induction over derivations proves of each production: the method
that realises it accepts its sentences.  `Statement` has consumed the dispatch
token before it calls the method for an assignment, a read or a write. -/
def Realised : Production → List Token → Prop
  | .Program, w => Accepts Parser.parseProgram 3 [] w
  | .StatementList, w =>
    Accepts Parser.parseStatementList 3 [Token.Ident, Token.Read, Token.Write] w
  | .StatementRest, w =>
    Accepts Parser.parseStatementListLoop 3 [Token.Ident, Token.Read, Token.Write] w
  | .Statement, w =>
    Accepts Parser.parseStatement 2 [] w ∧ w ≠ [] ∧
      ∀ k, w.head? = some k → k ∈ [Token.Ident, Token.Read, Token.Write]
  | .Assignment, w =>
    ∃ v, w = Token.Ident :: v ∧ Accepts Parser.parseAssignment 2 [Token.PlusOP, Token.MinusOP] v
  | .ReadCall, w => ∃ v, w = Token.Read :: v ∧ Accepts Parser.parseRead 2 [] v
  | .WriteCall, w => ∃ v, w = Token.Write :: v ∧ Accepts Parser.parseWrite 2 [] v
  | .IdentList, w => Accepts Parser.parseIdentList 1 [Token.Comma] w
  | .IdentRest, w => Accepts Parser.parseIdentListLoop 1 [Token.Comma] w
  | .ExpressionList, w =>
    Accepts Parser.parseExpressionList 2 [Token.Comma, Token.PlusOP, Token.MinusOP] w
  | .ExpressionRest, w =>
    Accepts Parser.parseExpressionListLoop 1 [Token.Comma, Token.PlusOP, Token.MinusOP] w ∧
      ∀ k, w.head? = some k → k ∉ [Token.PlusOP, Token.MinusOP]
  | .Expression, w => Accepts Parser.parseExpression 2 [Token.PlusOP, Token.MinusOP] w
  | .PrimaryRest, w => Accepts Parser.parseExpressionLoop 1 [Token.PlusOP, Token.MinusOP] w
  | .Primary, w => Accepts Parser.parsePrimary 1 [] w

/-- The method `f` is sound for the words `P`: when it returns `nil` and has
counted no error, the tokens it consumed spell a word of `P`. -/
def Sound (f : Parser → ParseResult) (P : List Token → Prop) : Prop :=
  ∀ p q, f p = some (none, q) → q.errorCount = p.errorCount →
    ∃ ts, p.TokenSet.Tokens = ts ++ q.TokenSet.Tokens ∧ P (kinds ts)

/-- The placeholder `&token.Value{Value: "EOF"}` of `handleError`; the kind is
the zero value of `Token`. -/
def eofPlaceholder : Value :=
  { Token := Token.Begin, Value := "EOF" }

/-- The rune `c`, read with `r2` left in the reader, is an invalid character:
a colon that another rune than `=` follows, or a rune of none of the classes
of `Scanner.Next`. -/
def Invalid (T : UnicodeTables) (c : Char) (r2 : List Char) : Prop :=
  (c = ':' ∧ ∃ d rest, r2 = d :: rest ∧ d ≠ '=') ∨
  (IsSpace T c = false ∧ c ≠ '(' ∧ c ≠ ')' ∧ c ≠ ';' ∧ c ≠ ',' ∧ c ≠ '+' ∧
    IsLetter T c = false ∧ IsDigit T c = false ∧ c ≠ ':' ∧ c ≠ '-')

/-- What one call of a read method has done to the reader `r`, of which `r2`
is left: a token comes with at least one rune read, `io.EOF` leaves nothing,
an invalid-character error names the invalid rune just before what is left,
and no other error occurs. -/
def Consumed (T : UnicodeTables) (r : List Char) (x : Except Error Value)
    (r2 : List Char) : Prop :=
  match x with
  | .ok _ => ∃ pre, pre ≠ [] ∧ r = pre ++ r2
  | .error Error.EOF => r2 = []
  | .error (Error.ScanError c) => ∃ pre, r = pre ++ c :: r2 ∧ Invalid T c r2
  | .error _ => False

/-- What a call of `Scanner.Next` finds before the end of the input: a token
or an invalid character. -/
inductive Found where
  | token (v : Value)
  | invalid (char : Char)
  deriving DecidableEq, Repr

/-- The tokens among what was found, in order. -/
def Found.tokens : List Found → List Value
  | [] => []
  | .token v :: rest => v :: Found.tokens rest
  | .invalid _ :: rest => Found.tokens rest

/-- The invalid characters among what was found, in order. -/
def Found.invalids : List Found → List Char
  | [] => []
  | .token _ :: rest => Found.invalids rest
  | .invalid c :: rest => c :: Found.invalids rest

/-- Calling `Scanner.Next` again and again on the reader `r`, with no budget,
finds `found` and then the end of the input. -/
inductive Scanner.Yields (T : UnicodeTables) : List Char → List Found → Prop where
  | eof {r r2} : Scanner.Next T r = some (.error Error.EOF, r2) → Scanner.Yields T r []
  | token {r r2 v found} : Scanner.Next T r = some (.ok v, r2) → Scanner.Yields T r2 found →
      Scanner.Yields T r (Found.token v :: found)
  | invalid {r r2 c found} : Scanner.Next T r = some (.error (Error.ScanError c), r2) →
      Scanner.Yields T r2 found → Scanner.Yields T r (Found.invalid c :: found)

/-- The results of `n` calls of `Set.Next` in a row. -/
def Set.NextN : Nat → Set → List (Option Value)
  | 0, _ => []
  | n + 1, set => set.Next.1 :: Set.NextN n set.Next.2

/-- The tables are coherent with the Unicode standard in the one respect the
scanner depends on: no white space is a letter or a digit. -/
def UnicodeTables.Coherent (T : UnicodeTables) : Prop :=
  ∀ c, T.White_Space c = true → T.Letter c = false ∧ T.Digit c = false

/-- The test that ends the loop of `readIdentToken`, negated: a letter, a digit
or an underscore. -/
def isRunChar (T : UnicodeTables) (char : Char) : Bool :=
  IsLetter T char || IsDigit T char || char == '_'

/-- The kind `readIdentToken` gives to the spelling `value`. -/
def identKind (value : String) : Token :=
  match ReservedIdents value with
  | some tok => tok
  | none => Token.Ident

/-- The kind of a token agrees with the reserved words: a spelling that is
reserved has the kind of the reserved word, and an `Ident` is never spelled
like one. -/
def Classified (v : Value) : Prop :=
  (∀ k, ReservedIdents v.Value = some k → v.Token = k) ∧
  (v.Token = Token.Ident → ReservedIdents v.Value = none)

/-- The arm of the `switch` of `Scanner.Next` that the rune `c` selects, with
what `Next` does in that arm whatever follows `c` in the reader. -/
inductive NextBranch (T : UnicodeTables) (c : Char) : Prop where
  | space (h : IsSpace T c = true)
      (eq : ∀ fuel r, Scanner.NextLoop T (fuel + 1) (c :: r) = Scanner.NextLoop T fuel r)
  | single (v : Value) (hs : IsSpace T c = false)
      (eq : ∀ fuel r, Scanner.NextLoop T (fuel + 1) (c :: r) = some (.ok v, r))
  | letter (hs : IsSpace T c = false) (h : IsLetter T c = true)
      (eq : ∀ fuel r, Scanner.NextLoop T (fuel + 1) (c :: r) =
        some (Scanner.readIdentToken T c r))
  | digit (hs : IsSpace T c = false) (h : IsDigit T c = true)
      (eq : ∀ fuel r, Scanner.NextLoop T (fuel + 1) (c :: r) =
        some (Scanner.readIntLiteralToken T c r))
  | colon (hc : c = ':')
      (eq : ∀ fuel r, Scanner.NextLoop T (fuel + 1) (c :: r) =
        some (Scanner.readAssignOPToken r))
  | dash (hc : c = '-')
      (eof : ∀ fuel, Scanner.NextLoop T (fuel + 1) [c] = some (.error Error.EOF, []))
      (minus : ∀ fuel d r, d ≠ '-' → Scanner.NextLoop T (fuel + 1) (c :: d :: r) =
        some (.ok { Token := Token.MinusOP, Value := "-" }, d :: r))
      (commentEof : ∀ fuel r, Scanner.skipComment r = (.error Error.EOF, []) →
        Scanner.NextLoop T (fuel + 1) (c :: '-' :: r) = some (.error Error.EOF, []))
      (commentEnd : ∀ fuel r r3, Scanner.skipComment r = (.ok none, r3) →
        Scanner.NextLoop T (fuel + 1) (c :: '-' :: r) = Scanner.NextLoop T fuel r3)
  | invalid (hs : IsSpace T c = false)
      (eq : ∀ fuel r, Scanner.NextLoop T (fuel + 1) (c :: r) =
        some (.error (Error.ScanError c), r))

/-- What can be seen of a run of `Scan`: the tokens, the error and the lines
written, without the history variables. -/
def ScanResult.observed (res : ScanResult) : List Value × Option Error × List (Nat × Char) :=
  (res.tokens, res.err, res.stderr.map (fun e => (e.number, e.char)))

/-- The last rune of `p`, if there is one, satisfies `P`. -/
def LastSat (P : Char → Prop) (p : List Char) : Prop :=
  ∀ z, p.getLast? = some z → P z

/-- A run that `readIdentToken` or `readIntLiteralToken` reads to its end: a
letter followed by letters, digits and underscores, or digits only. -/
def IsRun (T : UnicodeTables) (w : List Char) : Prop :=
  (∃ c run, w = c :: run ∧ IsLetter T c = true ∧ ∀ d ∈ run, isRunChar T d = true) ∨
  (w ≠ [] ∧ ∀ d ∈ w, IsDigit T d = true)

/-! ## Sample inputs -/

/-- The tokens of `begin read(x,y); z:=x+y-1; write(z); end`. -/
def sampleTokens : List Value :=
  [⟨.Begin, "begin"⟩, ⟨.Read, "read"⟩, ⟨.LeftParen, "("⟩, ⟨.Ident, "x"⟩, ⟨.Comma, ","⟩,
   ⟨.Ident, "y"⟩, ⟨.RightParen, ")"⟩, ⟨.Semicolon, ";"⟩, ⟨.Ident, "z"⟩, ⟨.AssignOP, ":="⟩,
   ⟨.Ident, "x"⟩, ⟨.PlusOP, "+"⟩, ⟨.Ident, "y"⟩, ⟨.MinusOP, "-"⟩, ⟨.IntLiteral, "1"⟩,
   ⟨.Semicolon, ";"⟩, ⟨.Write, "write"⟩, ⟨.LeftParen, "("⟩, ⟨.Ident, "z"⟩, ⟨.RightParen, ")"⟩,
   ⟨.Semicolon, ";"⟩, ⟨.End, "end"⟩]

/-- The statements of the sample program: `read(x,y); z:=x+y-1; write(z);`. -/
def sampleStatements : List Value :=
  (sampleTokens.take 21).tail

/-- The tokens of `begin x:=1; end end`. -/
def trailingTokens : List Value :=
  [⟨.Begin, "begin"⟩, ⟨.Ident, "x"⟩, ⟨.AssignOP, ":="⟩, ⟨.IntLiteral, "1"⟩,
   ⟨.Semicolon, ";"⟩, ⟨.End, "end"⟩, ⟨.End, "end"⟩]

/-- The tokens of `begin x:=1 end end`. -/
def noSemicolonEndTokens : List Value :=
  [⟨.Begin, "begin"⟩, ⟨.Ident, "x"⟩, ⟨.AssignOP, ":="⟩, ⟨.IntLiteral, "1"⟩,
   ⟨.End, "end"⟩, ⟨.End, "end"⟩]

/-- The tokens of `begin x:=1 end`. -/
def noSemicolonTokens : List Value :=
  [⟨.Begin, "begin"⟩, ⟨.Ident, "x"⟩, ⟨.AssignOP, ":="⟩, ⟨.IntLiteral, "1"⟩, ⟨.End, "end"⟩]

/-- The text `a @ b # c `: two invalid characters among three identifiers. -/
def twoInvalid : List Char :=
  "a @ b # c ".toList

/-- The text `begin read(x,y); z:=x+y-1; write(z); end`. -/
def sampleText : List Char :=
  "begin read(x,y); z:=x+y-1; write(z); end".toList

/-- The text `a : b :`: two colons that no `=` follows, the second one ending
the input. -/
def colonAtEnd : List Char :=
  "a : b :".toList

/-! ## General facts about the parser methods -/

theorem holds_none (R : Parser → Option Error → Parser → Prop) (p : Parser) :
    Holds R p none := by
  intro e q h; cases h

theorem holds_some {R : Parser → Option Error → Parser → Prop} {p : Parser}
    {x : Option Error × Parser} (h : R p x.1 x.2) : Holds R p (some x) := by
  intro e q hx
  cases hx
  exact h

theorem holds_andThen {R : Parser → Option Error → Parser → Prop} (hR : StepRel R)
    {p : Parser} {r : ParseResult} {k : Parser → ParseResult}
    (h1 : Holds R p r) (h2 : ∀ q, Holds R q (k q)) : Holds R p (andThen r k) := by
  intro e q h
  match r, h1, h with
  | none, _, h => simp [andThen] at h
  | some (some err, p1), h1, h =>
    simp only [andThen, Option.some.injEq, Prod.mk.injEq] at h
    obtain ⟨rfl, rfl⟩ := h
    exact h1 _ _ rfl
  | some (none, p1), h1, h =>
    simp only [andThen] at h
    exact hR.trans _ _ _ _ (h1 _ _ rfl) (h2 p1 e q h)

theorem holds_after_next {R : Parser → Option Error → Parser → Prop} (hR : StepRel R)
    {p : Parser} {res : ParseResult}
    (h : Holds R { p with TokenSet := p.TokenSet.Next.2 } res) : Holds R p res := by
  intro e q hres
  exact hR.trans _ _ _ _ (hR.next p) (h e q hres)

theorem match_rel {R : Parser → Option Error → Parser → Prop} (hR : StepRel R)
    (p : Parser) (ex : List Token) : R p (p.match_ ex).1 (p.match_ ex).2 := by
  unfold Parser.match_
  cases hn : p.TokenSet.Next with
  | mk next set =>
    have hset : set = p.TokenSet.Next.2 := by rw [hn]
    subst hset
    cases next with
    | none => exact hR.trans _ _ _ _ (hR.next p) (hR.handle _ _ _)
    | some t =>
      dsimp only
      split
      · exact hR.next p
      · exact hR.trans _ _ _ _ (hR.next p) (hR.handle _ _ _)

theorem holds_match {R : Parser → Option Error → Parser → Prop} (hR : StepRel R)
    (p : Parser) (ex : List Token) : Holds R p (some (p.match_ ex)) :=
  holds_some (match_rel hR p ex)

theorem expression_rel {R : Parser → Option Error → Parser → Prop} (hR : StepRel R)
    (fuel : Nat) : (∀ p, Holds R p (Parser.parsePrimary fuel p)) ∧
      (∀ p, Holds R p (Parser.parseExpression fuel p)) ∧
      (∀ p, Holds R p (Parser.parseExpressionLoop fuel p)) := by
  induction fuel with
  | zero =>
    refine ⟨?_, ?_, ?_⟩ <;> intro p
    · rw [Parser.parsePrimary]; exact holds_none R p
    · rw [Parser.parseExpression]; exact holds_none R p
    · rw [Parser.parseExpressionLoop]; exact holds_none R p
  | succ n ih =>
    obtain ⟨ihP, ihE, ihL⟩ := ih
    refine ⟨?_, ?_, ?_⟩ <;> intro p
    · rw [Parser.parsePrimary]
      cases hn : p.TokenSet.Next with
      | mk next set =>
        have hset : set = p.TokenSet.Next.2 := by rw [hn]
        subst hset
        apply holds_after_next hR
        cases next with
        | none => exact holds_some (hR.handle _ _ _)
        | some t =>
          dsimp only
          split
          · exact holds_andThen hR (ihE _) (fun q => holds_match hR q _)
          · exact holds_some (hR.refl _)
          · exact holds_some (hR.refl _)
          · exact holds_some (hR.handle _ _ _)
    · rw [Parser.parseExpression]
      exact holds_andThen hR (ihP _) (fun q => ihL q)
    · rw [Parser.parseExpressionLoop]
      split
      · exact holds_some (hR.refl _)
      · split
        · exact holds_some (hR.refl _)
        · exact holds_andThen hR (holds_match hR _ _)
            (fun q => holds_andThen hR (ihP q) (fun q => ihL q))

theorem parseExpression_rel {R : Parser → Option Error → Parser → Prop} (hR : StepRel R)
    (fuel : Nat) (p : Parser) : Holds R p (Parser.parseExpression fuel p) :=
  (expression_rel hR fuel).2.1 p

theorem parseExpressionListLoop_rel {R : Parser → Option Error → Parser → Prop}
    (hR : StepRel R) (fuel : Nat) (p : Parser) :
    Holds R p (Parser.parseExpressionListLoop fuel p) := by
  induction fuel generalizing p with
  | zero => rw [Parser.parseExpressionListLoop]; exact holds_none R p
  | succ n ih =>
    rw [Parser.parseExpressionListLoop]
    split
    · exact holds_some (hR.refl _)
    · split
      · exact holds_some (hR.refl _)
      · exact holds_andThen hR (holds_match hR _ _)
          (fun q => holds_andThen hR (parseExpression_rel hR n q) (fun q => ih q))

theorem parseExpressionList_rel {R : Parser → Option Error → Parser → Prop}
    (hR : StepRel R) (fuel : Nat) (p : Parser) :
    Holds R p (Parser.parseExpressionList fuel p) :=
  holds_andThen hR (parseExpression_rel hR fuel p)
    (fun q => parseExpressionListLoop_rel hR fuel q)

theorem parseIdentListLoop_rel {R : Parser → Option Error → Parser → Prop}
    (hR : StepRel R) (fuel : Nat) (p : Parser) :
    Holds R p (Parser.parseIdentListLoop fuel p) := by
  induction fuel generalizing p with
  | zero => rw [Parser.parseIdentListLoop]; exact holds_none R p
  | succ n ih =>
    rw [Parser.parseIdentListLoop]
    split
    · exact holds_some (hR.refl _)
    · split
      · exact holds_some (hR.refl _)
      · exact holds_andThen hR (holds_match hR _ _)
          (fun q => holds_andThen hR (holds_match hR q _) (fun q => ih q))

theorem parseIdentList_rel {R : Parser → Option Error → Parser → Prop}
    (hR : StepRel R) (fuel : Nat) (p : Parser) :
    Holds R p (Parser.parseIdentList fuel p) :=
  holds_andThen hR (holds_match hR p _) (fun q => parseIdentListLoop_rel hR fuel q)

theorem parseWrite_rel {R : Parser → Option Error → Parser → Prop}
    (hR : StepRel R) (fuel : Nat) (p : Parser) :
    Holds R p (Parser.parseWrite fuel p) :=
  holds_andThen hR (holds_match hR p _)
    (fun q => holds_andThen hR (parseExpressionList_rel hR fuel q)
      (fun q => holds_match hR q _))

theorem parseRead_rel {R : Parser → Option Error → Parser → Prop}
    (hR : StepRel R) (fuel : Nat) (p : Parser) :
    Holds R p (Parser.parseRead fuel p) :=
  holds_andThen hR (holds_match hR p _)
    (fun q => holds_andThen hR (parseIdentList_rel hR fuel q)
      (fun q => holds_match hR q _))

theorem parseAssignment_rel {R : Parser → Option Error → Parser → Prop}
    (hR : StepRel R) (fuel : Nat) (p : Parser) :
    Holds R p (Parser.parseAssignment fuel p) :=
  holds_andThen hR (holds_match hR p _) (fun q => parseExpression_rel hR fuel q)

theorem parseStatement_rel_next {R : Parser → Option Error → Parser → Prop}
    (hR : StepRel R) (fuel : Nat) (p : Parser) :
    Holds R { p with TokenSet := p.TokenSet.Next.2 } (Parser.parseStatement fuel p) := by
  rw [Parser.parseStatement]
  cases hn : p.TokenSet.Next with
  | mk next set =>
    have hset : set = p.TokenSet.Next.2 := by rw [hn]
    subst hset
    cases next with
    | none => exact holds_some (hR.handle _ _ _)
    | some t =>
      dsimp only
      split
      · exact holds_andThen hR (parseAssignment_rel hR fuel _) (fun q => holds_match hR q _)
      · exact holds_andThen hR (parseRead_rel hR fuel _) (fun q => holds_match hR q _)
      · exact holds_andThen hR (parseWrite_rel hR fuel _) (fun q => holds_match hR q _)
      · exact holds_some (hR.handle _ _ _)

theorem parseStatement_rel {R : Parser → Option Error → Parser → Prop}
    (hR : StepRel R) (fuel : Nat) (p : Parser) :
    Holds R p (Parser.parseStatement fuel p) :=
  holds_after_next hR (parseStatement_rel_next hR fuel p)

theorem parseStatementListLoop_rel {R : Parser → Option Error → Parser → Prop}
    (hR : StepRel R) (fuel : Nat) (p : Parser) :
    Holds R p (Parser.parseStatementListLoop fuel p) := by
  induction fuel generalizing p with
  | zero => rw [Parser.parseStatementListLoop]; exact holds_none R p
  | succ n ih =>
    rw [Parser.parseStatementListLoop]
    split
    · exact holds_some (hR.refl _)
    · split
      · exact holds_andThen hR (parseStatement_rel hR n p) (fun q => ih q)
      · exact holds_andThen hR (parseStatement_rel hR n p) (fun q => ih q)
      · exact holds_andThen hR (parseStatement_rel hR n p) (fun q => ih q)
      · exact holds_some (hR.refl _)

theorem parseStatementList_rel {R : Parser → Option Error → Parser → Prop}
    (hR : StepRel R) (fuel : Nat) (p : Parser) :
    Holds R p (Parser.parseStatementList fuel p) :=
  holds_andThen hR (parseStatement_rel hR fuel p)
    (fun q => parseStatementListLoop_rel hR fuel q)

theorem parseProgram_rel {R : Parser → Option Error → Parser → Prop}
    (hR : StepRel R) (fuel : Nat) (p : Parser) :
    Holds R p (Parser.parseProgram fuel p) :=
  holds_andThen hR (holds_match hR p _)
    (fun q => holds_andThen hR (parseStatementList_rel hR fuel q)
      (fun q => holds_match hR q _))

theorem next_tokens_suffix (s : Set) : s.Next.2.Tokens <:+ s.Tokens := by
  unfold Set.Next
  cases h : s.Tokens with
  | nil => simp [h]
  | cons t rest => simp

theorem budget_stepRel : StepRel Budget := by
  refine ⟨?_, ?_, ?_, ?_⟩
  · intro p
    exact ⟨rfl, List.suffix_refl _, [], by simp, by simp, by simp, by simp, by simp⟩
  · rintro p q r e ⟨hm1, hs1, new1, hlog1, hc1, hn1, hlt1, -⟩
      ⟨hm2, hs2, new2, hlog2, hc2, hn2, hlt2, herr2⟩
    refine ⟨hm2.trans hm1, hs2.trans hs1, new1 ++ new2, ?_, ?_, ?_, ?_, ?_⟩
    · rw [hlog2, hlog1, List.append_assoc]
    · rw [hc2, hc1, List.length_append]; omega
    · rw [List.map_append, hn1, hn2, hc1, List.length_append,
        Nat.add_comm new1.length new2.length,
        ← List.range'_append (p.errorCount + 1) new1.length new2.length 1]
      congr 2
      omega
    · intro he r hr
      rcases List.mem_append.1 hr with h | h
      · exact hlt1 rfl r h
      · have := hlt2 he r h
        rwa [hm1] at this
    · intro err he
      obtain ⟨h1, init, last, hnew, hge, hcur, hinit⟩ := herr2 err he
      refine ⟨h1, new1 ++ init, last, ?_, ?_, hcur, ?_⟩
      · rw [hnew, List.append_assoc]
      · rwa [hm1] at hge
      · intro r hr
        rcases List.mem_append.1 hr with h | h
        · exact hlt1 rfl r h
        · have := hinit r h
          rwa [hm1] at this
  · intro p
    exact ⟨rfl, next_tokens_suffix _, [], by simp, by simp, by simp, by simp, by simp⟩
  · intro p a ex
    unfold Parser.handleError
    dsimp only
    split
    · rename_i hge
      refine ⟨rfl, List.suffix_refl _, [_], rfl, rfl, rfl, by simp, ?_⟩
      intro err he
      simp only [Option.some.injEq] at he
      refine ⟨he.symm, [], _, rfl, ?_, rfl, by simp⟩
      simpa using hge
    · rename_i hge
      refine ⟨rfl, List.suffix_refl _, [_], rfl, rfl, rfl, ?_, by simp⟩
      intro _ r hr
      simp only [List.mem_singleton] at hr
      subst hr
      simpa using hge

/-! ## The fuel is enough -/

theorem next_tokens (s : Set) : s.Next.2.Tokens = s.Tokens.tail := by
  unfold Set.Next
  cases h : s.Tokens with
  | nil => simp [h]
  | cons t rest => simp

theorem handleError_tokens (p : Parser) (a : Option Value) (ex : List Token) :
    (p.handleError a ex).2.TokenSet = p.TokenSet := by
  unfold Parser.handleError
  dsimp only
  split <;> rfl

theorem match_tokens (p : Parser) (ex : List Token) :
    (p.match_ ex).2.TokenSet.Tokens = p.TokenSet.Tokens.tail := by
  unfold Parser.match_
  cases hn : p.TokenSet.Next with
  | mk next set =>
    have hset : set = p.TokenSet.Next.2 := by rw [hn]
    subst hset
    cases next with
    | none => simp [handleError_tokens, next_tokens]
    | some t =>
      dsimp only
      split
      · simp [next_tokens]
      · simp [handleError_tokens, next_tokens]

theorem budget_length {p q : Parser} {e : Option Error} (h : Budget p e q) :
    q.TokenSet.Tokens.length ≤ p.TokenSet.Tokens.length :=
  h.2.1.length_le

theorem isSome_andThen {r : ParseResult} {k : Parser → ParseResult} (n : Nat)
    (h1 : r.isSome) (hlen : ∀ e q, r = some (e, q) → q.TokenSet.Tokens.length ≤ n)
    (h2 : ∀ q : Parser, q.TokenSet.Tokens.length ≤ n → (k q).isSome) :
    (andThen r k).isSome := by
  match r, h1, hlen with
  | some (some err, p1), _, _ => simp [andThen]
  | some (none, p1), _, hlen =>
    simp only [andThen]
    exact h2 p1 (hlen _ _ rfl)

theorem isSome_andThen_last {r : ParseResult} {k : Parser → ParseResult}
    (h1 : r.isSome) (h2 : ∀ q : Parser, (k q).isSome) : (andThen r k).isSome := by
  match r, h1 with
  | some (some err, p1), _ => simp [andThen]
  | some (none, p1), _ =>
    simp only [andThen]
    exact h2 p1

theorem isSome_andThen_match {p : Parser} {ex : List Token} {k : Parser → ParseResult}
    (h2 : ∀ q : Parser, q.TokenSet.Tokens.length ≤ p.TokenSet.Tokens.length - 1 →
      (k q).isSome) :
    (andThen (some (p.match_ ex)) k).isSome := by
  refine isSome_andThen (p.TokenSet.Tokens.length - 1) rfl ?_ h2
  intro e q h
  simp only [Option.some.injEq] at h
  have := match_tokens p ex
  rw [h] at this
  dsimp only at this
  rw [this, List.length_tail]

theorem peek_some_length {s : Set} {t : Value} (h : s.Peek = some t) :
    1 ≤ s.Tokens.length := by
  unfold Set.Peek at h
  cases hs : s.Tokens with
  | nil => simp [hs] at h
  | cons a rest => simp

theorem expression_isSome (fuel : Nat) :
    (∀ p : Parser, 2 * p.TokenSet.Tokens.length + 1 ≤ fuel →
      (Parser.parsePrimary fuel p).isSome) ∧
    (∀ p : Parser, 2 * p.TokenSet.Tokens.length + 2 ≤ fuel →
      (Parser.parseExpression fuel p).isSome) ∧
    (∀ p : Parser, 2 * p.TokenSet.Tokens.length + 1 ≤ fuel →
      (Parser.parseExpressionLoop fuel p).isSome) := by
  induction fuel with
  | zero =>
    refine ⟨?_, ?_, ?_⟩ <;> intro p hp <;> omega
  | succ n ih =>
    obtain ⟨ihP, ihE, ihL⟩ := ih
    refine ⟨?_, ?_, ?_⟩ <;> intro p hp
    · rw [Parser.parsePrimary]
      cases hn : p.TokenSet.Next with
      | mk next set =>
        have hset : set = p.TokenSet.Next.2 := by rw [hn]
        subst hset
        cases next with
        | none => rfl
        | some t =>
          dsimp only
          have hlen : (p.TokenSet.Next.2).Tokens.length = p.TokenSet.Tokens.length - 1 := by
            rw [next_tokens, List.length_tail]
          have hpos : 1 ≤ p.TokenSet.Tokens.length := by
            unfold Set.Next at hn
            cases hs : p.TokenSet.Tokens with
            | nil => simp [hs] at hn
            | cons a rest => simp
          split
          · refine isSome_andThen (p.TokenSet.Tokens.length - 1) ?_ ?_ (fun q _ => rfl)
            · apply ihE
              simp only [hlen]
              omega
            · intro e q h
              have := budget_length (parseExpression_rel budget_stepRel n _ e q h)
              simp only [hlen] at this
              exact this
          · rfl
          · rfl
          · rfl
    · rw [Parser.parseExpression]
      refine isSome_andThen p.TokenSet.Tokens.length (ihP p (by omega)) ?_ ?_
      · intro e q h
        exact budget_length ((expression_rel budget_stepRel n).1 p e q h)
      · intro q hq
        exact ihL q (by omega)
    · rw [Parser.parseExpressionLoop]
      split
      · rfl
      · rename_i next hpeek
        have hpos := peek_some_length hpeek
        split
        · rfl
        · unfold Parser.parseArithmeticOP
          apply isSome_andThen_match
          intro q hq
          refine isSome_andThen (p.TokenSet.Tokens.length - 1) (ihP q (by omega)) ?_ ?_
          · intro e q2 h
            have := budget_length ((expression_rel budget_stepRel n).1 q e q2 h)
            omega
          · intro q2 hq2
            exact ihL q2 (by omega)

theorem parseExpression_isSome (fuel : Nat) (p : Parser)
    (h : 2 * p.TokenSet.Tokens.length + 2 ≤ fuel) : (Parser.parseExpression fuel p).isSome :=
  (expression_isSome fuel).2.1 p h

theorem parseExpression_length {fuel : Nat} {p q : Parser} {e : Option Error}
    (h : Parser.parseExpression fuel p = some (e, q)) :
    q.TokenSet.Tokens.length ≤ p.TokenSet.Tokens.length :=
  budget_length (parseExpression_rel budget_stepRel fuel p e q h)

theorem parseExpressionListLoop_isSome (fuel : Nat) (p : Parser)
    (h : 2 * p.TokenSet.Tokens.length + 1 ≤ fuel) :
    (Parser.parseExpressionListLoop fuel p).isSome := by
  induction fuel generalizing p with
  | zero => omega
  | succ n ih =>
    rw [Parser.parseExpressionListLoop]
    split
    · rfl
    · rename_i next hpeek
      have hpos := peek_some_length hpeek
      split
      · rfl
      · apply isSome_andThen_match
        intro q hq
        refine isSome_andThen (p.TokenSet.Tokens.length - 1)
          (parseExpression_isSome n q (by omega)) ?_ ?_
        · intro e q2 h2
          have := parseExpression_length h2
          omega
        · intro q2 hq2
          exact ih q2 (by omega)

theorem parseExpressionList_isSome (fuel : Nat) (p : Parser)
    (h : 2 * p.TokenSet.Tokens.length + 2 ≤ fuel) :
    (Parser.parseExpressionList fuel p).isSome := by
  unfold Parser.parseExpressionList
  refine isSome_andThen p.TokenSet.Tokens.length (parseExpression_isSome fuel p h) ?_ ?_
  · intro e q hq
    exact parseExpression_length hq
  · intro q hq
    exact parseExpressionListLoop_isSome fuel q (by omega)

theorem parseIdentListLoop_isSome (fuel : Nat) (p : Parser)
    (h : 2 * p.TokenSet.Tokens.length + 1 ≤ fuel) :
    (Parser.parseIdentListLoop fuel p).isSome := by
  induction fuel generalizing p with
  | zero => omega
  | succ n ih =>
    rw [Parser.parseIdentListLoop]
    split
    · rfl
    · rename_i next hpeek
      have hpos := peek_some_length hpeek
      split
      · rfl
      · apply isSome_andThen_match
        intro q hq
        apply isSome_andThen_match
        intro q2 hq2
        exact ih q2 (by omega)

theorem parseIdentList_isSome (fuel : Nat) (p : Parser)
    (h : 2 * p.TokenSet.Tokens.length + 2 ≤ fuel) :
    (Parser.parseIdentList fuel p).isSome := by
  unfold Parser.parseIdentList
  apply isSome_andThen_match
  intro q hq
  exact parseIdentListLoop_isSome fuel q (by omega)

theorem parseWrite_isSome (fuel : Nat) (p : Parser)
    (h : 2 * p.TokenSet.Tokens.length + 2 ≤ fuel) :
    (Parser.parseWrite fuel p).isSome := by
  unfold Parser.parseWrite
  apply isSome_andThen_match
  intro q hq
  exact isSome_andThen_last (parseExpressionList_isSome fuel q (by omega)) (fun _ => rfl)

theorem parseRead_isSome (fuel : Nat) (p : Parser)
    (h : 2 * p.TokenSet.Tokens.length + 2 ≤ fuel) :
    (Parser.parseRead fuel p).isSome := by
  unfold Parser.parseRead
  apply isSome_andThen_match
  intro q hq
  exact isSome_andThen_last (parseIdentList_isSome fuel q (by omega)) (fun _ => rfl)

theorem parseAssignment_isSome (fuel : Nat) (p : Parser)
    (h : 2 * p.TokenSet.Tokens.length + 2 ≤ fuel) :
    (Parser.parseAssignment fuel p).isSome := by
  unfold Parser.parseAssignment
  apply isSome_andThen_match
  intro q hq
  exact parseExpression_isSome fuel q (by omega)

theorem parseStatement_isSome (fuel : Nat) (p : Parser)
    (h : 2 * p.TokenSet.Tokens.length + 2 ≤ fuel) :
    (Parser.parseStatement fuel p).isSome := by
  rw [Parser.parseStatement]
  cases hn : p.TokenSet.Next with
  | mk next set =>
    have hset : set = p.TokenSet.Next.2 := by rw [hn]
    subst hset
    have hlen : (p.TokenSet.Next.2).Tokens.length = p.TokenSet.Tokens.length - 1 := by
      rw [next_tokens, List.length_tail]
    cases next with
    | none => rfl
    | some t =>
      dsimp only
      split
      · exact isSome_andThen_last
          (parseAssignment_isSome fuel _ (by simp only [hlen]; omega)) (fun _ => rfl)
      · exact isSome_andThen_last
          (parseRead_isSome fuel _ (by simp only [hlen]; omega)) (fun _ => rfl)
      · exact isSome_andThen_last
          (parseWrite_isSome fuel _ (by simp only [hlen]; omega)) (fun _ => rfl)
      · rfl

theorem parseStatement_length {fuel : Nat} {p q : Parser} {e : Option Error}
    (h : Parser.parseStatement fuel p = some (e, q)) :
    q.TokenSet.Tokens.length ≤ p.TokenSet.Tokens.length - 1 := by
  have := budget_length (parseStatement_rel_next budget_stepRel fuel p e q h)
  simpa [next_tokens] using this

theorem parseStatementListLoop_isSome (fuel : Nat) (p : Parser)
    (h : 2 * p.TokenSet.Tokens.length + 3 ≤ fuel) :
    (Parser.parseStatementListLoop fuel p).isSome := by
  induction fuel generalizing p with
  | zero => omega
  | succ n ih =>
    rw [Parser.parseStatementListLoop]
    split
    · rfl
    · rename_i next hpeek
      have hpos := peek_some_length hpeek
      have key : (andThen (Parser.parseStatement n p) fun parser =>
          Parser.parseStatementListLoop n parser).isSome := by
        refine isSome_andThen (p.TokenSet.Tokens.length - 1)
          (parseStatement_isSome n p (by omega)) ?_ ?_
        · intro e q hq
          exact parseStatement_length hq
        · intro q hq
          exact ih q (by omega)
      split
      · exact key
      · exact key
      · exact key
      · rfl

theorem parseStatementList_isSome (fuel : Nat) (p : Parser)
    (h : 2 * p.TokenSet.Tokens.length + 3 ≤ fuel) :
    (Parser.parseStatementList fuel p).isSome := by
  unfold Parser.parseStatementList
  refine isSome_andThen p.TokenSet.Tokens.length
    (parseStatement_isSome fuel p (by omega)) ?_ ?_
  · intro e q hq
    have := parseStatement_length hq
    omega
  · intro q hq
    exact parseStatementListLoop_isSome fuel q (by omega)

theorem parseProgram_isSome (fuel : Nat) (p : Parser)
    (h : 2 * p.TokenSet.Tokens.length + 3 ≤ fuel) :
    (Parser.parseProgram fuel p).isSome := by
  unfold Parser.parseProgram
  apply isSome_andThen_match
  intro q hq
  exact isSome_andThen_last (parseStatementList_isSome fuel q (by omega)) (fun _ => rfl)

/-- Embeds `Parser.Parse` returns: the fuel it starts with is never used up. -/
theorem parse_total (p : Parser) : ∃ e q, p.Parse = some (e, q) := by
  unfold Parser.Parse
  have h := parseProgram_isSome p.fuel p (by unfold Parser.fuel; omega)
  cases hp : Parser.parseProgram p.fuel p with
  | none => rw [hp] at h; cases h
  | some r =>
    obtain ⟨e, q⟩ := r
    dsimp only
    split
    · exact ⟨_, _, rfl⟩
    · exact ⟨_, _, rfl⟩

/-! ## Completeness: sentences are accepted -/

theorem next_cons {s : Set} {t : Value} {rest : List Value} (h : s.Tokens = t :: rest) :
    s.Next = (some t, ⟨some t, rest⟩) := by
  simp [Set.Next, h]

theorem peek_eq_head (s : Set) : s.Peek = s.Tokens.head? := by
  unfold Set.Peek
  cases s.Tokens <;> rfl

theorem match_ok {p : Parser} {t : Value} {rest : List Value} {ex : List Token}
    (h : p.TokenSet.Tokens = t :: rest) (ht : t.Token ∈ ex) :
    p.match_ ex = (none, { p with TokenSet := ⟨some t, rest⟩ }) := by
  unfold Parser.match_
  rw [next_cons h]
  have : ex.any (fun token => t.Token == token) = true := by
    simp only [List.any_eq_true, beq_iff_eq]
    exact ⟨_, ht, rfl⟩
  simp [this]

theorem kinds_cons {ts : List Value} {k : Token} {w : List Token} (h : kinds ts = k :: w) :
    ∃ t ts1, ts = t :: ts1 ∧ t.Token = k ∧ kinds ts1 = w := by
  unfold kinds at h
  obtain ⟨t, ts1, h1, h2, h3⟩ := List.map_eq_cons_iff.1 h
  exact ⟨t, ts1, h1, h2, h3⟩

theorem kinds_append {ts : List Value} {w1 w2 : List Token} (h : kinds ts = w1 ++ w2) :
    ∃ ts1 ts2, ts = ts1 ++ ts2 ∧ kinds ts1 = w1 ∧ kinds ts2 = w2 := by
  unfold kinds at h
  obtain ⟨ts1, ts2, h1, h2, h3⟩ := List.map_eq_append_iff.1 h
  exact ⟨ts1, ts2, h1, h2, h3⟩

theorem kinds_nil {ts : List Value} (h : kinds ts = []) : ts = [] := by
  unfold kinds at h
  simpa using h

theorem kinds_singleton {ts : List Value} {k : Token} (h : kinds ts = [k]) :
    ∃ t, ts = [t] ∧ t.Token = k := by
  obtain ⟨t, ts1, h1, h2, h3⟩ := kinds_cons h
  rw [kinds_nil h3] at h1
  exact ⟨t, h1, h2⟩

theorem accepts_primaryIdent : Accepts Parser.parsePrimary 1 [] [Token.Ident] := by
  intro ts rest p fuel hk hp _ hf
  obtain ⟨t, rfl, ht⟩ := kinds_singleton hk
  obtain ⟨n, rfl⟩ : ∃ n, fuel = n + 1 := ⟨fuel - 1, by omega⟩
  refine ⟨some t, ?_⟩
  rw [Parser.parsePrimary, next_cons hp]
  simp [ht]

theorem accepts_primaryIntLiteral : Accepts Parser.parsePrimary 1 [] [Token.IntLiteral] := by
  intro ts rest p fuel hk hp _ hf
  obtain ⟨t, rfl, ht⟩ := kinds_singleton hk
  obtain ⟨n, rfl⟩ : ∃ n, fuel = n + 1 := ⟨fuel - 1, by omega⟩
  refine ⟨some t, ?_⟩
  rw [Parser.parsePrimary, next_cons hp]
  simp [ht]

theorem accepts_primaryParen {e : List Token}
    (he : Accepts Parser.parseExpression 2 [Token.PlusOP, Token.MinusOP] e) :
    Accepts Parser.parsePrimary 1 [] (Token.LeftParen :: e ++ [Token.RightParen]) := by
  intro ts rest p fuel hk hp _ hf
  obtain ⟨t, ts1, rfl, ht, hk1⟩ := kinds_cons hk
  obtain ⟨te, tr, rfl, hke, hkr⟩ := kinds_append hk1
  obtain ⟨r, rfl, hr⟩ := kinds_singleton hkr
  obtain ⟨n, rfl⟩ : ∃ n, fuel = n + 1 := ⟨fuel - 1, by omega⟩
  have hp1 : p.TokenSet.Tokens = t :: (te ++ r :: rest) := by simpa using hp
  obtain ⟨cur, hcur⟩ := he te (r :: rest) { p with TokenSet := ⟨some t, te ++ r :: rest⟩ } n
    hke rfl (by simp [hr]) (by simp at hf ⊢; omega)
  refine ⟨some r, ?_⟩
  rw [Parser.parsePrimary, next_cons hp1]
  simp only [ht, hcur, andThen]
  rw [@match_ok _ r rest _ rfl (by simp [hr])]

theorem accepts_expression {a r : List Token}
    (ha : Accepts Parser.parsePrimary 1 [] a)
    (hr : Accepts Parser.parseExpressionLoop 1 [Token.PlusOP, Token.MinusOP] r) :
    Accepts Parser.parseExpression 2 [Token.PlusOP, Token.MinusOP] (a ++ r) := by
  intro ts rest p fuel hk hp hbad hf
  obtain ⟨ta, tr, rfl, hka, hkr⟩ := kinds_append hk
  obtain ⟨n, rfl⟩ : ∃ n, fuel = n + 1 := ⟨fuel - 1, by omega⟩
  obtain ⟨cur1, h1⟩ := ha ta (tr ++ rest) p n hka (by simpa using hp) (by simp)
    (by simp at hf ⊢; omega)
  obtain ⟨cur2, h2⟩ := hr tr rest { p with TokenSet := ⟨cur1, tr ++ rest⟩ } n hkr rfl hbad
    (by simp at hf ⊢; omega)
  refine ⟨cur2, ?_⟩
  rw [Parser.parseExpression, h1]
  simp only [andThen, h2]

theorem accepts_primaryRestNil :
    Accepts Parser.parseExpressionLoop 1 [Token.PlusOP, Token.MinusOP] [] := by
  intro ts rest p fuel hk hp hbad hf
  obtain rfl := kinds_nil hk
  obtain ⟨n, rfl⟩ : ∃ n, fuel = n + 1 := ⟨fuel - 1, by omega⟩
  refine ⟨p.TokenSet.Current, ?_⟩
  simp only [List.nil_append] at hp
  have hset : (⟨p.TokenSet.Current, rest⟩ : Set) = p.TokenSet := by
    rw [← hp]
  rw [Parser.parseExpressionLoop, peek_eq_head, hset]
  cases hh : p.TokenSet.Tokens.head? with
  | none => rfl
  | some t =>
    have := hbad t (by rw [← hp]; exact hh)
    simp only [List.mem_cons, List.mem_singleton, not_or, List.mem_nil_iff, or_false] at this
    simp [this.1, this.2]

theorem accepts_primaryRestCons {a r : List Token} {op : Token}
    (hop : op = Token.PlusOP ∨ op = Token.MinusOP)
    (ha : Accepts Parser.parsePrimary 1 [] a)
    (hr : Accepts Parser.parseExpressionLoop 1 [Token.PlusOP, Token.MinusOP] r) :
    Accepts Parser.parseExpressionLoop 1 [Token.PlusOP, Token.MinusOP] (op :: a ++ r) := by
  intro ts rest p fuel hk hp hbad hf
  obtain ⟨t, ts1, rfl, ht, hk1⟩ := kinds_cons hk
  obtain ⟨ta, tr, rfl, hka, hkr⟩ := kinds_append hk1
  obtain ⟨n, rfl⟩ : ∃ n, fuel = n + 1 := ⟨fuel - 1, by omega⟩
  have hp1 : p.TokenSet.Tokens = t :: (ta ++ (tr ++ rest)) := by simpa using hp
  obtain ⟨cur1, h1⟩ := ha ta (tr ++ rest) { p with TokenSet := ⟨some t, ta ++ (tr ++ rest)⟩ } n
    hka rfl (by simp) (by simp at hf ⊢; omega)
  obtain ⟨cur2, h2⟩ := hr tr rest { p with TokenSet := ⟨cur1, tr ++ rest⟩ } n hkr rfl hbad
    (by simp at hf ⊢; omega)
  refine ⟨cur2, ?_⟩
  have hcond : (!(t.Token == Token.PlusOP || t.Token == Token.MinusOP)) = false := by
    rcases hop with h | h <;> simp [ht, h]
  rw [Parser.parseExpressionLoop, peek_eq_head, hp1]
  simp only [List.head?_cons, hcond, Bool.false_eq_true, if_false, Parser.parseArithmeticOP]
  rw [match_ok hp1 (by rcases hop with h | h <;> simp [ht, h])]
  simp only [andThen, h1, h2]

theorem follow_append {tr rest : List Value} {bad : List Token}
    (h1 : ∀ t, tr.head? = some t → t.Token ∉ bad)
    (h2 : ∀ t, rest.head? = some t → t.Token ∉ bad) :
    ∀ t, (tr ++ rest).head? = some t → t.Token ∉ bad := by
  cases tr with
  | nil => simpa using h2
  | cons a l => simpa using h1

theorem follow_of_kinds {tr : List Value} {r : List Token} {bad : List Token}
    (hk : kinds tr = r) (h : ∀ k, r.head? = some k → k ∉ bad) :
    ∀ t, tr.head? = some t → t.Token ∉ bad := by
  intro t ht
  cases tr with
  | nil => simp at ht
  | cons a l =>
    simp only [List.head?_cons, Option.some.injEq] at ht
    subst ht
    apply h
    rw [← hk]
    rfl

theorem follow_mono {rest : List Value} {bad bad2 : List Token} (hsub : bad2 ⊆ bad)
    (h : ∀ t, rest.head? = some t → t.Token ∉ bad) :
    ∀ t, rest.head? = some t → t.Token ∉ bad2 :=
  fun t ht hmem => h t ht (hsub hmem)

theorem accepts_expressionRestNil :
    Accepts Parser.parseExpressionListLoop 1 [Token.Comma, Token.PlusOP, Token.MinusOP] [] := by
  intro ts rest p fuel hk hp hbad hf
  obtain rfl := kinds_nil hk
  obtain ⟨n, rfl⟩ : ∃ n, fuel = n + 1 := ⟨fuel - 1, by omega⟩
  refine ⟨p.TokenSet.Current, ?_⟩
  simp only [List.nil_append] at hp
  have hset : (⟨p.TokenSet.Current, rest⟩ : Set) = p.TokenSet := by
    rw [← hp]
  rw [Parser.parseExpressionListLoop, peek_eq_head, hset]
  cases hh : p.TokenSet.Tokens.head? with
  | none => rfl
  | some t =>
    have := hbad t (by rw [← hp]; exact hh)
    simp only [List.mem_cons, List.mem_singleton, not_or, List.mem_nil_iff, or_false] at this
    simp [this.1]

theorem accepts_expressionRestCons {e r : List Token}
    (he : Accepts Parser.parseExpression 2 [Token.PlusOP, Token.MinusOP] e)
    (hr : Accepts Parser.parseExpressionListLoop 1
      [Token.Comma, Token.PlusOP, Token.MinusOP] r)
    (hr0 : ∀ k, r.head? = some k → k ∉ [Token.PlusOP, Token.MinusOP]) :
    Accepts Parser.parseExpressionListLoop 1 [Token.Comma, Token.PlusOP, Token.MinusOP]
      (Token.Comma :: e ++ r) := by
  intro ts rest p fuel hk hp hbad hf
  obtain ⟨t, ts1, rfl, ht, hk1⟩ := kinds_cons hk
  obtain ⟨te, tr, rfl, hke, hkr⟩ := kinds_append hk1
  obtain ⟨n, rfl⟩ : ∃ n, fuel = n + 1 := ⟨fuel - 1, by omega⟩
  have hp1 : p.TokenSet.Tokens = t :: (te ++ (tr ++ rest)) := by simpa using hp
  obtain ⟨cur1, h1⟩ := he te (tr ++ rest) { p with TokenSet := ⟨some t, te ++ (tr ++ rest)⟩ } n
    hke rfl (follow_append (follow_of_kinds hkr hr0) (follow_mono (by simp) hbad))
    (by simp at hf ⊢; omega)
  obtain ⟨cur2, h2⟩ := hr tr rest { p with TokenSet := ⟨cur1, tr ++ rest⟩ } n hkr rfl hbad
    (by simp at hf ⊢; omega)
  refine ⟨cur2, ?_⟩
  rw [Parser.parseExpressionListLoop, peek_eq_head, hp1]
  simp only [List.head?_cons, ht, bne_self_eq_false, Bool.false_eq_true, if_false]
  rw [match_ok hp1 (by simp [ht])]
  simp only [andThen, h1, h2]

theorem accepts_expressionList {e r : List Token}
    (he : Accepts Parser.parseExpression 2 [Token.PlusOP, Token.MinusOP] e)
    (hr : Accepts Parser.parseExpressionListLoop 1
      [Token.Comma, Token.PlusOP, Token.MinusOP] r)
    (hr0 : ∀ k, r.head? = some k → k ∉ [Token.PlusOP, Token.MinusOP]) :
    Accepts Parser.parseExpressionList 2 [Token.Comma, Token.PlusOP, Token.MinusOP]
      (e ++ r) := by
  intro ts rest p fuel hk hp hbad hf
  obtain ⟨te, tr, rfl, hke, hkr⟩ := kinds_append hk
  obtain ⟨cur1, h1⟩ := he te (tr ++ rest) p fuel
    hke (by simpa using hp)
    (follow_append (follow_of_kinds hkr hr0) (follow_mono (by simp) hbad))
    (by simp at hf ⊢; omega)
  obtain ⟨cur2, h2⟩ := hr tr rest { p with TokenSet := ⟨cur1, tr ++ rest⟩ } fuel hkr rfl hbad
    (by simp at hf ⊢; omega)
  refine ⟨cur2, ?_⟩
  rw [Parser.parseExpressionList, h1]
  simp only [andThen, h2]

theorem accepts_identRestNil : Accepts Parser.parseIdentListLoop 1 [Token.Comma] [] := by
  intro ts rest p fuel hk hp hbad hf
  obtain rfl := kinds_nil hk
  obtain ⟨n, rfl⟩ : ∃ n, fuel = n + 1 := ⟨fuel - 1, by omega⟩
  refine ⟨p.TokenSet.Current, ?_⟩
  simp only [List.nil_append] at hp
  have hset : (⟨p.TokenSet.Current, rest⟩ : Set) = p.TokenSet := by
    rw [← hp]
  rw [Parser.parseIdentListLoop, peek_eq_head, hset]
  cases hh : p.TokenSet.Tokens.head? with
  | none => rfl
  | some t =>
    have := hbad t (by rw [← hp]; exact hh)
    simp only [List.mem_singleton] at this
    simp [this]

theorem accepts_identRestCons {r : List Token}
    (hr : Accepts Parser.parseIdentListLoop 1 [Token.Comma] r) :
    Accepts Parser.parseIdentListLoop 1 [Token.Comma] (Token.Comma :: Token.Ident :: r) := by
  intro ts rest p fuel hk hp hbad hf
  obtain ⟨t, ts1, rfl, ht, hk1⟩ := kinds_cons hk
  obtain ⟨t2, tr, rfl, ht2, hkr⟩ := kinds_cons hk1
  obtain ⟨n, rfl⟩ : ∃ n, fuel = n + 1 := ⟨fuel - 1, by omega⟩
  have hp1 : p.TokenSet.Tokens = t :: t2 :: (tr ++ rest) := by simpa using hp
  obtain ⟨cur2, h2⟩ := hr tr rest { p with TokenSet := ⟨some t2, tr ++ rest⟩ } n hkr rfl hbad
    (by simp at hf ⊢; omega)
  refine ⟨cur2, ?_⟩
  rw [Parser.parseIdentListLoop, peek_eq_head, hp1]
  simp only [List.head?_cons, ht, bne_self_eq_false, Bool.false_eq_true, if_false]
  rw [match_ok hp1 (by simp [ht])]
  simp only [andThen]
  rw [@match_ok _ t2 (tr ++ rest) _ rfl (by simp [ht2])]
  simp only [andThen, h2]

theorem accepts_identList {r : List Token}
    (hr : Accepts Parser.parseIdentListLoop 1 [Token.Comma] r) :
    Accepts Parser.parseIdentList 1 [Token.Comma] (Token.Ident :: r) := by
  intro ts rest p fuel hk hp hbad hf
  obtain ⟨t, tr, rfl, ht, hkr⟩ := kinds_cons hk
  have hp1 : p.TokenSet.Tokens = t :: (tr ++ rest) := by simpa using hp
  obtain ⟨cur2, h2⟩ := hr tr rest { p with TokenSet := ⟨some t, tr ++ rest⟩ } fuel hkr rfl hbad
    (by simp at hf ⊢; omega)
  refine ⟨cur2, ?_⟩
  rw [Parser.parseIdentList, match_ok hp1 (by simp [ht])]
  simp only [andThen, h2]

theorem accepts_writeCall {l : List Token}
    (hl : Accepts Parser.parseExpressionList 2 [Token.Comma, Token.PlusOP, Token.MinusOP] l) :
    Accepts Parser.parseWrite 2 [] (Token.LeftParen :: l ++ [Token.RightParen]) := by
  intro ts rest p fuel hk hp _ hf
  obtain ⟨t, ts1, rfl, ht, hk1⟩ := kinds_cons hk
  obtain ⟨tl, tr, rfl, hkl, hkr⟩ := kinds_append hk1
  obtain ⟨r, rfl, hr⟩ := kinds_singleton hkr
  have hp1 : p.TokenSet.Tokens = t :: (tl ++ r :: rest) := by simpa using hp
  obtain ⟨cur, hcur⟩ := hl tl (r :: rest) { p with TokenSet := ⟨some t, tl ++ r :: rest⟩ } fuel
    hkl rfl (by simp [hr]) (by simp at hf ⊢; omega)
  refine ⟨some r, ?_⟩
  rw [Parser.parseWrite, match_ok hp1 (by simp [ht])]
  simp only [andThen, hcur]
  rw [@match_ok _ r rest _ rfl (by simp [hr])]

theorem accepts_readCall {l : List Token}
    (hl : Accepts Parser.parseIdentList 1 [Token.Comma] l) :
    Accepts Parser.parseRead 2 [] (Token.LeftParen :: l ++ [Token.RightParen]) := by
  intro ts rest p fuel hk hp _ hf
  obtain ⟨t, ts1, rfl, ht, hk1⟩ := kinds_cons hk
  obtain ⟨tl, tr, rfl, hkl, hkr⟩ := kinds_append hk1
  obtain ⟨r, rfl, hr⟩ := kinds_singleton hkr
  have hp1 : p.TokenSet.Tokens = t :: (tl ++ r :: rest) := by simpa using hp
  obtain ⟨cur, hcur⟩ := hl tl (r :: rest) { p with TokenSet := ⟨some t, tl ++ r :: rest⟩ } fuel
    hkl rfl (by simp [hr]) (by simp at hf ⊢; omega)
  refine ⟨some r, ?_⟩
  rw [Parser.parseRead, match_ok hp1 (by simp [ht])]
  simp only [andThen, hcur]
  rw [@match_ok _ r rest _ rfl (by simp [hr])]

theorem accepts_assignment {e : List Token}
    (he : Accepts Parser.parseExpression 2 [Token.PlusOP, Token.MinusOP] e) :
    Accepts Parser.parseAssignment 2 [Token.PlusOP, Token.MinusOP] (Token.AssignOP :: e) := by
  intro ts rest p fuel hk hp hbad hf
  obtain ⟨t, te, rfl, ht, hke⟩ := kinds_cons hk
  have hp1 : p.TokenSet.Tokens = t :: (te ++ rest) := by simpa using hp
  obtain ⟨cur, hcur⟩ := he te rest { p with TokenSet := ⟨some t, te ++ rest⟩ } fuel
    hke rfl hbad (by simp at hf ⊢; omega)
  refine ⟨cur, ?_⟩
  rw [Parser.parseAssignment, match_ok hp1 (by simp [ht])]
  simp only [andThen, hcur]

/-- A statement: the dispatch token `d`, what the method `f` chosen for it
accepts, and the semicolon. -/
theorem accepts_statement {a : List Token} {d : Token} {bad : List Token}
    {f : Nat → Parser → ParseResult} (hbad : Token.Semicolon ∉ bad)
    (hf : Accepts f 2 bad a)
    (hd : ∀ (fuel : Nat) (p : Parser) (t : Value) (rest : List Value),
      p.TokenSet.Tokens = t :: rest → t.Token = d →
      Parser.parseStatement fuel p =
        andThen (f fuel { p with TokenSet := ⟨some t, rest⟩ }) fun parser =>
          some (parser.match_ [Token.Semicolon])) :
    Accepts Parser.parseStatement 2 [] (d :: a ++ [Token.Semicolon]) := by
  intro ts rest p fuel hk hp _ hfuel
  obtain ⟨t, ts1, rfl, ht, hk1⟩ := kinds_cons hk
  obtain ⟨ta, tr, rfl, hka, hkr⟩ := kinds_append hk1
  obtain ⟨r, rfl, hr⟩ := kinds_singleton hkr
  have hp1 : p.TokenSet.Tokens = t :: (ta ++ r :: rest) := by simpa using hp
  obtain ⟨cur, hcur⟩ := hf ta (r :: rest) { p with TokenSet := ⟨some t, ta ++ r :: rest⟩ } fuel
    hka rfl (by simpa [hr] using hbad) (by simp at hfuel ⊢; omega)
  refine ⟨some r, ?_⟩
  rw [hd fuel p t _ hp1 ht, hcur]
  simp only [andThen]
  rw [@match_ok _ r rest _ rfl (by simp [hr])]

theorem parseStatement_ident (fuel : Nat) (p : Parser) (t : Value) (rest : List Value)
    (hp : p.TokenSet.Tokens = t :: rest) (ht : t.Token = Token.Ident) :
    Parser.parseStatement fuel p =
      andThen (Parser.parseAssignment fuel { p with TokenSet := ⟨some t, rest⟩ })
        fun parser => some (parser.match_ [Token.Semicolon]) := by
  rw [Parser.parseStatement, next_cons hp]
  simp [ht]

theorem parseStatement_read (fuel : Nat) (p : Parser) (t : Value) (rest : List Value)
    (hp : p.TokenSet.Tokens = t :: rest) (ht : t.Token = Token.Read) :
    Parser.parseStatement fuel p =
      andThen (Parser.parseRead fuel { p with TokenSet := ⟨some t, rest⟩ })
        fun parser => some (parser.match_ [Token.Semicolon]) := by
  rw [Parser.parseStatement, next_cons hp]
  simp [ht]

theorem parseStatement_write (fuel : Nat) (p : Parser) (t : Value) (rest : List Value)
    (hp : p.TokenSet.Tokens = t :: rest) (ht : t.Token = Token.Write) :
    Parser.parseStatement fuel p =
      andThen (Parser.parseWrite fuel { p with TokenSet := ⟨some t, rest⟩ })
        fun parser => some (parser.match_ [Token.Semicolon]) := by
  rw [Parser.parseStatement, next_cons hp]
  simp [ht]

theorem accepts_statementRestNil :
    Accepts Parser.parseStatementListLoop 3 [Token.Ident, Token.Read, Token.Write] [] := by
  intro ts rest p fuel hk hp hbad hf
  obtain rfl := kinds_nil hk
  obtain ⟨n, rfl⟩ : ∃ n, fuel = n + 1 := ⟨fuel - 1, by omega⟩
  refine ⟨p.TokenSet.Current, ?_⟩
  simp only [List.nil_append] at hp
  have hset : (⟨p.TokenSet.Current, rest⟩ : Set) = p.TokenSet := by
    rw [← hp]
  rw [Parser.parseStatementListLoop, peek_eq_head, hset]
  cases hh : p.TokenSet.Tokens.head? with
  | none => rfl
  | some t =>
    have := hbad t (by rw [← hp]; exact hh)
    simp only [List.mem_cons, List.mem_singleton, not_or, List.mem_nil_iff, or_false] at this
    dsimp only
    split <;> simp_all

theorem accepts_statementRestCons {s r : List Token} (hne : s ≠ [])
    (hhead : ∀ k, s.head? = some k → k ∈ [Token.Ident, Token.Read, Token.Write])
    (hs : Accepts Parser.parseStatement 2 [] s)
    (hr : Accepts Parser.parseStatementListLoop 3 [Token.Ident, Token.Read, Token.Write] r) :
    Accepts Parser.parseStatementListLoop 3 [Token.Ident, Token.Read, Token.Write]
      (s ++ r) := by
  intro ts rest p fuel hk hp hbad hf
  obtain ⟨ta, tr, rfl, hka, hkr⟩ := kinds_append hk
  obtain ⟨n, rfl⟩ : ∃ n, fuel = n + 1 := ⟨fuel - 1, by omega⟩
  obtain ⟨t, ta1, rfl⟩ : ∃ t ta1, ta = t :: ta1 := by
    cases ta with
    | nil => exact absurd hka.symm hne
    | cons t ta1 => exact ⟨t, ta1, rfl⟩
  have hp1 : p.TokenSet.Tokens = t :: (ta1 ++ (tr ++ rest)) := by simpa using hp
  have htk := hhead t.Token (by rw [← hka]; rfl)
  obtain ⟨cur1, h1⟩ := hs (t :: ta1) (tr ++ rest) p n hka (by simpa using hp) (by simp)
    (by simp at hf ⊢; omega)
  obtain ⟨cur2, h2⟩ := hr tr rest { p with TokenSet := ⟨cur1, tr ++ rest⟩ } n hkr rfl hbad
    (by simp at hf ⊢; omega)
  refine ⟨cur2, ?_⟩
  have key : (andThen (Parser.parseStatement n p) fun parser =>
      Parser.parseStatementListLoop n parser) =
        some (none, { p with TokenSet := ⟨cur2, rest⟩ }) := by
    rw [h1]
    simp only [andThen, h2]
  rw [Parser.parseStatementListLoop, peek_eq_head, hp1]
  simp only [List.head?_cons]
  simp only [List.mem_cons, List.mem_singleton, List.mem_nil_iff, or_false] at htk
  rcases htk with h | h | h <;> simp only [h] <;> exact key

theorem accepts_statementList {s r : List Token}
    (hs : Accepts Parser.parseStatement 2 [] s)
    (hr : Accepts Parser.parseStatementListLoop 3 [Token.Ident, Token.Read, Token.Write] r) :
    Accepts Parser.parseStatementList 3 [Token.Ident, Token.Read, Token.Write] (s ++ r) := by
  intro ts rest p fuel hk hp hbad hf
  obtain ⟨ta, tr, rfl, hka, hkr⟩ := kinds_append hk
  obtain ⟨cur1, h1⟩ := hs ta (tr ++ rest) p fuel hka (by simpa using hp) (by simp)
    (by simp at hf ⊢; omega)
  obtain ⟨cur2, h2⟩ := hr tr rest { p with TokenSet := ⟨cur1, tr ++ rest⟩ } fuel hkr rfl hbad
    (by simp at hf ⊢; omega)
  refine ⟨cur2, ?_⟩
  rw [Parser.parseStatementList, h1]
  simp only [andThen, h2]

theorem accepts_program {sl : List Token}
    (hs : Accepts Parser.parseStatementList 3 [Token.Ident, Token.Read, Token.Write] sl) :
    Accepts Parser.parseProgram 3 [] (Token.Begin :: sl ++ [Token.End]) := by
  intro ts rest p fuel hk hp _ hf
  obtain ⟨t, ts1, rfl, ht, hk1⟩ := kinds_cons hk
  obtain ⟨tl, tr, rfl, hkl, hkr⟩ := kinds_append hk1
  obtain ⟨r, rfl, hr⟩ := kinds_singleton hkr
  have hp1 : p.TokenSet.Tokens = t :: (tl ++ r :: rest) := by simpa using hp
  obtain ⟨cur, hcur⟩ := hs tl (r :: rest) { p with TokenSet := ⟨some t, tl ++ r :: rest⟩ } fuel
    hkl rfl (by simp [hr]) (by simp at hf ⊢; omega)
  refine ⟨some r, ?_⟩
  rw [Parser.parseProgram, match_ok hp1 (by simp [ht])]
  simp only [andThen, hcur]
  rw [@match_ok _ r rest _ rfl (by simp [hr])]

theorem sentence_realised {π : Production} {w : List Token} (h : Sentence π w) :
    Realised π w := by
  induction h with
  | program _ ih => exact accepts_program ih
  | statementList _ _ ih1 ih2 => exact accepts_statementList ih1.1 ih2
  | statementRestNil => exact accepts_statementRestNil
  | statementRestCons _ _ ih1 ih2 => exact accepts_statementRestCons ih1.2.1 ih1.2.2 ih1.1 ih2
  | statementAssignment _ ih =>
    obtain ⟨v, rfl, hv⟩ := ih
    exact ⟨accepts_statement (by simp) hv parseStatement_ident, by simp, by simp⟩
  | statementRead _ ih =>
    obtain ⟨v, rfl, hv⟩ := ih
    exact ⟨accepts_statement (by simp) hv parseStatement_read, by simp, by simp⟩
  | statementWrite _ ih =>
    obtain ⟨v, rfl, hv⟩ := ih
    exact ⟨accepts_statement (by simp) hv parseStatement_write, by simp, by simp⟩
  | assignment _ ih => exact ⟨_, rfl, accepts_assignment ih⟩
  | readCall _ ih => exact ⟨_, rfl, accepts_readCall ih⟩
  | writeCall _ ih => exact ⟨_, rfl, accepts_writeCall ih⟩
  | identList _ ih => exact accepts_identList ih
  | identRestNil => exact accepts_identRestNil
  | identRestCons _ ih => exact accepts_identRestCons ih
  | expressionList _ _ ih1 ih2 => exact accepts_expressionList ih1 ih2.1 ih2.2
  | expressionRestNil => exact ⟨accepts_expressionRestNil, by simp⟩
  | expressionRestCons _ _ ih1 ih2 =>
    exact ⟨accepts_expressionRestCons ih1 ih2.1 ih2.2, by simp⟩
  | expression _ _ ih1 ih2 => exact accepts_expression ih1 ih2
  | primaryRestNil => exact accepts_primaryRestNil
  | primaryRestPlus _ _ ih1 ih2 => exact accepts_primaryRestCons (Or.inl rfl) ih1 ih2
  | primaryRestMinus _ _ ih1 ih2 => exact accepts_primaryRestCons (Or.inr rfl) ih1 ih2
  | primaryParen _ ih => exact accepts_primaryParen ih
  | primaryIdent => exact accepts_primaryIdent
  | primaryIntLiteral => exact accepts_primaryIntLiteral

theorem sampleStatements_sentence : Sentence .StatementList (kinds sampleStatements) := by
  have hx : Sentence .Expression [Token.Ident] :=
    Sentence.expression Sentence.primaryIdent Sentence.primaryRestNil
  have hread : Sentence .Statement
      [Token.Read, Token.LeftParen, Token.Ident, Token.Comma, Token.Ident,
        Token.RightParen, Token.Semicolon] :=
    Sentence.statementRead
      (Sentence.readCall (Sentence.identList (Sentence.identRestCons Sentence.identRestNil)))
  have hsum : Sentence .Expression
      [Token.Ident, Token.PlusOP, Token.Ident, Token.MinusOP, Token.IntLiteral] :=
    Sentence.expression Sentence.primaryIdent
      (Sentence.primaryRestPlus Sentence.primaryIdent
        (Sentence.primaryRestMinus Sentence.primaryIntLiteral Sentence.primaryRestNil))
  have hassign : Sentence .Statement
      [Token.Ident, Token.AssignOP, Token.Ident, Token.PlusOP, Token.Ident, Token.MinusOP,
        Token.IntLiteral, Token.Semicolon] :=
    Sentence.statementAssignment (Sentence.assignment hsum)
  have hwrite : Sentence .Statement
      [Token.Write, Token.LeftParen, Token.Ident, Token.RightParen, Token.Semicolon] :=
    Sentence.statementWrite
      (Sentence.writeCall (Sentence.expressionList hx Sentence.expressionRestNil))
  exact Sentence.statementList hread
      (Sentence.statementRestCons hassign
        (Sentence.statementRestCons hwrite Sentence.statementRestNil))

theorem sampleTokens_sentence : Sentence .Program (kinds sampleTokens) :=
  Sentence.program sampleStatements_sentence

/-- C1. Completeness of the recognizer: for every token sequence whose kinds
form a sentence of `Program` and every budget `N`, `Parser.Parse` returns `nil`
with nothing written to the error stream, the error counter at zero and every
token consumed. -/
theorem parse_complete (ts : List Value) (N : Int) (h : Sentence .Program (kinds ts)) :
    ∃ cur, (Parser.New ts N).Parse =
      some (none, { TokenSet := ⟨cur, []⟩, MaxErrors := N, errorCount := 0, stderr := [] }) := by
  obtain ⟨cur, hcur⟩ := sentence_realised h ts [] (Parser.New ts N) (Parser.New ts N).fuel rfl
    (by simp [Parser.New, NewSet]) (by simp)
    (by simp [Parser.fuel, Parser.New, NewSet])
  refine ⟨cur, ?_⟩
  unfold Parser.Parse
  rw [hcur]
  simp [Parser.New]

/-- C1, witness: the tokens of `begin read(x,y); z:=x+y-1; write(z); end` with
the budget 5 of `run`. -/
theorem parse_complete_witness :
    Sentence .Program (kinds sampleTokens) ∧
    ∃ cur, (Parser.New sampleTokens 5).Parse =
      some (none, { TokenSet := ⟨cur, []⟩, MaxErrors := 5, errorCount := 0, stderr := [] }) :=
  ⟨sampleTokens_sentence, parse_complete sampleTokens 5 sampleTokens_sentence⟩

/-! ## Soundness: what is accepted without an error is a sentence -/

theorem budget_count {p q : Parser} {e : Option Error} (h : Budget p e q) :
    p.errorCount ≤ q.errorCount := by
  obtain ⟨-, -, new, -, hc, -⟩ := h
  omega

theorem handleError_count (p : Parser) (a : Option Value) (ex : List Token) :
    (p.handleError a ex).2.errorCount = p.errorCount + 1 := by
  unfold Parser.handleError
  dsimp only
  split <;> rfl

theorem andThen_eq_some_none {r : ParseResult} {k : Parser → ParseResult} {q : Parser}
    (h : andThen r k = some (none, q)) : ∃ p1, r = some (none, p1) ∧ k p1 = some (none, q) := by
  match r, h with
  | none, h => simp [andThen] at h
  | some (some err, p1), h => simp [andThen] at h
  | some (none, p1), h => exact ⟨p1, rfl, h⟩

theorem sound_mono {f : Parser → ParseResult} {P Q : List Token → Prop}
    (hPQ : ∀ w, P w → Q w) (h : Sound f P) : Sound f Q := by
  intro p q hf hc
  obtain ⟨ts, h1, h2⟩ := h p q hf hc
  exact ⟨ts, h1, hPQ _ h2⟩

theorem sound_match (ex : List Token) :
    Sound (fun p => some (p.match_ ex)) (fun w => ∃ k ∈ ex, w = [k]) := by
  intro p q hf hc
  simp only [Option.some.injEq] at hf
  unfold Parser.match_ at hf
  cases hs : p.TokenSet.Tokens with
  | nil =>
    have hn : p.TokenSet.Next = (none, { p.TokenSet with Current := none }) := by
      simp [Set.Next, hs]
    rw [hn] at hf
    dsimp only at hf
    have := handleError_count { p with TokenSet := { p.TokenSet with Current := none } } none ex
    rw [hf] at this
    simp only at this
    omega
  | cons t rest =>
    rw [next_cons hs] at hf
    dsimp only at hf
    split at hf
    · rename_i hany
      simp only [Prod.mk.injEq, true_and] at hf
      subst hf
      simp only [List.any_eq_true, beq_iff_eq] at hany
      obtain ⟨k, hk, hkt⟩ := hany
      exact ⟨[t], by simp, k, hk, by simp [kinds, hkt]⟩
    · have := handleError_count { p with TokenSet := ⟨some t, rest⟩ } (some t) ex
      rw [hf] at this
      simp only at this
      omega

theorem sound_seq {f g : Parser → ParseResult} {P Q : List Token → Prop}
    (hBf : ∀ p, Holds Budget p (f p)) (hBg : ∀ p, Holds Budget p (g p))
    (hf : Sound f P) (hg : Sound g Q) :
    Sound (fun p => andThen (f p) g) (fun w => ∃ a b, w = a ++ b ∧ P a ∧ Q b) := by
  intro p q h hc
  obtain ⟨p1, h1, h2⟩ := andThen_eq_some_none h
  have c1 := budget_count (hBf p _ _ h1)
  have c2 := budget_count (hBg p1 _ _ h2)
  obtain ⟨ta, hta, hPa⟩ := hf p p1 h1 (by omega)
  obtain ⟨tb, htb, hQb⟩ := hg p1 q h2 (by omega)
  refine ⟨ta ++ tb, ?_, kinds ta, kinds tb, ?_, hPa, hQb⟩
  · rw [hta, htb, List.append_assoc]
  · simp [kinds]

theorem sound_nil {P : List Token → Prop} (h : P []) : Sound (fun p => some (none, p)) P := by
  intro p q hf _
  simp only [Option.some.injEq, Prod.mk.injEq, true_and] at hf
  subst hf
  exact ⟨[], rfl, h⟩

theorem holds_budget_match (ex : List Token) (p : Parser) :
    Holds Budget p (some (p.match_ ex)) :=
  holds_match budget_stepRel p ex

theorem expression_sound (fuel : Nat) :
    Sound (Parser.parsePrimary fuel) (Sentence .Primary) ∧
    Sound (Parser.parseExpression fuel) (Sentence .Expression) ∧
    Sound (Parser.parseExpressionLoop fuel) (Sentence .PrimaryRest) := by
  induction fuel with
  | zero =>
    refine ⟨?_, ?_, ?_⟩ <;> intro p q h _
    · rw [Parser.parsePrimary] at h; cases h
    · rw [Parser.parseExpression] at h; cases h
    · rw [Parser.parseExpressionLoop] at h; cases h
  | succ n ih =>
    obtain ⟨ihP, ihE, ihL⟩ := ih
    have hBP := (expression_rel budget_stepRel n).1
    have hBE := (expression_rel budget_stepRel n).2.1
    have hBL := (expression_rel budget_stepRel n).2.2
    refine ⟨?_, ?_, ?_⟩
    · intro p q h hc
      rw [Parser.parsePrimary] at h
      cases hs : p.TokenSet.Tokens with
      | nil =>
        have hn : p.TokenSet.Next = (none, { p.TokenSet with Current := none }) := by
          simp [Set.Next, hs]
        rw [hn] at h
        simp only [Option.some.injEq] at h
        have := handleError_count { p with TokenSet := { p.TokenSet with Current := none } }
          none [Token.LeftParen, Token.Ident, Token.IntLiteral]
        rw [h] at this
        simp only at this
        omega
      | cons t rest =>
        rw [next_cons hs] at h
        dsimp only at h
        split at h
        · rename_i ht
          have hsnd := sound_seq hBE (holds_budget_match [Token.RightParen]) ihE
            (sound_match [Token.RightParen])
          obtain ⟨ts, h1, a, b, hab, ha, k, hk, hb⟩ :=
            hsnd { p with TokenSet := ⟨some t, rest⟩ } q h hc
          simp only [List.mem_singleton] at hk
          subst hk hb
          refine ⟨t :: ts, by simpa using h1, ?_⟩
          simp only [kinds, List.map_cons, ht]
          rw [show List.map (fun t => t.Token) ts = kinds ts from rfl, hab]
          exact Sentence.primaryParen ha
        · rename_i ht
          simp only [Option.some.injEq, Prod.mk.injEq, true_and] at h
          subst h
          exact ⟨[t], by simp, by simpa [kinds, ht] using Sentence.primaryIdent⟩
        · rename_i ht
          simp only [Option.some.injEq, Prod.mk.injEq, true_and] at h
          subst h
          exact ⟨[t], by simp, by simpa [kinds, ht] using Sentence.primaryIntLiteral⟩
        · simp only [Option.some.injEq] at h
          have := handleError_count { p with TokenSet := ⟨some t, rest⟩ } (some t)
            [Token.LeftParen, Token.Ident, Token.IntLiteral]
          rw [h] at this
          simp only at this
          omega
    · intro p q h hc
      rw [Parser.parseExpression] at h
      obtain ⟨ts, h1, a, b, hab, ha, hb⟩ := sound_seq hBP hBL ihP ihL p q h hc
      exact ⟨ts, h1, hab ▸ Sentence.expression ha hb⟩
    · intro p q h hc
      rw [Parser.parseExpressionLoop] at h
      split at h
      · exact sound_nil Sentence.primaryRestNil p q h hc
      · rename_i next hpeek
        split at h
        · exact sound_nil Sentence.primaryRestNil p q h hc
        · rename_i hcond
          have hsnd := sound_seq (holds_budget_match [Token.PlusOP, Token.MinusOP])
            (fun p1 => holds_andThen budget_stepRel (hBP p1) hBL)
            (sound_match [Token.PlusOP, Token.MinusOP]) (sound_seq hBP hBL ihP ihL)
          obtain ⟨ts, h1, a, b, hab, ⟨k, hk, ha⟩, c, d, hcd, hc1, hd⟩ := hsnd p q h hc
          refine ⟨ts, h1, ?_⟩
          rw [hab, ha, hcd]
          simp only [List.mem_cons, List.mem_singleton, List.mem_nil_iff, or_false] at hk
          rcases hk with rfl | rfl
          · exact Sentence.primaryRestPlus (a := c) (r := d) hc1 hd
          · exact Sentence.primaryRestMinus (a := c) (r := d) hc1 hd

theorem parseExpression_sound (fuel : Nat) :
    Sound (Parser.parseExpression fuel) (Sentence .Expression) :=
  (expression_sound fuel).2.1

theorem parseExpressionListLoop_sound (fuel : Nat) :
    Sound (Parser.parseExpressionListLoop fuel) (Sentence .ExpressionRest) := by
  induction fuel with
  | zero =>
    intro p q h _
    rw [Parser.parseExpressionListLoop] at h; cases h
  | succ n ih =>
    intro p q h hc
    rw [Parser.parseExpressionListLoop] at h
    split at h
    · exact sound_nil Sentence.expressionRestNil p q h hc
    · split at h
      · exact sound_nil Sentence.expressionRestNil p q h hc
      · have hsnd := sound_seq (holds_budget_match [Token.Comma])
          (fun p1 => holds_andThen budget_stepRel (parseExpression_rel budget_stepRel n p1)
            (parseExpressionListLoop_rel budget_stepRel n))
          (sound_match [Token.Comma])
          (sound_seq (parseExpression_rel budget_stepRel n)
            (parseExpressionListLoop_rel budget_stepRel n) (parseExpression_sound n) ih)
        obtain ⟨ts, h1, a, b, hab, ⟨k, hk, ha⟩, c, d, hcd, hc1, hd⟩ := hsnd p q h hc
        refine ⟨ts, h1, ?_⟩
        rw [hab, ha, hcd]
        simp only [List.mem_singleton] at hk
        subst hk
        exact Sentence.expressionRestCons (e := c) (r := d) hc1 hd

theorem parseExpressionList_sound (fuel : Nat) :
    Sound (Parser.parseExpressionList fuel) (Sentence .ExpressionList) := by
  intro p q h hc
  rw [Parser.parseExpressionList] at h
  obtain ⟨ts, h1, a, b, hab, ha, hb⟩ := sound_seq (parseExpression_rel budget_stepRel fuel)
    (parseExpressionListLoop_rel budget_stepRel fuel) (parseExpression_sound fuel)
    (parseExpressionListLoop_sound fuel) p q h hc
  exact ⟨ts, h1, hab ▸ Sentence.expressionList ha hb⟩

theorem parseIdentListLoop_sound (fuel : Nat) :
    Sound (Parser.parseIdentListLoop fuel) (Sentence .IdentRest) := by
  induction fuel with
  | zero =>
    intro p q h _
    rw [Parser.parseIdentListLoop] at h; cases h
  | succ n ih =>
    intro p q h hc
    rw [Parser.parseIdentListLoop] at h
    split at h
    · exact sound_nil Sentence.identRestNil p q h hc
    · split at h
      · exact sound_nil Sentence.identRestNil p q h hc
      · have hsnd := sound_seq (holds_budget_match [Token.Comma])
          (fun p1 => holds_andThen budget_stepRel (holds_budget_match [Token.Ident] p1)
            (parseIdentListLoop_rel budget_stepRel n))
          (sound_match [Token.Comma])
          (sound_seq (holds_budget_match [Token.Ident])
            (parseIdentListLoop_rel budget_stepRel n) (sound_match [Token.Ident]) ih)
        obtain ⟨ts, h1, a, b, hab, ⟨k, hk, ha⟩, c, d, hcd, ⟨k2, hk2, hc1⟩, hd⟩ :=
          hsnd p q h hc
        refine ⟨ts, h1, ?_⟩
        rw [hab, ha, hcd, hc1]
        simp only [List.mem_singleton] at hk hk2
        subst hk hk2
        exact Sentence.identRestCons hd

theorem parseIdentList_sound (fuel : Nat) :
    Sound (Parser.parseIdentList fuel) (Sentence .IdentList) := by
  intro p q h hc
  rw [Parser.parseIdentList] at h
  obtain ⟨ts, h1, a, b, hab, ⟨k, hk, ha⟩, hb⟩ := sound_seq (holds_budget_match [Token.Ident])
    (parseIdentListLoop_rel budget_stepRel fuel) (sound_match [Token.Ident])
    (parseIdentListLoop_sound fuel) p q h hc
  refine ⟨ts, h1, ?_⟩
  rw [hab, ha]
  simp only [List.mem_singleton] at hk
  subst hk
  exact Sentence.identList hb

theorem parseWrite_sound (fuel : Nat) :
    Sound (Parser.parseWrite fuel) (fun w => Sentence .WriteCall (Token.Write :: w)) := by
  intro p q h hc
  rw [Parser.parseWrite] at h
  have hsnd := sound_seq (holds_budget_match [Token.LeftParen])
    (fun p1 => holds_andThen budget_stepRel (parseExpressionList_rel budget_stepRel fuel p1)
      (holds_budget_match [Token.RightParen]))
    (sound_match [Token.LeftParen])
    (sound_seq (parseExpressionList_rel budget_stepRel fuel)
      (holds_budget_match [Token.RightParen]) (parseExpressionList_sound fuel)
      (sound_match [Token.RightParen]))
  obtain ⟨ts, h1, a, b, hab, ⟨k, hk, ha⟩, c, d, hcd, hc1, k2, hk2, hd⟩ := hsnd p q h hc
  refine ⟨ts, h1, ?_⟩
  rw [hab, ha, hcd, hd]
  simp only [List.mem_singleton] at hk hk2
  subst hk hk2
  exact Sentence.writeCall hc1

theorem parseRead_sound (fuel : Nat) :
    Sound (Parser.parseRead fuel) (fun w => Sentence .ReadCall (Token.Read :: w)) := by
  intro p q h hc
  rw [Parser.parseRead] at h
  have hsnd := sound_seq (holds_budget_match [Token.LeftParen])
    (fun p1 => holds_andThen budget_stepRel (parseIdentList_rel budget_stepRel fuel p1)
      (holds_budget_match [Token.RightParen]))
    (sound_match [Token.LeftParen])
    (sound_seq (parseIdentList_rel budget_stepRel fuel)
      (holds_budget_match [Token.RightParen]) (parseIdentList_sound fuel)
      (sound_match [Token.RightParen]))
  obtain ⟨ts, h1, a, b, hab, ⟨k, hk, ha⟩, c, d, hcd, hc1, k2, hk2, hd⟩ := hsnd p q h hc
  refine ⟨ts, h1, ?_⟩
  rw [hab, ha, hcd, hd]
  simp only [List.mem_singleton] at hk hk2
  subst hk hk2
  exact Sentence.readCall hc1

theorem parseAssignment_sound (fuel : Nat) :
    Sound (Parser.parseAssignment fuel)
      (fun w => Sentence .Assignment (Token.Ident :: w)) := by
  intro p q h hc
  rw [Parser.parseAssignment] at h
  obtain ⟨ts, h1, a, b, hab, ⟨k, hk, ha⟩, hb⟩ := sound_seq (holds_budget_match [Token.AssignOP])
    (parseExpression_rel budget_stepRel fuel) (sound_match [Token.AssignOP])
    (parseExpression_sound fuel) p q h hc
  refine ⟨ts, h1, ?_⟩
  rw [hab, ha]
  simp only [List.mem_singleton] at hk
  subst hk
  exact Sentence.assignment hb

/-- One arm of the `switch` in `Parser.parseStatement`: the dispatch token `t`
has been consumed, `f` parses the rest and the semicolon closes it. -/
theorem statement_arm_sound {f : Parser → ParseResult} {π : Production} {d : Token}
    (hB : ∀ p, Holds Budget p (f p)) (hf : Sound f (fun w => Sentence π (d :: w)))
    (hS : ∀ a, Sentence π a → Sentence .Statement (a ++ [Token.Semicolon]))
    {p q : Parser} {t : Value} {rest : List Value} (hs : p.TokenSet.Tokens = t :: rest)
    (ht : t.Token = d)
    (h : (andThen (f { p with TokenSet := ⟨some t, rest⟩ }) fun parser =>
      some (parser.match_ [Token.Semicolon])) = some (none, q))
    (hc : q.errorCount = p.errorCount) :
    ∃ ts, p.TokenSet.Tokens = ts ++ q.TokenSet.Tokens ∧ Sentence .Statement (kinds ts) := by
  obtain ⟨ts, h1, a, b, hab, ha, k, hk, hb⟩ :=
    sound_seq hB (holds_budget_match [Token.Semicolon]) hf (sound_match [Token.Semicolon])
      { p with TokenSet := ⟨some t, rest⟩ } q h hc
  simp only [List.mem_singleton] at hk
  subst hk hb
  refine ⟨t :: ts, by rw [hs]; simpa using h1, ?_⟩
  have : kinds (t :: ts) = (d :: a) ++ [Token.Semicolon] := by
    simp only [kinds, List.map_cons, ht, List.cons_append, List.cons.injEq, true_and]
    exact hab
  rw [this]
  exact hS _ ha

theorem parseStatement_sound (fuel : Nat) :
    Sound (Parser.parseStatement fuel) (Sentence .Statement) := by
  intro p q h hc
  rw [Parser.parseStatement] at h
  cases hs : p.TokenSet.Tokens with
  | nil =>
    have hn : p.TokenSet.Next = (none, { p.TokenSet with Current := none }) := by
      simp [Set.Next, hs]
    rw [hn] at h
    simp only [Option.some.injEq] at h
    have := handleError_count { p with TokenSet := { p.TokenSet with Current := none } }
      none [Token.Ident, Token.Read, Token.Write]
    rw [h] at this
    simp only at this
    omega
  | cons t rest =>
    rw [next_cons hs] at h
    dsimp only at h
    rw [← hs]
    split at h
    · rename_i ht
      exact statement_arm_sound (parseAssignment_rel budget_stepRel fuel)
        (parseAssignment_sound fuel) (fun _ => Sentence.statementAssignment) hs ht h hc
    · rename_i ht
      exact statement_arm_sound (parseRead_rel budget_stepRel fuel)
        (parseRead_sound fuel) (fun _ => Sentence.statementRead) hs ht h hc
    · rename_i ht
      exact statement_arm_sound (parseWrite_rel budget_stepRel fuel)
        (parseWrite_sound fuel) (fun _ => Sentence.statementWrite) hs ht h hc
    · simp only [Option.some.injEq] at h
      have := handleError_count { p with TokenSet := ⟨some t, rest⟩ } (some t)
        [Token.Ident, Token.Read, Token.Write]
      rw [h] at this
      simp only at this
      omega

theorem parseStatementListLoop_sound (fuel : Nat) :
    Sound (Parser.parseStatementListLoop fuel) (Sentence .StatementRest) := by
  induction fuel with
  | zero =>
    intro p q h _
    rw [Parser.parseStatementListLoop] at h; cases h
  | succ n ih =>
    intro p q h hc
    have key : (andThen (Parser.parseStatement n p) fun parser =>
        Parser.parseStatementListLoop n parser) = some (none, q) →
        ∃ ts, p.TokenSet.Tokens = ts ++ q.TokenSet.Tokens ∧
          Sentence .StatementRest (kinds ts) := by
      intro h
      obtain ⟨ts, h1, a, b, hab, ha, hb⟩ := sound_seq (parseStatement_rel budget_stepRel n)
        (parseStatementListLoop_rel budget_stepRel n) (parseStatement_sound n) ih p q h hc
      exact ⟨ts, h1, hab ▸ Sentence.statementRestCons ha hb⟩
    rw [Parser.parseStatementListLoop] at h
    split at h
    · exact sound_nil Sentence.statementRestNil p q h hc
    · split at h
      · exact key h
      · exact key h
      · exact key h
      · exact sound_nil Sentence.statementRestNil p q h hc

theorem parseStatementList_sound (fuel : Nat) :
    Sound (Parser.parseStatementList fuel) (Sentence .StatementList) := by
  intro p q h hc
  rw [Parser.parseStatementList] at h
  obtain ⟨ts, h1, a, b, hab, ha, hb⟩ := sound_seq (parseStatement_rel budget_stepRel fuel)
    (parseStatementListLoop_rel budget_stepRel fuel) (parseStatement_sound fuel)
    (parseStatementListLoop_sound fuel) p q h hc
  exact ⟨ts, h1, hab ▸ Sentence.statementList ha hb⟩

theorem parseProgram_sound (fuel : Nat) :
    Sound (Parser.parseProgram fuel) (Sentence .Program) := by
  intro p q h hc
  rw [Parser.parseProgram] at h
  have hsnd := sound_seq (holds_budget_match [Token.Begin])
    (fun p1 => holds_andThen budget_stepRel (parseStatementList_rel budget_stepRel fuel p1)
      (holds_budget_match [Token.End]))
    (sound_match [Token.Begin])
    (sound_seq (parseStatementList_rel budget_stepRel fuel)
      (holds_budget_match [Token.End]) (parseStatementList_sound fuel)
      (sound_match [Token.End]))
  obtain ⟨ts, h1, a, b, hab, ⟨k, hk, ha⟩, c, d, hcd, hc1, k2, hk2, hd⟩ := hsnd p q h hc
  refine ⟨ts, h1, ?_⟩
  rw [hab, ha, hcd, hd]
  simp only [List.mem_singleton] at hk hk2
  subst hk hk2
  exact Sentence.program hc1

/-- What `Parser.Parse` returns, in terms of `parseProgram`. -/
theorem parse_eq {p q : Parser} {e : Option Error} (h : p.Parse = some (e, q)) :
    ∃ e0, Parser.parseProgram p.fuel p = some (e0, q) ∧
      (e = none ↔ e0 = none ∧ q.errorCount = 0) ∧
      (e ≠ none → e = some (Error.StepError "parsing")) := by
  unfold Parser.Parse at h
  cases hp : Parser.parseProgram p.fuel p with
  | none => rw [hp] at h; cases h
  | some r =>
    obtain ⟨e0, q0⟩ := r
    rw [hp] at h
    dsimp only at h
    split at h
    · rename_i hcond
      simp only [Option.some.injEq, Prod.mk.injEq] at h
      obtain ⟨rfl, rfl⟩ := h
      refine ⟨e0, rfl, ?_, fun _ => rfl⟩
      constructor
      · intro h; cases h
      · rintro ⟨h1, h2⟩
        rcases hcond with h | h
        · exact absurd h1 h
        · omega
    · rename_i hcond
      simp only [Option.some.injEq, Prod.mk.injEq] at h
      obtain ⟨rfl, rfl⟩ := h
      refine ⟨e0, rfl, ?_, fun h => absurd rfl h⟩
      simp only [true_iff]
      push_neg at hcond
      exact ⟨hcond.1, by omega⟩

theorem parse_trailingTokens :
    (Parser.New trailingTokens 5).Parse =
      some (none, ⟨⟨some ⟨.End, "end"⟩, [⟨.End, "end"⟩]⟩, 5, 0, []⟩) := by
  decide

/-- C2, the code at the failing input. On the tokens of `begin x:=1; end end`
with budget 5 `Parser.Parse` returns `nil` with nothing written: `parseProgram`
returns after `match(token.End)` and the second `end` is still in the cursor,
never examined.  The kinds of the seven tokens are not a sentence of
`Program`, so the sequence given to the parser does not match the grammar,
although the comment on `parseProgram` says that it matches the entire program
token stream. -/
theorem parse_accepts_nonsentence :
    (Parser.New trailingTokens 5).Parse =
      some (none, ⟨⟨some ⟨.End, "end"⟩, [⟨.End, "end"⟩]⟩, 5, 0, []⟩) ∧
    ¬ Sentence .Program (kinds trailingTokens) := by
  refine ⟨parse_trailingTokens, fun hs => ?_⟩
  obtain ⟨cur, hcur⟩ := sentence_realised hs trailingTokens [] (Parser.New trailingTokens 5)
    (Parser.New trailingTokens 5).fuel rfl (by simp [Parser.New, NewSet]) (by simp)
    (by simp [Parser.fuel, Parser.New, NewSet])
  have hp := parse_trailingTokens
  unfold Parser.Parse at hp
  rw [hcur] at hp
  simp [Parser.New] at hp

/-- Soundness of the recognizer for what it consumed: for every token sequence
and every budget `N ≥ 1`, if `Parser.Parse` returns `nil` then the tokens it
consumed, a leading part of the sequence given to it, have kinds that form a
sentence of `Program`; the tokens after them were never looked at. -/
theorem parse_sound (ts : List Value) (N : Int) (_hN : 1 ≤ N) (q : Parser)
    (h : (Parser.New ts N).Parse = some (none, q)) :
    ∃ consumed, ts = consumed ++ q.TokenSet.Tokens ∧ Sentence .Program (kinds consumed) := by
  obtain ⟨e0, hp, hiff, -⟩ := parse_eq h
  obtain ⟨he0, hq⟩ := hiff.1 rfl
  subst he0
  exact parseProgram_sound _ _ _ hp (by rw [hq]; rfl)

/-- The tokens of `begin x:=1; end end` with budget 5: the sentence is the part
before the second `end`. -/
theorem parse_sound_witness :
    ∃ consumed, trailingTokens = consumed ++ [⟨.End, "end"⟩] ∧
      Sentence .Program (kinds consumed) :=
  parse_sound trailingTokens 5 (by decide) _ parse_trailingTokens

/-! ## The error budget of the recognizer -/

theorem numbered_concat {l : List ParseReport} {x : ParseReport} {s : Nat}
    (h : (l ++ [x]).map (fun r => r.number) = List.range' s (l ++ [x]).length) :
    l.map (fun r => r.number) = List.range' s l.length ∧ x.number = s + l.length := by
  rw [List.length_append, List.length_singleton, List.range'_1_concat, List.map_append] at h
  obtain ⟨h1, h2⟩ := List.append_inj' h (by simp)
  exact ⟨h1, by simpa using h2⟩

/-- What the budget relation says of a whole run that starts with an empty
error stream. -/
theorem budget_run {p q : Parser} {e : Option Error} (h : Budget p e q)
    (hc : p.errorCount = 0) (hs : p.stderr = []) (hN : 1 ≤ p.MaxErrors) :
    q.MaxErrors = p.MaxErrors ∧ q.errorCount = q.stderr.length ∧
    q.stderr.map (fun r => r.number) = List.range' 1 q.stderr.length ∧
    (e = none → (q.stderr.length : Int) < p.MaxErrors) ∧
    (∀ err, e = some err → err = Error.StepError "parsing" ∧ 1 ≤ q.stderr.length ∧
      (q.stderr.length : Int) = p.MaxErrors ∧
      ∃ last, q.stderr.getLast? = some last ∧ last.number = q.stderr.length ∧
        last.cursor = q.TokenSet.Tokens) := by
  obtain ⟨hm, -, new, hlog, hcount, hnum, hlt, herr⟩ := h
  rw [hs, List.nil_append] at hlog
  rw [hc, Nat.zero_add] at hcount hnum
  subst hlog
  refine ⟨hm, hcount, hnum, ?_, ?_⟩
  · intro he
    rcases List.eq_nil_or_concat q.stderr with hnil | ⟨l, x, hlx⟩
    · rw [hnil]; simpa using hN
    · rw [List.concat_eq_append] at hlx
      have h1 := hlt he x (by rw [hlx]; simp)
      rw [hlx] at hnum
      have h2 := (numbered_concat hnum).2
      rw [hlx, List.length_append, List.length_singleton]
      omega
  · intro err he
    obtain ⟨h1, init, last, hnew, hge, hcur, hinit⟩ := herr err he
    rw [hnew] at hnum
    obtain ⟨hnumi, hlast⟩ := numbered_concat hnum
    have hlen : q.stderr.length = init.length + 1 := by rw [hnew]; simp
    refine ⟨h1, by omega, ?_, last, by rw [hnew]; simp, by omega, hcur⟩
    rcases List.eq_nil_or_concat init with hnil | ⟨l, x, hlx⟩
    · rw [hnil] at hlast hlen
      simp only [List.length_nil] at hlast hlen
      omega
    · rw [List.concat_eq_append] at hlx
      have h2 := hinit x (by rw [hlx]; simp)
      rw [hlx] at hnumi
      have h3 := (numbered_concat hnumi).2
      have h4 : init.length = l.length + 1 := by rw [hlx]; simp
      omega

theorem parse_noSemicolonEndTokens :
    (Parser.New noSemicolonEndTokens 5).Parse =
      some (some (Error.StepError "parsing"),
        ⟨⟨some ⟨.End, "end"⟩, []⟩, 5, 1,
          [⟨1, ⟨[Token.Semicolon], ⟨.End, "end"⟩⟩, [⟨.End, "end"⟩]⟩]⟩) := by
  decide

/-- C6, counterexample: on the tokens of `begin x:=1 end end` with budget 5,
`Parser.Parse` fails although a single error was reported, far from the
budget, and that error found a token, not the end of the sequence. -/
theorem parse_fails_only_at_budget_counterexample :
    ∃ q, (Parser.New noSemicolonEndTokens 5).Parse =
        some (some (Error.StepError "parsing"), q) ∧
      ¬ ((q.stderr.length : Int) = 5 ∨ ∃ r ∈ q.stderr, r.error.Actual = eofPlaceholder) := by
  refine ⟨_, parse_noSemicolonEndTokens, ?_⟩
  decide

/-- C6, amended. For every token sequence and every budget `N ≥ 1`,
`Parser.Parse` returns, and it returns a failure exactly when at least one
malformed-token error (a wrong token, or a mandatory token missing at the end
of the sequence) was reported, however far from `N`; a run with no mismatch
does not fail; and `parseProgram` is cut short by the step-failure only when
exactly `N` errors have been reported. -/
theorem parse_fails_iff (ts : List Value) (N : Int) (hN : 1 ≤ N) :
    ∃ e q, (Parser.New ts N).Parse = some (e, q) ∧
      (e ≠ none ↔ 1 ≤ q.stderr.length) ∧
      (∀ err, Parser.parseProgram (Parser.New ts N).fuel (Parser.New ts N) = some (some err, q) →
        (q.stderr.length : Int) = N) := by
  obtain ⟨e, q, h⟩ := parse_total (Parser.New ts N)
  obtain ⟨e0, hp, hiff, -⟩ := parse_eq h
  have hB := budget_run (parseProgram_rel budget_stepRel _ _ e0 q hp) rfl rfl hN
  obtain ⟨-, hcount, -, hnone, hsome⟩ := hB
  refine ⟨e, q, h, ?_, ?_⟩
  · rw [Ne, hiff]
    constructor
    · intro hne
      cases e0 with
      | none =>
        simp only [true_and] at hne
        omega
      | some err => exact (hsome err rfl).2.1
    · rintro hlen ⟨-, h0⟩
      omega
  · intro err herr
    rw [hp] at herr
    simp only [Option.some.injEq, Prod.mk.injEq, and_true] at herr
    exact (hsome err herr).2.2.1

/-- C6, witness: the tokens of `begin x:=1 end end` with budget 5. -/
theorem parse_fails_iff_witness :
    ∃ e q, (Parser.New noSemicolonEndTokens 5).Parse = some (e, q) ∧
      (e ≠ none ↔ 1 ≤ q.stderr.length) ∧
      (∀ err, Parser.parseProgram (Parser.New noSemicolonEndTokens 5).fuel
          (Parser.New noSemicolonEndTokens 5) = some (some err, q) →
        (q.stderr.length : Int) = 5) :=
  parse_fails_iff noSemicolonEndTokens 5 (by decide)

/-- C7. The error budget of the recognizer: for every token sequence and every
budget `N ≥ 1`, `Parser.Parse` returns having written at most `N` error lines,
numbered 1, 2, ... in order; and if the `N`-th line was written, it is the last
line, the tokens left are those left when it was written, `parseProgram`
returned the step-failure that `handleError` raised, and `Parse` returns
`StepError("parsing")`. -/
theorem parse_budget (ts : List Value) (N : Int) (hN : 1 ≤ N) :
    ∃ e q, (Parser.New ts N).Parse = some (e, q) ∧
      (q.stderr.length : Int) ≤ N ∧
      q.stderr.map (fun r => r.number) = List.range' 1 q.stderr.length ∧
      ((q.stderr.length : Int) = N →
        e = some (Error.StepError "parsing") ∧
        Parser.parseProgram (Parser.New ts N).fuel (Parser.New ts N) =
          some (some (Error.StepError "parsing"), q) ∧
        ∃ last, q.stderr.getLast? = some last ∧ (last.number : Int) = N ∧
          last.cursor = q.TokenSet.Tokens) := by
  obtain ⟨e, q, h⟩ := parse_total (Parser.New ts N)
  obtain ⟨e0, hp, hiff, hstep⟩ := parse_eq h
  have hB := budget_run (parseProgram_rel budget_stepRel _ _ e0 q hp) rfl rfl hN
  obtain ⟨-, hcount, hnum, hnone, hsome⟩ := hB
  have hmax : (Parser.New ts N).MaxErrors = N := rfl
  rw [hmax] at hnone hsome
  refine ⟨e, q, h, ?_, hnum, ?_⟩
  · cases e0 with
    | none => exact le_of_lt (hnone rfl)
    | some err => exact le_of_eq (hsome err rfl).2.2.1
  · intro hlen
    cases e0 with
    | none =>
      have := hnone rfl
      omega
    | some err =>
      obtain ⟨herr, -, -, last, hlast, hnumber, hcur⟩ := hsome err rfl
      subst herr
      refine ⟨?_, hp, last, hlast, by omega, hcur⟩
      apply hstep
      intro he
      have := hiff.1 he
      simp at this

/-- C7, witness: the tokens of `begin x:=1 end` with budget 2; the second
error, found at the end of the sequence, is the last thing that happens. -/
theorem parse_budget_witness :
    ∃ e q, (Parser.New noSemicolonTokens 2).Parse = some (e, q) ∧
      (q.stderr.length : Int) ≤ 2 ∧
      q.stderr.map (fun r => r.number) = List.range' 1 q.stderr.length ∧
      ((q.stderr.length : Int) = 2 →
        e = some (Error.StepError "parsing") ∧
        Parser.parseProgram (Parser.New noSemicolonTokens 2).fuel
            (Parser.New noSemicolonTokens 2) =
          some (some (Error.StepError "parsing"), q) ∧
        ∃ last, q.stderr.getLast? = some last ∧ (last.number : Int) = 2 ∧
          last.cursor = q.TokenSet.Tokens) :=
  parse_budget noSemicolonTokens 2 (by decide)

/-! ## No resynchronisation, and the empty statement list -/

/-- C8. No resynchronisation: on the tokens of `begin x:=1 end` with a budget
`N ≥ 3`, the statement list, entered after `begin`, returns `nil` having
written one error, expected `;` and found `end`, and having consumed that
`end`; `match(End)` then finds the end of the sequence, which is the second
error; and `Parse` fails with these two lines written. -/
theorem no_resync (N : Int) (hN : 3 ≤ N) :
    Parser.parseStatementList (Parser.New noSemicolonTokens N).fuel
        ⟨⟨some ⟨.Begin, "begin"⟩, noSemicolonTokens.tail⟩, N, 0, []⟩ =
      some (none, ⟨⟨some ⟨.End, "end"⟩, []⟩, N, 1,
        [⟨1, ⟨[Token.Semicolon], ⟨.End, "end"⟩⟩, []⟩]⟩) ∧
    Parser.match_ ⟨⟨some ⟨.End, "end"⟩, []⟩, N, 1,
        [⟨1, ⟨[Token.Semicolon], ⟨.End, "end"⟩⟩, []⟩]⟩ [Token.End] =
      (none, ⟨⟨none, []⟩, N, 2,
        [⟨1, ⟨[Token.Semicolon], ⟨.End, "end"⟩⟩, []⟩, ⟨2, ⟨[Token.End], eofPlaceholder⟩, []⟩]⟩) ∧
    (Parser.New noSemicolonTokens N).Parse =
      some (some (Error.StepError "parsing"), ⟨⟨none, []⟩, N, 2,
        [⟨1, ⟨[Token.Semicolon], ⟨.End, "end"⟩⟩, []⟩,
          ⟨2, ⟨[Token.End], eofPlaceholder⟩, []⟩]⟩) := by
  have h1 : ¬ ((1 : Int) ≥ N) := by omega
  have h2 : ¬ ((2 : Int) ≥ N) := by omega
  refine ⟨?_, ?_, ?_⟩
  · simp [Parser.fuel, Parser.New, NewSet, noSemicolonTokens, Parser.parseStatementList,
      Parser.parseStatement, Parser.parseStatementListLoop, Parser.parseAssignment,
      Parser.parseExpression, Parser.parsePrimary, Parser.parseExpressionLoop,
      Parser.match_, Parser.handleError, Set.Next, Set.Peek, andThen, h1]
  · simp [Parser.match_, Parser.handleError, Set.Next, eofPlaceholder, h2]
  · simp [Parser.Parse, Parser.parseProgram, Parser.fuel, Parser.New, NewSet, noSemicolonTokens,
      Parser.parseStatementList,
      Parser.parseStatement, Parser.parseStatementListLoop, Parser.parseAssignment,
      Parser.parseExpression, Parser.parsePrimary, Parser.parseExpressionLoop,
      Parser.match_, Parser.handleError, Set.Next, Set.Peek, andThen, h1, h2, eofPlaceholder]

/-- C8, witness: the budget 5 of `run`. -/
theorem no_resync_witness :
    (Parser.New noSemicolonTokens 5).Parse =
      some (some (Error.StepError "parsing"), ⟨⟨none, []⟩, 5, 2,
        [⟨1, ⟨[Token.Semicolon], ⟨.End, "end"⟩⟩, []⟩,
          ⟨2, ⟨[Token.End], eofPlaceholder⟩, []⟩]⟩) :=
  (no_resync 5 (by decide)).2.2

theorem andThen_assoc (r : ParseResult) (f g : Parser → ParseResult) :
    andThen (andThen r f) g = andThen r (fun p => andThen (f p) g) := by
  match r with
  | none => rfl
  | some (some err, p) => rfl
  | some (none, p) => rfl

theorem andThen_ok (p : Parser) (k : Parser → ParseResult) :
    andThen (some (none, p)) k = k p :=
  rfl

theorem count_after {x : Option Error × Parser} {k : Parser → ParseResult}
    {e : Option Error} {q : Parser} (hk : ∀ p, Holds Budget p (k p))
    (h : andThen (some x) k = some (e, q)) : x.2.errorCount ≤ q.errorCount := by
  obtain ⟨e1, p1⟩ := x
  cases e1 with
  | none => exact budget_count (hk p1 e q h)
  | some err =>
    simp only [andThen, Option.some.injEq, Prod.mk.injEq] at h
    rw [← h.2]

/-- When the token after `begin` cannot start a statement, `parseStatement`
reports it at once. -/
theorem parseStatement_reject (fuel : Nat) (p : Parser)
    (h : ∀ t, p.TokenSet.Tokens.head? = some t →
      t.Token ∉ [Token.Ident, Token.Read, Token.Write]) :
    ∃ a, Parser.parseStatement fuel p =
      some (Parser.handleError { p with TokenSet := p.TokenSet.Next.2 } a
        [Token.Ident, Token.Read, Token.Write]) := by
  rw [Parser.parseStatement]
  cases hs : p.TokenSet.Tokens with
  | nil =>
    have hn : p.TokenSet.Next = (none, { p.TokenSet with Current := none }) := by
      simp [Set.Next, hs]
    rw [hn]
    exact ⟨none, rfl⟩
  | cons t rest =>
    have ht := h t (by rw [hs]; rfl)
    simp only [List.mem_cons, List.mem_singleton, not_or, List.mem_nil_iff, or_false] at ht
    rw [next_cons hs]
    refine ⟨some t, ?_⟩
    dsimp only
    split
    · exact absurd ‹_› ht.1
    · exact absurd ‹_› ht.2.1
    · exact absurd ‹_› ht.2.2
    · rfl

/-- C9. The empty statement list is rejected: for every budget `N` and every
token sequence that starts with `begin` and goes on with nothing, or with a
token that is not an identifier, `read` or `write`, `Parser.Parse` returns
the failure `StepError("parsing")`. -/
theorem parse_empty_statementList (N : Int) (b : Value) (rest : List Value)
    (hb : b.Token = Token.Begin)
    (hrest : ∀ t, rest.head? = some t → t.Token ∉ [Token.Ident, Token.Read, Token.Write]) :
    ∃ q, (Parser.New (b :: rest) N).Parse = some (some (Error.StepError "parsing"), q) := by
  obtain ⟨e, q, h⟩ := parse_total (Parser.New (b :: rest) N)
  obtain ⟨e0, hp, hiff, hstep⟩ := parse_eq h
  refine ⟨q, ?_⟩
  have hne : e ≠ none := by
    intro he
    obtain ⟨-, hq⟩ := hiff.1 he
    rw [Parser.parseProgram, @match_ok _ b rest _ rfl (by simp [hb]), andThen_ok] at hp
    obtain ⟨a, ha⟩ := parseStatement_reject (Parser.New (b :: rest) N).fuel
      { Parser.New (b :: rest) N with TokenSet := ⟨some b, rest⟩ } hrest
    rw [Parser.parseStatementList, ha, andThen_assoc] at hp
    have := count_after (fun p1 => holds_andThen budget_stepRel
      (parseStatementListLoop_rel budget_stepRel _ p1) (holds_budget_match [Token.End])) hp
    rw [handleError_count] at this
    omega
  rw [h, hstep hne]

/-- C9, witness: the tokens of `begin end` with budget 5. -/
theorem parse_empty_statementList_witness :
    ∃ q, (Parser.New [⟨.Begin, "begin"⟩, ⟨.End, "end"⟩] 5).Parse =
      some (some (Error.StepError "parsing"), q) :=
  parse_empty_statementList 5 ⟨.Begin, "begin"⟩ [⟨.End, "end"⟩] rfl (by decide)

/-! ## What one call of `Next` reads -/

theorem consumed_append {T : UnicodeTables} {pre r r2 : List Char} {x : Except Error Value}
    (h : Consumed T r x r2) : Consumed T (pre ++ r) x r2 := by
  unfold Consumed at h ⊢
  split at h
  · obtain ⟨p, hp, rfl⟩ := h
    exact ⟨pre ++ p, by simp [hp], by simp⟩
  · exact h
  · obtain ⟨p, rfl, hinv⟩ := h
    exact ⟨pre ++ p, by simp, hinv⟩
  · exact h

theorem consumed_cons {T : UnicodeTables} {c : Char} {r r2 : List Char} {x : Except Error Value}
    (h : Consumed T r x r2) : Consumed T (c :: r) x r2 :=
  @consumed_append _ [c] _ _ _ h

theorem readIdentTokenLoop_consumed (T : UnicodeTables) (c : Char) (chars r : List Char) :
    Consumed T (c :: r) (Scanner.readIdentTokenLoop T chars r).1
      (Scanner.readIdentTokenLoop T chars r).2 := by
  induction r generalizing c chars with
  | nil => rw [Scanner.readIdentTokenLoop]; rfl
  | cons d r ih =>
    rw [Scanner.readIdentTokenLoop]
    dsimp only
    split
    · exact ⟨[c], by simp, rfl⟩
    · exact consumed_cons (ih d _)

theorem readIntLiteralTokenLoop_consumed (T : UnicodeTables) (c : Char) (chars r : List Char) :
    Consumed T (c :: r) (Scanner.readIntLiteralTokenLoop T chars r).1
      (Scanner.readIntLiteralTokenLoop T chars r).2 := by
  induction r generalizing c chars with
  | nil => rw [Scanner.readIntLiteralTokenLoop]; rfl
  | cons d r ih =>
    rw [Scanner.readIntLiteralTokenLoop]
    split
    · exact ⟨[c], by simp, rfl⟩
    · exact consumed_cons (ih d _)

theorem readAssignOPToken_consumed (T : UnicodeTables) (r : List Char) :
    Consumed T (':' :: r) (Scanner.readAssignOPToken r).1 (Scanner.readAssignOPToken r).2 := by
  cases r with
  | nil => rfl
  | cons d r =>
    rw [Scanner.readAssignOPToken]
    split
    · rename_i hd
      exact ⟨[], rfl, Or.inl ⟨rfl, d, r, rfl, by simpa using hd⟩⟩
    · exact ⟨[':', d], by simp, rfl⟩

/-- What `skipComment` and `readMinusOPOrCommentToken` return: the end of the
input, or a shorter rest of the reader. -/
theorem skipComment_spec (r : List Char) :
    Scanner.skipComment r = (.error Error.EOF, []) ∨
    ∃ pre, pre ≠ [] ∧ r = pre ++ (Scanner.skipComment r).2 ∧
      (Scanner.skipComment r).1 = .ok none := by
  induction r with
  | nil => left; rfl
  | cons d r ih =>
    rw [Scanner.skipComment]
    split
    · right
      exact ⟨[d], by simp, rfl, rfl⟩
    · rcases ih with h | ⟨pre, -, h1, h2⟩
      · left; exact h
      · right
        exact ⟨d :: pre, by simp, by rw [List.cons_append, ← h1], h2⟩

theorem readMinusOPOrCommentToken_spec (r : List Char) :
    Scanner.readMinusOPOrCommentToken r = (.error Error.EOF, []) ∨
    (∃ v, Scanner.readMinusOPOrCommentToken r = (.ok (some v), r)) ∨
    ∃ pre r2, r = pre ++ r2 ∧ Scanner.readMinusOPOrCommentToken r = (.ok none, r2) := by
  cases r with
  | nil => left; rfl
  | cons d r =>
    rw [Scanner.readMinusOPOrCommentToken]
    split
    · right; left
      exact ⟨_, rfl⟩
    · rcases skipComment_spec r with h | ⟨pre, -, h1, h2⟩
      · left; exact h
      · right; right
        exact ⟨d :: pre, (Scanner.skipComment r).2, by rw [List.cons_append, ← h1],
          Prod.ext h2 rfl⟩

theorem nextLoop_consumed (T : UnicodeTables) (fuel : Nat) (r : List Char)
    (x : Except Error Value) (r2 : List Char)
    (h : Scanner.NextLoop T fuel r = some (x, r2)) : Consumed T r x r2 := by
  induction fuel generalizing r with
  | zero => rw [Scanner.NextLoop] at h; cases h
  | succ n ih =>
    cases r with
    | nil =>
      rw [Scanner.NextLoop] at h
      simp only [Option.some.injEq, Prod.mk.injEq] at h
      obtain ⟨rfl, rfl⟩ := h
      rfl
    | cons c r =>
      rw [Scanner.NextLoop] at h
      have tok : ∀ v : Value, some ((Except.ok v : Except Error Value), r) = some (x, r2) →
          Consumed T (c :: r) x r2 := by
        intro v hv
        simp only [Option.some.injEq, Prod.mk.injEq] at hv
        obtain ⟨rfl, rfl⟩ := hv
        exact ⟨[c], by simp, rfl⟩
      by_cases h1 : IsSpace T c = true
      · rw [if_pos h1] at h
        exact consumed_cons (ih r h)
      rw [if_neg h1] at h
      by_cases h2 : (c == '(') = true
      · rw [if_pos h2] at h; exact tok _ h
      rw [if_neg h2] at h
      by_cases h3 : (c == ')') = true
      · rw [if_pos h3] at h; exact tok _ h
      rw [if_neg h3] at h
      by_cases h4 : (c == ';') = true
      · rw [if_pos h4] at h; exact tok _ h
      rw [if_neg h4] at h
      by_cases h5 : (c == ',') = true
      · rw [if_pos h5] at h; exact tok _ h
      rw [if_neg h5] at h
      by_cases h6 : (c == '+') = true
      · rw [if_pos h6] at h; exact tok _ h
      rw [if_neg h6] at h
      by_cases h7 : IsLetter T c = true
      · rw [if_pos h7] at h
        simp only [Option.some.injEq] at h
        have := readIdentTokenLoop_consumed T c [c] r
        rw [Scanner.readIdentToken, Prod.ext_iff] at h
        rw [h.1, h.2] at this
        exact this
      rw [if_neg h7] at h
      by_cases h8 : IsDigit T c = true
      · rw [if_pos h8] at h
        simp only [Option.some.injEq] at h
        have := readIntLiteralTokenLoop_consumed T c [c] r
        rw [Scanner.readIntLiteralToken, Prod.ext_iff] at h
        rw [h.1, h.2] at this
        exact this
      rw [if_neg h8] at h
      by_cases h9 : (c == ':') = true
      · rw [if_pos h9] at h
        simp only [beq_iff_eq] at h9
        subst h9
        simp only [Option.some.injEq] at h
        have := readAssignOPToken_consumed T r
        rw [Prod.ext_iff] at h
        rw [h.1, h.2] at this
        exact this
      rw [if_neg h9] at h
      by_cases h10 : (c == '-') = true
      · rw [if_pos h10] at h
        simp only [beq_iff_eq] at h10
        subst h10
        rcases readMinusOPOrCommentToken_spec r with hm | ⟨v, hm⟩ | ⟨pre, r3, hpre, hm⟩
        · rw [hm] at h
          simp only [Option.some.injEq, Prod.mk.injEq] at h
          obtain ⟨rfl, rfl⟩ := h
          rfl
        · rw [hm] at h
          simp only [Option.some.injEq, Prod.mk.injEq] at h
          obtain ⟨rfl, rfl⟩ := h
          exact ⟨['-'], by simp, rfl⟩
        · rw [hm] at h
          dsimp only at h
          have := ih r3 h
          rw [hpre]
          exact @consumed_append _ ('-' :: pre) _ _ _ this
      rw [if_neg h10] at h
      simp only [Option.some.injEq, Prod.mk.injEq] at h
      obtain ⟨rfl, rfl⟩ := h
      simp only [beq_iff_eq] at h2 h3 h4 h5 h6 h9 h10
      simp only [Bool.not_eq_true] at h1 h7 h8
      exact ⟨[], rfl, Or.inr ⟨h1, h2, h3, h4, h5, h6, h7, h8, h9, h10⟩⟩

theorem nextLoop_isSome (T : UnicodeTables) (fuel : Nat) (r : List Char)
    (h : r.length < fuel) : (Scanner.NextLoop T fuel r).isSome := by
  induction fuel generalizing r with
  | zero => omega
  | succ n ih =>
    cases r with
    | nil => rfl
    | cons c r =>
      rw [Scanner.NextLoop]
      simp only [List.length_cons] at h
      by_cases h1 : IsSpace T c = true
      · rw [if_pos h1]
        exact ih r (by omega)
      rw [if_neg h1]
      by_cases h2 : (c == '(') = true
      · rw [if_pos h2]; rfl
      rw [if_neg h2]
      by_cases h3 : (c == ')') = true
      · rw [if_pos h3]; rfl
      rw [if_neg h3]
      by_cases h4 : (c == ';') = true
      · rw [if_pos h4]; rfl
      rw [if_neg h4]
      by_cases h5 : (c == ',') = true
      · rw [if_pos h5]; rfl
      rw [if_neg h5]
      by_cases h6 : (c == '+') = true
      · rw [if_pos h6]; rfl
      rw [if_neg h6]
      by_cases h7 : IsLetter T c = true
      · rw [if_pos h7]; rfl
      rw [if_neg h7]
      by_cases h8 : IsDigit T c = true
      · rw [if_pos h8]; rfl
      rw [if_neg h8]
      by_cases h9 : (c == ':') = true
      · rw [if_pos h9]; rfl
      rw [if_neg h9]
      by_cases h10 : (c == '-') = true
      · rw [if_pos h10]
        rcases readMinusOPOrCommentToken_spec r with hm | ⟨v, hm⟩ | ⟨pre, r3, hpre, hm⟩
        · rw [hm]; rfl
        · rw [hm]; rfl
        · rw [hm]
          dsimp only
          apply ih
          rw [hpre, List.length_append] at h
          omega
      rw [if_neg h10]
      rfl

theorem next_consumed {T : UnicodeTables} {r r2 : List Char} {x : Except Error Value}
    (h : Scanner.Next T r = some (x, r2)) : Consumed T r x r2 :=
  nextLoop_consumed T _ r x r2 h

theorem next_isSome (T : UnicodeTables) (r : List Char) : (Scanner.Next T r).isSome :=
  nextLoop_isSome T _ r (Nat.lt_succ_self _)

theorem consumed_length {T : UnicodeTables} {r r2 : List Char} {x : Except Error Value}
    (h : Consumed T r x r2)
    (hx : x ≠ .error Error.EOF) : r2.length < r.length := by
  unfold Consumed at h
  split at h
  · obtain ⟨pre, hpre, rfl⟩ := h
    have : 0 < pre.length := List.length_pos.2 hpre
    simp only [List.length_append]
    omega
  · exact absurd rfl hx
  · obtain ⟨pre, rfl, -⟩ := h
    simp only [List.length_append, List.length_cons]
    omega
  · exact absurd h id

/-- Scanning below the budget: all that the input yields is returned. -/
theorem scanLoop_below (T : UnicodeTables) (N : Int) {r : List Char} {found : List Found}
    (h : Scanner.Yields T r found) :
    ∀ (fuel errorCount : Nat) (tokens : List Value) (stderr : List ScanReport),
      r.length < fuel → (errorCount + (Found.invalids found).length : Int) < N →
      ∃ new : List ScanReport,
        Scanner.ScanLoop T N fuel errorCount tokens stderr r =
          some (Scanner.scanEnd (errorCount + (Found.invalids found).length)
            (tokens ++ Found.tokens found) (stderr ++ new) []) ∧
        new.map (fun e => e.char) = Found.invalids found ∧
        new.map (fun e => e.number) =
          List.range' (errorCount + 1) (Found.invalids found).length := by
  induction h with
  | @eof r r2 hnext =>
    intro fuel errorCount tokens stderr hfuel hbudget
    obtain ⟨n, rfl⟩ : ∃ n, fuel = n + 1 := ⟨fuel - 1, by omega⟩
    have hr2 : r2 = [] := next_consumed hnext
    subst hr2
    refine ⟨[], ?_, rfl, rfl⟩
    simp only [Found.invalids, List.length_nil, Nat.cast_zero, add_zero] at hbudget
    rw [Scanner.ScanLoop, if_neg (by omega), hnext]
    simp [Found.invalids, Found.tokens]
  | @token r r2 v found hnext _ ih =>
    intro fuel errorCount tokens stderr hfuel hbudget
    obtain ⟨n, rfl⟩ : ∃ n, fuel = n + 1 := ⟨fuel - 1, by omega⟩
    have hlen := consumed_length (next_consumed hnext) (by simp)
    obtain ⟨new, h1, h2, h3⟩ := ih n errorCount (tokens ++ [v]) stderr (by omega) hbudget
    refine ⟨new, ?_, h2, h3⟩
    have hb : ¬ ((errorCount : Int) ≥ N) := by
      have : (0 : Int) ≤ ((Found.invalids found).length : Int) := Int.natCast_nonneg _
      simp only [Found.invalids] at hbudget
      omega
    rw [Scanner.ScanLoop, if_neg hb, hnext]
    simp only [h1, Found.invalids, Found.tokens, List.append_assoc, List.singleton_append]
  | @invalid r r2 c found hnext _ ih =>
    intro fuel errorCount tokens stderr hfuel hbudget
    obtain ⟨n, rfl⟩ : ∃ n, fuel = n + 1 := ⟨fuel - 1, by omega⟩
    have hlen := consumed_length (next_consumed hnext) (by simp)
    simp only [Found.invalids, List.length_cons, Nat.cast_add, Nat.cast_one] at hbudget
    obtain ⟨new, h1, h2, h3⟩ := ih n (errorCount + 1) tokens
      (stderr ++ [⟨errorCount + 1, c, r2⟩]) (by omega) (by push_cast; omega)
    refine ⟨⟨errorCount + 1, c, r2⟩ :: new, ?_, by simp [Found.invalids, h2], ?_⟩
    · have hb : ¬ ((errorCount : Int) ≥ N) := by
        have : (0 : Int) ≤ ((Found.invalids found).length : Int) := Int.natCast_nonneg _
        omega
      rw [Scanner.ScanLoop, if_neg hb, hnext]
      simp only [h1, Found.invalids, Found.tokens, List.append_assoc, List.singleton_append,
        List.length_cons]
      congr 2
      omega
    · simp only [List.map_cons, h3, Found.invalids, List.length_cons]
      rw [List.range'_succ]

theorem consumed_ok {T : UnicodeTables} {r r2 : List Char} {v : Value}
    (h : Consumed T r (.ok v) r2) :
    ∃ pre, r = pre ++ r2 := by
  obtain ⟨pre, -, h⟩ := h
  exact ⟨pre, h⟩

theorem getLast?_cons_of_some {α : Type} {a b : α} {l : List α} (h : l.getLast? = some b) :
    (a :: l).getLast? = some b := by
  cases l with
  | nil => simp at h
  | cons c l => rw [List.getLast?_cons_cons]; exact h

/-- Scanning into the budget: the loop ends right after the error that
reaches it. -/
theorem scanLoop_exhausted (T : UnicodeTables) (N : Int) {r : List Char} {found : List Found}
    (h : Scanner.Yields T r found) :
    ∀ (fuel errorCount : Nat) (tokens : List Value) (stderr : List ScanReport) (k : Nat),
      r.length < fuel → 1 ≤ k → (errorCount + k : Int) = N →
      k ≤ (Found.invalids found).length →
      ∃ (res : ScanResult) (new : List ScanReport) (last : ScanReport) (pre : List Char),
        Scanner.ScanLoop T N fuel errorCount tokens stderr r = some res ∧
        res.err = some (Error.StepError "token scanning") ∧
        res.stderr = stderr ++ new ∧
        new.map (fun e => e.char) = (Found.invalids found).take k ∧
        new.map (fun e => e.number) = List.range' (errorCount + 1) k ∧
        new.getLast? = some last ∧ last.unread = res.Reader ∧
        r = pre ++ last.char :: res.Reader ∧
        ∀ e ∈ new, Invalid T e.char e.unread := by
  induction h with
  | @eof r r2 hnext =>
    intro fuel errorCount tokens stderr k hfuel hk hN hlen
    simp only [Found.invalids, List.length_nil] at hlen
    omega
  | @token r r2 v found hnext _ ih =>
    intro fuel errorCount tokens stderr k hfuel hk hN hlen
    obtain ⟨n, rfl⟩ : ∃ n, fuel = n + 1 := ⟨fuel - 1, by omega⟩
    have hlen2 := consumed_length (next_consumed hnext) (by simp)
    obtain ⟨p0, hp0⟩ := consumed_ok (next_consumed hnext)
    obtain ⟨res, new, last, pre, h1, h2, h3, h4, h5, h6, h7, h8, h9⟩ :=
      ih n errorCount (tokens ++ [v]) stderr k (by omega) hk hN hlen
    refine ⟨res, new, last, p0 ++ pre, ?_, h2, h3, h4, h5, h6, h7, ?_, h9⟩
    · rw [Scanner.ScanLoop, if_neg (by omega), hnext]
      exact h1
    · rw [hp0, h8, List.append_assoc]
  | @invalid r r2 c found hnext _ ih =>
    intro fuel errorCount tokens stderr k hfuel hk hN hlen
    obtain ⟨n, rfl⟩ : ∃ n, fuel = n + 1 := ⟨fuel - 1, by omega⟩
    have hlen2 := consumed_length (next_consumed hnext) (by simp)
    obtain ⟨p0, hp0, hinv⟩ : ∃ pre, r = pre ++ c :: r2 ∧ Invalid T c r2 := next_consumed hnext
    simp only [Found.invalids, List.length_cons] at hlen
    have hstep : Scanner.ScanLoop T N (n + 1) errorCount tokens stderr r =
        Scanner.ScanLoop T N n (errorCount + 1) tokens
          (stderr ++ [⟨errorCount + 1, c, r2⟩]) r2 := by
      rw [Scanner.ScanLoop, if_neg (by omega), hnext]
    rcases Nat.eq_or_lt_of_le hk with hk1 | hk2
    · subst hk1
      obtain ⟨m, rfl⟩ : ∃ m, n = m + 1 := ⟨n - 1, by omega⟩
      refine ⟨Scanner.scanEnd (errorCount + 1) tokens
          (stderr ++ [ScanReport.mk (errorCount + 1) c r2]) r2,
        [ScanReport.mk (errorCount + 1) c r2], ScanReport.mk (errorCount + 1) c r2, p0,
        ?_, ?_, rfl, ?_, rfl, rfl, rfl, hp0, ?_⟩
      · rw [hstep, Scanner.ScanLoop, if_pos (by push_cast; omega)]
      · simp [Scanner.scanEnd]
      · simp [Found.invalids]
      · intro e he
        simp only [List.mem_singleton] at he
        subst he
        exact hinv
    · obtain ⟨j, rfl⟩ : ∃ j, k = j + 1 := ⟨k - 1, by omega⟩
      obtain ⟨res, new, last, pre, h1, h2, h3, h4, h5, h6, h7, h8, h9⟩ :=
        ih n (errorCount + 1) tokens (stderr ++ [⟨errorCount + 1, c, r2⟩]) j (by omega)
          (by omega) (by push_cast at hN ⊢; omega) (by omega)
      refine ⟨res, ⟨errorCount + 1, c, r2⟩ :: new, last, p0 ++ c :: pre, ?_, h2, ?_, ?_, ?_,
        getLast?_cons_of_some h6, h7, ?_, ?_⟩
      · rw [hstep, h1]
      · rw [h3, List.append_assoc, List.singleton_append]
      · simp [Found.invalids, h4]
      · simp only [List.map_cons, h5]
        rw [List.range'_succ]
      · rw [hp0, h8, List.append_assoc, List.cons_append]
      · intro e he
        rcases List.mem_cons.1 he with rfl | he
        · exact hinv
        · exact h9 e he

/-- Every input yields some sequence of tokens and invalid characters: the
calls of `Next` reach the end of the input. -/
theorem yields_total (T : UnicodeTables) (n : Nat) :
    ∀ r : List Char, r.length ≤ n → ∃ found, Scanner.Yields T r found := by
  induction n with
  | zero =>
    intro r hr
    have : r = [] := List.length_eq_zero.1 (Nat.le_zero.1 hr)
    subst this
    exact ⟨[], @Scanner.Yields.eof T [] [] rfl⟩
  | succ n ih =>
    intro r hr
    cases hnext : Scanner.Next T r with
    | none =>
      have := next_isSome T r
      rw [hnext] at this
      cases this
    | some res =>
      obtain ⟨x, r2⟩ := res
      have hcons := next_consumed hnext
      match x, hnext, hcons with
      | .ok v, hnext, hcons =>
        have hlen := consumed_length hcons (by simp)
        obtain ⟨found, hfound⟩ := ih r2 (by omega)
        exact ⟨_, Scanner.Yields.token hnext hfound⟩
      | .error Error.EOF, hnext, _ => exact ⟨[], Scanner.Yields.eof hnext⟩
      | .error (Error.ScanError c), hnext, hcons =>
        have hlen := consumed_length hcons (by simp)
        obtain ⟨found, hfound⟩ := ih r2 (by omega)
        exact ⟨_, Scanner.Yields.invalid hnext hfound⟩
      | .error (Error.StepError s), _, hcons => exact absurd hcons id
      | .error (Error.other s), _, hcons => exact absurd hcons id

/-! ## The error budget of the tokenizer -/

theorem twoInvalid_yields :
    Scanner.Yields noTables twoInvalid
      [Found.token ⟨.Ident, "a"⟩, Found.invalid '@', Found.token ⟨.Ident, "b"⟩,
        Found.invalid '#', Found.token ⟨.Ident, "c"⟩] := by
  refine @Scanner.Yields.token _ _ " @ b # c ".toList _ _ (by rfl) ?_
  refine @Scanner.Yields.invalid _ _ " b # c ".toList _ _ (by rfl) ?_
  refine @Scanner.Yields.token _ _ " # c ".toList _ _ (by rfl) ?_
  refine @Scanner.Yields.invalid _ _ " c ".toList _ _ (by rfl) ?_
  refine @Scanner.Yields.token _ _ " ".toList _ _ (by rfl) ?_
  exact @Scanner.Yields.eof _ _ [] (by rfl)

/-- Budget exhaustion in the tokenizer: for every budget `N ≥ 1` and every
input in which the calls of `Next` come upon at least `N` invalid characters,
`Scanner.Scan` returns `StepError("token scanning")` having written exactly `N`
lines, numbered 1 to `N`, for the first `N` of them in order, each an invalid
character in the sense of `Invalid`; and the reader is left exactly after the
character of the `N`-th line. -/
theorem scan_budget_exhausted (T : UnicodeTables) (N : Nat) (input : List Char)
    (found : List Found) (hN : 1 ≤ N) (h : Scanner.Yields T input found)
    (hlen : N ≤ (Found.invalids found).length) :
    ∃ (res : ScanResult) (last : ScanReport) (consumed : List Char),
      Scanner.Scan T N input = some res ∧
      res.err = some (Error.StepError "token scanning") ∧
      res.stderr.length = N ∧
      res.stderr.map (fun e => e.number) = List.range' 1 N ∧
      res.stderr.map (fun e => e.char) = (Found.invalids found).take N ∧
      (∀ e ∈ res.stderr, Invalid T e.char e.unread) ∧
      res.stderr.getLast? = some last ∧ last.unread = res.Reader ∧
      input = consumed ++ last.char :: res.Reader := by
  obtain ⟨res, new, last, pre, h1, h2, h3, h4, h5, h6, h7, h8, h9⟩ :=
    scanLoop_exhausted T N h (input.length + 1) 0 [] [] N (Nat.lt_succ_self _) hN
      (by simp) hlen
  rw [List.nil_append] at h3
  subst h3
  refine ⟨res, last, pre, h1, h2, ?_, h5, h4, h9, h6, h7, h8⟩
  have := congrArg List.length h5
  simpa using this

/-- Budget exhaustion on `a @ b # c ` with budget 2. -/
theorem scan_budget_exhausted_witness :
    ∃ (res : ScanResult) (last : ScanReport) (consumed : List Char),
      Scanner.Scan noTables (2 : Nat) twoInvalid = some res ∧
      res.err = some (Error.StepError "token scanning") ∧
      res.stderr.length = 2 ∧
      res.stderr.map (fun e => e.number) = List.range' 1 2 ∧
      res.stderr.map (fun e => e.char) = ['@', '#'] ∧
      (∀ e ∈ res.stderr, Invalid noTables e.char e.unread) ∧
      res.stderr.getLast? = some last ∧ last.unread = res.Reader ∧
      twoInvalid = consumed ++ last.char :: res.Reader :=
  scan_budget_exhausted noTables 2 twoInvalid _ (by decide) twoInvalid_yields (by decide)

/-- C4, the code at the failing input. The text `a : b :` holds two colons
that no `=` follows.  With budget 2 `Scanner.Scan` writes one line only, for
the first colon: at the second one `readAssignOPToken` meets the end of the
input, returns `io.EOF` and the loop of `Scan` breaks, so the budget is never
reached.  With a space after the last colon both lines are written and the
loop stops at the budget.  Likewise a colon alone, with budget 1, is scanned
with no error at all, and with a space after it the error is reported. -/
theorem scan_colon_at_end (T : UnicodeTables) :
    Scanner.Scan T 2 colonAtEnd =
      some { tokens := [⟨.Ident, "a"⟩, ⟨.Ident, "b"⟩],
             err := some (Error.StepError "token scanning"),
             stderr := [⟨1, ':', " b :".toList⟩],
             Reader := [] } ∧
    Scanner.Scan T 2 (colonAtEnd ++ [' ']) =
      some { tokens := [⟨.Ident, "a"⟩, ⟨.Ident, "b"⟩],
             err := some (Error.StepError "token scanning"),
             stderr := [⟨1, ':', " b : ".toList⟩, ⟨2, ':', " ".toList⟩],
             Reader := " ".toList } ∧
    Scanner.Scan T 1 [':'] = some { tokens := [], err := none, stderr := [], Reader := [] } ∧
    Scanner.Scan T 1 [':', ' '] =
      some { tokens := [], err := some (Error.StepError "token scanning"),
             stderr := [⟨1, ':', " ".toList⟩], Reader := " ".toList } :=
  ⟨rfl, rfl, rfl, rfl⟩

theorem scan_twoInvalid :
    Scanner.Scan noTables 3 twoInvalid =
      some { tokens := [⟨.Ident, "a"⟩, ⟨.Ident, "b"⟩, ⟨.Ident, "c"⟩],
             err := some (Error.StepError "token scanning"),
             stderr := [⟨1, '@', " b # c ".toList⟩, ⟨2, '#', " c ".toList⟩],
             Reader := [] } := by
  rfl

/-- C5, counterexample: `a @ b # c ` holds two invalid characters, one fewer
than the budget 3, and `Scanner.Scan` returns the step-failure. -/
theorem scan_below_budget_succeeds_counterexample :
    ∃ found res, Scanner.Yields noTables twoInvalid found ∧
      (Found.invalids found).length = 3 - 1 ∧
      Scanner.Scan noTables 3 twoInvalid = some res ∧
      res.err = some (Error.StepError "token scanning") :=
  ⟨_, _, twoInvalid_yields, by decide, scan_twoInvalid, rfl⟩

/-- C5, amended. The tokenizer below its budget: for every budget `N ≥ 1` and
every input in which the calls of `Next` come upon exactly `N - 1` invalid
characters, `Scanner.Scan` reads the whole input, writes one numbered line for
each of them and returns every token found, in input order; it returns `nil`
when there was no invalid character (`N = 1`) and `StepError("token scanning")`
when there was one or more. -/
theorem scan_below_budget (T : UnicodeTables) (N : Nat) (input : List Char)
    (found : List Found) (hN : 1 ≤ N) (h : Scanner.Yields T input found)
    (hlen : (Found.invalids found).length = N - 1) :
    ∃ res, Scanner.Scan T N input = some res ∧
      res.tokens = Found.tokens found ∧
      res.stderr.map (fun e => e.char) = Found.invalids found ∧
      res.stderr.map (fun e => e.number) = List.range' 1 (N - 1) ∧
      res.Reader = [] ∧
      (N = 1 → res.err = none) ∧
      (N ≠ 1 → res.err = some (Error.StepError "token scanning")) := by
  obtain ⟨new, h1, h2, h3⟩ := scanLoop_below T N h (input.length + 1) 0 [] []
    (Nat.lt_succ_self _) (by rw [hlen]; push_cast; omega)
  simp only [List.nil_append, Nat.zero_add] at h1 h3
  refine ⟨_, h1, rfl, h2, by rw [← hlen]; exact h3, rfl, ?_, ?_⟩
  · intro h1
    simp [Scanner.scanEnd, hlen, h1]
  · intro h1
    have : 0 < (Found.invalids found).length := by omega
    simp [Scanner.scanEnd, this]

/-- C5, witness: `a @ b # c ` with budget 3. -/
theorem scan_below_budget_witness :
    ∃ res, Scanner.Scan noTables (3 : Nat) twoInvalid = some res ∧
      res.tokens = [⟨.Ident, "a"⟩, ⟨.Ident, "b"⟩, ⟨.Ident, "c"⟩] ∧
      res.stderr.map (fun e => e.char) = ['@', '#'] ∧
      res.stderr.map (fun e => e.number) = List.range' 1 (3 - 1) ∧
      res.Reader = [] ∧
      ((3 : Nat) = 1 → res.err = none) ∧
      ((3 : Nat) ≠ 1 → res.err = some (Error.StepError "token scanning")) :=
  scan_below_budget noTables 3 twoInvalid _ (by decide) twoInvalid_yields (by decide)

/-! ## The two stages on the sample program -/

theorem scan_sampleText (T : UnicodeTables) :
    Scanner.Scan T maxErrors sampleText =
      some { tokens := sampleTokens.take 21, err := none, stderr := [], Reader := [] } := by
  rfl

theorem parse_sampleTokens_cut :
    (Parser.New (sampleTokens.take 21) maxErrors).Parse =
      some (some (Error.StepError "parsing"),
        ⟨⟨none, []⟩, 5, 1, [⟨1, ⟨[Token.End], eofPlaceholder⟩, []⟩]⟩) := by
  have hts : sampleTokens.take 21 = ⟨.Begin, "begin"⟩ :: sampleStatements := rfl
  obtain ⟨cur, hcur⟩ := sentence_realised sampleStatements_sentence sampleStatements []
    { Parser.New (sampleTokens.take 21) maxErrors with
      TokenSet := ⟨some ⟨.Begin, "begin"⟩, sampleStatements ++ []⟩ }
    (Parser.New (sampleTokens.take 21) maxErrors).fuel rfl rfl (by simp) (by decide)
  unfold Parser.Parse
  rw [Parser.parseProgram, @match_ok _ ⟨.Begin, "begin"⟩ (sampleStatements ++ []) _ (by rfl) (by simp),
    andThen_ok, hcur, andThen_ok]
  simp [Parser.match_, Parser.handleError, Set.Next, Parser.New, maxErrors, eofPlaceholder]

theorem scan_sampleText_newline (T : UnicodeTables) :
    Scanner.Scan T maxErrors (sampleText ++ ['\n']) =
      some { tokens := sampleTokens, err := none, stderr := [], Reader := [] } := by
  rfl

theorem parse_sampleTokens :
    ∃ cur, (Parser.New sampleTokens maxErrors).Parse =
      some (none, ⟨⟨cur, []⟩, maxErrors, 0, []⟩) := by
  obtain ⟨cur, hcur⟩ := sentence_realised sampleTokens_sentence sampleTokens []
    (Parser.New sampleTokens maxErrors) (Parser.New sampleTokens maxErrors).fuel rfl rfl
    (by simp) (by decide)
  refine ⟨cur, ?_⟩
  unfold Parser.Parse
  rw [hcur]
  simp [Parser.New]

/-- C3, the code at the failing input. On exactly the characters of
`begin read(x,y); z:=x+y-1; write(z); end` the tokenizer succeeds but drops the
final `end`, which the end of the input cuts short, so the recognizer reports
`Expected 'end' but found 'EOF'` and `run` fails; with a newline after `end`
both stages succeed and nothing is reported. -/
theorem run_sampleText (T : UnicodeTables) :
    Scanner.Scan T maxErrors sampleText =
      some { tokens := sampleTokens.take 21, err := none, stderr := [], Reader := [] } ∧
    run T sampleText =
      some { err := some (Error.StepError "parsing"), scanErrors := [],
             parseErrors := [⟨1, ⟨[Token.End], eofPlaceholder⟩, []⟩] } ∧
    run T (sampleText ++ ['\n']) = some { err := none, scanErrors := [], parseErrors := [] } := by
  refine ⟨scan_sampleText T, ?_, ?_⟩
  · unfold run
    rw [scan_sampleText]
    dsimp only
    rw [parse_sampleTokens_cut]
  · obtain ⟨cur, hcur⟩ := parse_sampleTokens
    unfold run
    rw [scan_sampleText_newline]
    dsimp only
    rw [hcur]

/-! ## Identifiers and integers at the end of the input -/

/-- C10, the code at the failing input. The tokenizer accepts the identifier
`x` and the integer `7` when a space follows them, but on the lexeme alone it
returns no token at all, and no error: the run that the end of the input cuts
short is dropped. -/
theorem scan_lexeme_alone (T : UnicodeTables) :
    Scanner.Scan T maxErrors "x ".toList =
      some { tokens := [⟨.Ident, "x"⟩], err := none, stderr := [], Reader := [] } ∧
    Scanner.Scan T maxErrors "x".toList =
      some { tokens := [], err := none, stderr := [], Reader := [] } ∧
    Scanner.Scan T maxErrors "7 ".toList =
      some { tokens := [⟨.IntLiteral, "7"⟩], err := none, stderr := [], Reader := [] } ∧
    Scanner.Scan T maxErrors "7".toList =
      some { tokens := [], err := none, stderr := [], Reader := [] } :=
  ⟨rfl, rfl, rfl, rfl⟩

/-! ## Token kinds as text, and the cursor -/

/-- C17. Display strings are distinct: `Token.String` gives the thirteen token
kinds thirteen different strings, none of them the `unknown` of the `default`
branch. -/
theorem token_string_injective :
    (∀ a b : Token, Token.String a.toInt = Token.String b.toInt → a = b) ∧
    (∀ a : Token, Token.String a.toInt ≠ "unknown") := by
  constructor
  · intro a b
    cases a <;> cases b <;> decide
  · intro a
    cases a <;> decide

/-- C15. The colon rule: when the input starts with `:` and a character other
than `=`, `Next` returns the invalid-character error for the colon with that
character still unread, so that the following call starts at it; when the
input starts with `:=`, `Next` returns the `AssignOp` token. -/
theorem next_colon (T : UnicodeTables) (c : Char) (rest : List Char) :
    (c ≠ '=' →
      Scanner.Next T (':' :: c :: rest) = some (.error (Error.ScanError ':'), c :: rest)) ∧
    Scanner.Next T (':' :: '=' :: rest) =
      some (.ok { Token := Token.AssignOP, Value := ":=" }, rest) ∧
    Scanner.Next T (':' :: ';' :: rest) = some (.error (Error.ScanError ':'), ';' :: rest) ∧
    Scanner.Next T (';' :: rest) = some (.ok { Token := Token.Semicolon, Value := ";" }, rest) := by
  refine ⟨?_, rfl, rfl, rfl⟩
  intro hc
  have h : (c != '=') = true := by simpa using hc
  show Scanner.NextLoop T ((c :: rest).length + 1 + 1) (':' :: c :: rest) = _
  rw [Scanner.NextLoop]
  simp only [Scanner.readAssignOPToken, h]
  rfl

/-- C15, witness: the input `:;`. -/
theorem next_colon_witness :
    Scanner.Next noTables [':', ';'] = some (.error (Error.ScanError ':'), [';']) :=
  (next_colon noTables ';' []).1 (by decide)

theorem nextN_nil (cur : Option Value) (k : Nat) :
    Set.NextN k ⟨cur, []⟩ = List.replicate k none := by
  induction k generalizing cur with
  | zero => rfl
  | succ k ih =>
    rw [Set.NextN, List.replicate_succ]
    exact congrArg (List.cons none) (ih none)

theorem nextN_tokens (ts : List Value) (cur : Option Value) (k : Nat) :
    Set.NextN (ts.length + k) ⟨cur, ts⟩ = ts.map some ++ List.replicate k none := by
  induction ts generalizing cur with
  | nil => simpa using nextN_nil cur k
  | cons t ts ih =>
    have : (t :: ts).length + k = (ts.length + k) + 1 := by simp; omega
    rw [this, Set.NextN]
    exact congrArg (List.cons (some t)) (ih (some t))

/-- C16. The token cursor: `Peek` returns the first remaining token, `nil` when
there is none, and, being a function of the set alone, changes neither the
remaining tokens nor `Current`; `Next` returns that same token, records it as
`Current` and removes it from the remaining tokens; so the calls of `Next` on
`NewSet(ts)` return the tokens of `ts` in order, each once, and `nil` ever
after. -/
theorem set_cursor :
    (∀ s : Set, s.Peek = s.Tokens.head?) ∧
    (∀ s : Set, s.Next.1 = s.Peek ∧ s.Next.2.Current = s.Next.1 ∧
      s.Next.2.Tokens = s.Tokens.tail) ∧
    (∀ (ts : List Value) (k : Nat),
      (NewSet ts).NextN (ts.length + k) = ts.map some ++ List.replicate k none) := by
  refine ⟨peek_eq_head, ?_, fun ts k => nextN_tokens ts none k⟩
  intro s
  obtain ⟨cur, ts⟩ := s
  cases ts with
  | nil => exact ⟨rfl, rfl, rfl⟩
  | cons t ts => exact ⟨rfl, rfl, rfl⟩

theorem trailingTokens_sentence : Sentence .Program (kinds (trailingTokens.take 6)) :=
  Sentence.program (Sentence.statementList
    (Sentence.statementAssignment (Sentence.assignment
      (Sentence.expression Sentence.primaryIntLiteral Sentence.primaryRestNil)))
    Sentence.statementRestNil)

/-- C18. Trailing tokens are ignored: for every token sequence `p` whose kinds
form a sentence of `Program`, every token sequence `r` and every budget `N`,
`Parser.Parse` on `p ++ r` returns `nil` with nothing written, and the tokens
left in the cursor are exactly `r`. -/
theorem parse_trailing (p r : List Value) (N : Int) (h : Sentence .Program (kinds p)) :
    ∃ cur, (Parser.New (p ++ r) N).Parse =
      some (none, { TokenSet := ⟨cur, r⟩, MaxErrors := N, errorCount := 0, stderr := [] }) := by
  obtain ⟨cur, hcur⟩ := sentence_realised h p r (Parser.New (p ++ r) N)
    (Parser.New (p ++ r) N).fuel rfl rfl (by simp)
    (by simp [Parser.fuel, Parser.New, NewSet])
  refine ⟨cur, ?_⟩
  unfold Parser.Parse
  rw [hcur]
  simp [Parser.New]

/-- C18, witness: the tokens of `begin x:=1; end end` with budget 5. -/
theorem parse_trailing_witness :
    ∃ cur, (Parser.New (trailingTokens.take 6 ++ [⟨.End, "end"⟩]) 5).Parse =
      some (none, { TokenSet := ⟨cur, [⟨.End, "end"⟩]⟩, MaxErrors := 5, errorCount := 0,
                    stderr := [] }) :=
  parse_trailing (trailingTokens.take 6) [⟨.End, "end"⟩] 5 trailingTokens_sentence

/-- C20. Termination of the recognizer: for every token sequence and every
budget `N`, also `N ≤ 0`, `Parser.Parse` returns, with a fuel linear in the
number of tokens, and the tokens left are a suffix of the input.  The fuel is
enough because every loop goes on only while a token is left, every turn of a
loop starts with a `match` or a `parseStatement`, each of which consumes a
token when there is one, and `parsePrimary` calls `parseExpression` after it
has consumed the parenthesis. -/
theorem parse_terminates (ts : List Value) (N : Int) :
    (∃ e q, (Parser.New ts N).Parse = some (e, q) ∧ q.TokenSet.Tokens <:+ ts) ∧
    (∀ fuel, 2 * ts.length + 3 ≤ fuel → (Parser.parseProgram fuel (Parser.New ts N)).isSome) ∧
    (∀ (p : Parser) (ex : List Token),
      (p.match_ ex).2.TokenSet.Tokens = p.TokenSet.Tokens.tail) ∧
    (∀ (fuel : Nat) (p q : Parser) (e : Option Error),
      Parser.parseStatement fuel p = some (e, q) →
        q.TokenSet.Tokens.length ≤ p.TokenSet.Tokens.length - 1) ∧
    (∀ (fuel : Nat) (p : Parser) (t : Value) (rest : List Value),
      p.TokenSet.Tokens = t :: rest → t.Token = Token.LeftParen →
      Parser.parsePrimary (fuel + 1) p =
        andThen (Parser.parseExpression fuel { p with TokenSet := ⟨some t, rest⟩ })
          fun parser => some (parser.match_ [Token.RightParen])) ∧
    (∀ (fuel : Nat) (p : Parser), p.TokenSet.Tokens = [] →
      Parser.parseStatementListLoop (fuel + 1) p = some (none, p) ∧
      Parser.parseIdentListLoop (fuel + 1) p = some (none, p) ∧
      Parser.parseExpressionLoop (fuel + 1) p = some (none, p) ∧
      Parser.parseExpressionListLoop (fuel + 1) p = some (none, p)) := by
  refine ⟨?_, ?_, match_tokens, fun fuel p q e h => parseStatement_length h, ?_, ?_⟩
  · obtain ⟨e, q, h⟩ := parse_total (Parser.New ts N)
    obtain ⟨e0, hp, -, -⟩ := parse_eq h
    exact ⟨e, q, h, (parseProgram_rel budget_stepRel _ _ e0 q hp).2.1⟩
  · intro fuel hf
    exact parseProgram_isSome fuel _ hf
  · intro fuel p t rest hp ht
    rw [Parser.parsePrimary, next_cons hp]
    simp [ht]
  · intro fuel p hp
    have hpeek : p.TokenSet.Peek = none := by rw [peek_eq_head, hp]; rfl
    refine ⟨?_, ?_, ?_, ?_⟩
    · rw [Parser.parseStatementListLoop, hpeek]
    · rw [Parser.parseIdentListLoop, hpeek]
    · rw [Parser.parseExpressionLoop, hpeek]
    · rw [Parser.parseExpressionListLoop, hpeek]

/-- C12, the code at the failing input. On `123abc` the letter `a` ends the
digit run and is left for the next token, but the identifier run `abc` is cut
short by the end of the input and dropped, so `Scan` returns the `IntLiteral`
alone; with a space after `abc` it returns both tokens. -/
theorem scan_digits_letters (T : UnicodeTables) :
    Scanner.Next T "123abc".toList =
      some (.ok { Token := Token.IntLiteral, Value := "123" }, "abc".toList) ∧
    Scanner.Scan T maxErrors "123abc".toList =
      some { tokens := [⟨.IntLiteral, "123"⟩], err := none, stderr := [], Reader := [] } ∧
    Scanner.Scan T maxErrors "123abc ".toList =
      some { tokens := [⟨.IntLiteral, "123"⟩, ⟨.Ident, "abc"⟩], err := none, stderr := [],
             Reader := [] } :=
  ⟨rfl, rfl, rfl⟩

/-! ## Maximal munch -/

theorem char_of_val {c : Char} {n : UInt32} (d : Char) (hd : d.val = n) (h : c.val = n) :
    c = d :=
  Char.ext (h.trans hd.symm)

theorem isSpace_cases {T : UnicodeTables} {c : Char} (h : IsSpace T c = true) :
    (c = '\t' ∨ c = '\n' ∨ c = Char.ofNat 0x0B ∨ c = Char.ofNat 0x0C ∨ c = '\r' ∨ c = ' ' ∨
      c = Char.ofNat 0x85 ∨ c = Char.ofNat 0xA0) ∨ (¬ c.val ≤ 0xFF ∧ T.White_Space c = true) := by
  unfold IsSpace at h
  split at h
  · left
    simp only [Bool.or_eq_true, beq_iff_eq] at h
    rcases h with ((((((h | h) | h) | h) | h) | h) | h) | h
    · exact Or.inl h
    · exact Or.inr (Or.inl h)
    · exact Or.inr (Or.inr (Or.inl (char_of_val _ rfl h)))
    · exact Or.inr (Or.inr (Or.inr (Or.inl (char_of_val _ rfl h))))
    · exact Or.inr (Or.inr (Or.inr (Or.inr (Or.inl h))))
    · exact Or.inr (Or.inr (Or.inr (Or.inr (Or.inr (Or.inl h)))))
    · exact Or.inr (Or.inr (Or.inr (Or.inr (Or.inr (Or.inr (Or.inl (char_of_val _ rfl h)))))))
    · exact Or.inr (Or.inr (Or.inr (Or.inr (Or.inr (Or.inr (Or.inr (char_of_val _ rfl h)))))))
  · right
    exact ⟨‹_›, h⟩

/-- White space is no letter, no digit and no underscore. -/
theorem isSpace_not_run {T : UnicodeTables} (hT : T.Coherent) {c : Char}
    (h : IsSpace T c = true) :
    IsLetter T c = false ∧ IsDigit T c = false ∧ c ≠ '_' ∧ isRunChar T c = false := by
  have key : IsLetter T c = false ∧ IsDigit T c = false ∧ c ≠ '_' := by
    rcases isSpace_cases h with h8 | ⟨hbig, hw⟩
    · rcases h8 with h | h | h | h | h | h | h | h <;> subst h <;>
        exact ⟨rfl, rfl, by decide⟩
    · obtain ⟨h1, h2⟩ := hT c hw
      refine ⟨?_, ?_, ?_⟩
      · unfold IsLetter; rw [if_neg hbig]; exact h1
      · unfold IsDigit; rw [if_neg hbig]; exact h2
      · rintro rfl
        exact hbig (by decide)
  refine ⟨key.1, key.2.1, key.2.2, ?_⟩
  unfold isRunChar
  simp [key.1, key.2.1, key.2.2]

theorem take_concat_length (chars : List Char) (d : Char) :
    (chars ++ [d]).take ((chars ++ [d]).length - 1) = chars := by
  simp

theorem readIdentTokenLoop_run (T : UnicodeTables) (chars run rest : List Char)
    (hrun : ∀ c ∈ run, isRunChar T c = true) :
    Scanner.readIdentTokenLoop T chars (run ++ rest) =
      Scanner.readIdentTokenLoop T (chars ++ run) rest := by
  induction run generalizing chars with
  | nil => simp
  | cons c run ih =>
    have hc : (IsLetter T c || IsDigit T c || c == '_') = true := hrun c (by simp)
    rw [List.cons_append, Scanner.readIdentTokenLoop]
    simp only [hc, Bool.not_true, Bool.false_eq_true, if_false]
    rw [ih _ (fun d hd => hrun d (by simp [hd]))]
    simp

theorem readIdentTokenLoop_stop (T : UnicodeTables) (chars : List Char) (d : Char)
    (rest : List Char) (hd : isRunChar T d = false) :
    Scanner.readIdentTokenLoop T chars (d :: rest) =
      (.ok { Token := identKind (String.mk chars), Value := String.mk chars }, d :: rest) := by
  have hc : (IsLetter T d || IsDigit T d || d == '_') = false := hd
  rw [Scanner.readIdentTokenLoop]
  simp only [hc, Bool.not_false, if_true, take_concat_length]
  rfl

theorem readIntLiteralTokenLoop_run (T : UnicodeTables) (chars run rest : List Char)
    (hrun : ∀ c ∈ run, IsDigit T c = true) :
    Scanner.readIntLiteralTokenLoop T chars (run ++ rest) =
      Scanner.readIntLiteralTokenLoop T (chars ++ run) rest := by
  induction run generalizing chars with
  | nil => simp
  | cons c run ih =>
    have hc : IsDigit T c = true := hrun c (by simp)
    rw [List.cons_append, Scanner.readIntLiteralTokenLoop]
    simp only [hc, Bool.not_true, Bool.false_eq_true, if_false]
    rw [ih _ (fun d hd => hrun d (by simp [hd]))]
    simp

theorem readIntLiteralTokenLoop_stop (T : UnicodeTables) (chars : List Char) (d : Char)
    (rest : List Char) (hd : IsDigit T d = false) :
    Scanner.readIntLiteralTokenLoop T chars (d :: rest) =
      (.ok { Token := Token.IntLiteral, Value := String.mk chars }, d :: rest) := by
  rw [Scanner.readIntLiteralTokenLoop]
  simp only [hd, Bool.not_false, if_true, take_concat_length]

/-- The branch of `Next` for a letter: what comes before it in the `switch`
does not apply. -/
theorem nextLoop_letter (T : UnicodeTables) (hT : T.Coherent) (fuel : Nat) (c : Char)
    (reader : List Char) (hc : IsLetter T c = true) :
    Scanner.NextLoop T (fuel + 1) (c :: reader) = some (Scanner.readIdentToken T c reader) := by
  have h1 : ¬ IsSpace T c = true := by
    intro h
    rw [(isSpace_not_run hT h).1] at hc
    cases hc
  have ne : ∀ d : Char, IsLetter T d = false → ¬ (c == d) = true := by
    intro d hd h
    simp only [beq_iff_eq] at h
    subst h
    rw [hd] at hc
    cases hc
  rw [Scanner.NextLoop, if_neg h1, if_neg (ne '(' rfl), if_neg (ne ')' rfl),
    if_neg (ne ';' rfl), if_neg (ne ',' rfl), if_neg (ne '+' rfl), if_pos hc]

theorem next_space_eof (T : UnicodeTables) :
    Scanner.Next T [' '] = some (.error Error.EOF, []) :=
  rfl

/-- C11. Maximal munch for terminated runs: for every word made of a letter
followed by letters, digits and underscores, and every budget `N ≥ 1`, on the
word followed by one space `Next` returns one token whose spelling is the whole
word, with the space still unread, and `Scan` returns exactly that token and
no error; the kind is `Ident` when the word is not reserved. -/
theorem scan_maximal_munch (T : UnicodeTables) (hT : T.Coherent) (N : Int) (hN : 1 ≤ N)
    (c : Char) (run : List Char) (hc : IsLetter T c = true)
    (hrun : ∀ d ∈ run, IsLetter T d = true ∨ IsDigit T d = true ∨ d = '_') :
    Scanner.Next T (c :: run ++ [' ']) =
      some (.ok { Token := identKind (String.mk (c :: run)), Value := String.mk (c :: run) },
        [' ']) ∧
    Scanner.Scan T N (c :: run ++ [' ']) =
      some { tokens := [{ Token := identKind (String.mk (c :: run)),
                          Value := String.mk (c :: run) }],
             err := none, stderr := [], Reader := [] } ∧
    (ReservedIdents (String.mk (c :: run)) = none →
      identKind (String.mk (c :: run)) = Token.Ident) := by
  have hrun2 : ∀ d ∈ run, isRunChar T d = true := by
    intro d hd
    unfold isRunChar
    rcases hrun d hd with h | h | h <;> simp [h]
  have hnext : Scanner.Next T (c :: run ++ [' ']) =
      some (.ok { Token := identKind (String.mk (c :: run)), Value := String.mk (c :: run) },
        [' ']) := by
    unfold Scanner.Next
    rw [List.cons_append, nextLoop_letter T hT _ c _ hc, Scanner.readIdentToken,
      readIdentTokenLoop_run T [c] run [' '] hrun2, readIdentTokenLoop_stop T _ ' ' [] rfl]
    rfl
  refine ⟨hnext, ?_, ?_⟩
  · unfold Scanner.Scan
    have hlen : (c :: run ++ [' ']).length + 1 = run.length + 1 + 1 + 1 := by simp
    rw [hlen, Scanner.ScanLoop, if_neg (by simpa using hN), hnext]
    dsimp only
    rw [Scanner.ScanLoop, if_neg (by simpa using hN), next_space_eof]
    rfl
  · intro h
    unfold identKind
    rw [h]

/-- C11, witness: `abc123_x9 ` with budget 5. -/
theorem scan_maximal_munch_witness :
    Scanner.Scan noTables 5 "abc123_x9 ".toList =
      some { tokens := [{ Token := Token.Ident, Value := "abc123_x9" }],
             err := none, stderr := [], Reader := [] } :=
  (scan_maximal_munch noTables (fun _ h => by cases h) 5 (by decide) 'a' "bc123_x9".toList rfl
    (by decide)).2.1

/-! ## Reserved words -/

theorem reservedIdents_ne_ident {value : String} {k : Token}
    (h : ReservedIdents value = some k) : k ≠ Token.Ident := by
  unfold ReservedIdents at h
  split at h
  · cases h; decide
  split at h
  · cases h; decide
  split at h
  · cases h; decide
  split at h
  · cases h; decide
  · cases h

theorem reservedIdents_head {c : Char} {cs : List Char} {k : Token}
    (h : ReservedIdents (String.mk (c :: cs)) = some k) :
    c = 'b' ∨ c = 'e' ∨ c = 'r' ∨ c = 'w' := by
  have key : ∀ s : String, String.mk (c :: cs) = s → s.data.head? = some c := by
    intro s hs
    rw [← hs]
    rfl
  unfold ReservedIdents at h
  split at h
  · have := key _ ‹_›
    left
    exact (Option.some.inj this).symm
  split at h
  · have := key _ ‹_›
    right; left
    exact (Option.some.inj this).symm
  split at h
  · have := key _ ‹_›
    right; right; left
    exact (Option.some.inj this).symm
  split at h
  · have := key _ ‹_›
    right; right; right
    exact (Option.some.inj this).symm
  · cases h

theorem classified_identKind (value : String) :
    Classified { Token := identKind value, Value := value } := by
  unfold identKind
  constructor
  · intro k hk
    simp only [hk]
  · intro h
    cases hr : ReservedIdents value with
    | none => rfl
    | some k =>
      rw [hr] at h
      exact absurd h (reservedIdents_ne_ident hr)

theorem readIdentTokenLoop_classified (T : UnicodeTables) (chars r : List Char) (v : Value)
    (r2 : List Char) (h : Scanner.readIdentTokenLoop T chars r = (.ok v, r2)) :
    Classified v := by
  induction r generalizing chars with
  | nil => rw [Scanner.readIdentTokenLoop] at h; cases h
  | cons d r ih =>
    rw [Scanner.readIdentTokenLoop] at h
    dsimp only at h
    split at h
    · simp only [Prod.mk.injEq, Except.ok.injEq] at h
      rw [← h.1]
      exact classified_identKind _
    · exact ih _ h

theorem readIntLiteralTokenLoop_value (T : UnicodeTables) (chars r : List Char) (v : Value)
    (r2 : List Char) (h : Scanner.readIntLiteralTokenLoop T chars r = (.ok v, r2)) :
    ∃ cs, v = { Token := Token.IntLiteral, Value := String.mk (chars ++ cs) } := by
  induction r generalizing chars with
  | nil => rw [Scanner.readIntLiteralTokenLoop] at h; cases h
  | cons d r ih =>
    rw [Scanner.readIntLiteralTokenLoop] at h
    split at h
    · simp only [Prod.mk.injEq, Except.ok.injEq] at h
      refine ⟨[], ?_⟩
      rw [← h.1, take_concat_length, List.append_nil]
    · obtain ⟨cs, hcs⟩ := ih _ h
      exact ⟨d :: cs, by rw [hcs]; simp⟩

theorem classified_fixed {k : Token} {value : String} (hk : k ≠ Token.Ident)
    (hv : ReservedIdents value = none) : Classified { Token := k, Value := value } :=
  ⟨fun j hj => (by rw [hv] at hj; cases hj), fun h => absurd h hk⟩

theorem nextLoop_classified (T : UnicodeTables) (fuel : Nat) (r : List Char) (v : Value)
    (r2 : List Char) (h : Scanner.NextLoop T fuel r = some (.ok v, r2)) : Classified v := by
  induction fuel generalizing r with
  | zero => rw [Scanner.NextLoop] at h; cases h
  | succ n ih =>
    cases r with
    | nil => rw [Scanner.NextLoop] at h; cases h
    | cons c r =>
      rw [Scanner.NextLoop] at h
      have tok : ∀ (k : Token) (value : String), k ≠ Token.Ident →
          ReservedIdents value = none →
          some ((Except.ok { Token := k, Value := value } : Except Error Value), r) =
            some (.ok v, r2) → Classified v := by
        intro k value hk hv hkv
        simp only [Option.some.injEq, Prod.mk.injEq, Except.ok.injEq] at hkv
        rw [← hkv.1]
        exact classified_fixed hk hv
      by_cases h1 : IsSpace T c = true
      · rw [if_pos h1] at h
        exact ih r h
      rw [if_neg h1] at h
      by_cases h2 : (c == '(') = true
      · rw [if_pos h2] at h; exact tok _ _ (by decide) (by decide) h
      rw [if_neg h2] at h
      by_cases h3 : (c == ')') = true
      · rw [if_pos h3] at h; exact tok _ _ (by decide) (by decide) h
      rw [if_neg h3] at h
      by_cases h4 : (c == ';') = true
      · rw [if_pos h4] at h; exact tok _ _ (by decide) (by decide) h
      rw [if_neg h4] at h
      by_cases h5 : (c == ',') = true
      · rw [if_pos h5] at h; exact tok _ _ (by decide) (by decide) h
      rw [if_neg h5] at h
      by_cases h6 : (c == '+') = true
      · rw [if_pos h6] at h; exact tok _ _ (by decide) (by decide) h
      rw [if_neg h6] at h
      by_cases h7 : IsLetter T c = true
      · rw [if_pos h7] at h
        simp only [Option.some.injEq] at h
        exact readIdentTokenLoop_classified T [c] r v r2 h
      rw [if_neg h7] at h
      by_cases h8 : IsDigit T c = true
      · rw [if_pos h8] at h
        simp only [Option.some.injEq] at h
        obtain ⟨cs, hcs⟩ := readIntLiteralTokenLoop_value T [c] r v r2 h
        rw [hcs]
        refine classified_fixed (by decide) ?_
        cases hr : ReservedIdents (String.mk ([c] ++ cs)) with
        | none => rfl
        | some k =>
          exfalso
          have hl : ∀ d : Char, IsLetter T d = true → c ≠ d := by
            rintro d hd rfl
            exact h7 hd
          rcases reservedIdents_head hr with hc | hc | hc | hc
          · exact hl 'b' rfl hc
          · exact hl 'e' rfl hc
          · exact hl 'r' rfl hc
          · exact hl 'w' rfl hc
      rw [if_neg h8] at h
      by_cases h9 : (c == ':') = true
      · rw [if_pos h9] at h
        simp only [Option.some.injEq] at h
        cases r with
        | nil => cases h
        | cons d r =>
          rw [Scanner.readAssignOPToken] at h
          split at h
          · cases h
          · simp only [Prod.mk.injEq, Except.ok.injEq] at h
            rw [← h.1]
            exact classified_fixed (by decide) (by decide)
      rw [if_neg h9] at h
      by_cases h10 : (c == '-') = true
      · rw [if_pos h10] at h
        rcases readMinusOPOrCommentToken_spec r with hm | ⟨w, hm⟩ | ⟨pre, r3, hpre, hm⟩
        · rw [hm] at h
          cases h
        · have hw : w = { Token := Token.MinusOP, Value := "-" } := by
            cases r with
            | nil => cases hm
            | cons d r =>
              rw [Scanner.readMinusOPOrCommentToken] at hm
              split at hm
              · simp only [Prod.mk.injEq, Except.ok.injEq, Option.some.injEq] at hm
                exact hm.1.symm
              · rcases skipComment_spec r with hs | ⟨pre, -, -, hs⟩
                · rw [hs] at hm; cases hm
                · rw [Prod.ext_iff] at hm
                  rw [hs] at hm
                  cases hm.1
          rw [hm] at h
          simp only [Option.some.injEq, Prod.mk.injEq, Except.ok.injEq] at h
          rw [← h.1, hw]
          exact classified_fixed (by decide) (by decide)
        · rw [hm] at h
          exact ih r3 h
      rw [if_neg h10] at h
      cases h

/-- What holds of every token `Next` returns holds of every token `Scan`
returns. -/
theorem scanLoop_tokens_forall (T : UnicodeTables) (N : Int) (P : Value → Prop)
    (hP : ∀ r v r2, Scanner.Next T r = some (.ok v, r2) → P v) (fuel : Nat) :
    ∀ (errorCount : Nat) (tokens : List Value) (stderr : List ScanReport) (r : List Char)
      (res : ScanResult),
      Scanner.ScanLoop T N fuel errorCount tokens stderr r = some res →
      (∀ v ∈ tokens, P v) → ∀ v ∈ res.tokens, P v := by
  induction fuel with
  | zero =>
    intro errorCount tokens stderr r res h
    rw [Scanner.ScanLoop] at h
    cases h
  | succ n ih =>
    intro errorCount tokens stderr r res h htok
    rw [Scanner.ScanLoop] at h
    split at h
    · simp only [Option.some.injEq] at h
      rw [← h]
      exact htok
    · cases hn : Scanner.Next T r with
      | none => rw [hn] at h; cases h
      | some x =>
        obtain ⟨x, r2⟩ := x
        rw [hn] at h
        match x, hn, h with
        | .ok v, hn, h =>
          refine ih _ _ _ _ _ h ?_
          intro w hw
          rcases List.mem_append.1 hw with hw | hw
          · exact htok w hw
          · simp only [List.mem_singleton] at hw
            rw [hw]
            exact hP _ _ _ hn
        | .error Error.EOF, _, h =>
          simp only [Option.some.injEq] at h
          rw [← h]
          exact htok
        | .error (Error.ScanError c), _, h => exact ih _ _ _ _ _ h htok
        | .error (Error.StepError s), _, h =>
          simp only [Option.some.injEq] at h
          rw [← h]
          exact htok
        | .error (Error.other s), _, h =>
          simp only [Option.some.injEq] at h
          rw [← h]
          exact htok

/-- C14. Reserved-word precedence: for every input and every budget, every
token `Scan` returns whose spelling is `begin`, `end`, `read` or `write` has the
kind of that reserved word, and every token of kind `Ident` is spelled
otherwise; and the token `readIdentToken` makes of a run has the kind the map
`ReservedIdents` gives its spelling, `Ident` only when the map has none. -/
theorem reserved_precedence (T : UnicodeTables) (N : Int) (input : List Char)
    (res : ScanResult) (h : Scanner.Scan T N input = some res) :
    (∀ v ∈ res.tokens,
      (v.Value = "begin" → v.Token = Token.Begin) ∧ (v.Value = "end" → v.Token = Token.End) ∧
      (v.Value = "read" → v.Token = Token.Read) ∧ (v.Value = "write" → v.Token = Token.Write) ∧
      (v.Token = Token.Ident →
        v.Value ≠ "begin" ∧ v.Value ≠ "end" ∧ v.Value ≠ "read" ∧ v.Value ≠ "write")) ∧
    (∀ (initial : Char) (reader r2 : List Char) (v : Value),
      Scanner.readIdentToken T initial reader = (.ok v, r2) →
        v.Token = identKind v.Value) := by
  constructor
  · intro v hv
    have hcl : Classified v :=
      scanLoop_tokens_forall T N Classified (fun r w r2 hw => nextLoop_classified T _ r w r2 hw)
        _ 0 [] [] input res h (by simp) v hv
    obtain ⟨h1, h2⟩ := hcl
    refine ⟨fun hb => h1 _ (by rw [hb]; rfl), fun hb => h1 _ (by rw [hb]; rfl),
      fun hb => h1 _ (by rw [hb]; rfl), fun hb => h1 _ (by rw [hb]; rfl), ?_⟩
    intro hi
    have hnone := h2 hi
    refine ⟨?_, ?_, ?_, ?_⟩ <;> intro hb <;> rw [hb] at hnone <;> cases hnone
  · intro initial reader r2 v hv
    unfold Scanner.readIdentToken at hv
    generalize ([initial] : List Char) = chars at hv
    induction reader generalizing chars with
    | nil => rw [Scanner.readIdentTokenLoop] at hv; cases hv
    | cons d r ih =>
      rw [Scanner.readIdentTokenLoop] at hv
      dsimp only at hv
      split at hv
      · simp only [Prod.mk.injEq, Except.ok.injEq] at hv
        rw [← hv.1]
        rfl
      · exact ih _ hv

/-- C14, witness: `begin ` yields one token, of kind `Begin`. -/
theorem reserved_precedence_witness :
    Scanner.Scan noTables 5 "begin ".toList =
      some { tokens := [{ Token := Token.Begin, Value := "begin" }], err := none, stderr := [],
             Reader := [] } ∧
    ∀ v ∈ [({ Token := Token.Begin, Value := "begin" } : Value)],
      (v.Value = "begin" → v.Token = Token.Begin) ∧ (v.Value = "end" → v.Token = Token.End) ∧
      (v.Value = "read" → v.Token = Token.Read) ∧ (v.Value = "write" → v.Token = Token.Write) ∧
      (v.Token = Token.Ident →
        v.Value ≠ "begin" ∧ v.Value ≠ "end" ∧ v.Value ≠ "read" ∧ v.Value ≠ "write") :=
  ⟨rfl, (reserved_precedence noTables 5 "begin ".toList
    { tokens := [{ Token := Token.Begin, Value := "begin" }], err := none, stderr := [],
      Reader := [] } rfl).1⟩

/-! ## Inputs that scan alike -/

theorem nextBranch (T : UnicodeTables) (c : Char) : NextBranch T c := by
  by_cases h1 : IsSpace T c = true
  · exact .space h1 (fun fuel r => by rw [Scanner.NextLoop, if_pos h1])
  have hs : IsSpace T c = false := by simpa using h1
  by_cases h2 : (c == '(') = true
  · exact .single _ hs (fun fuel r => by rw [Scanner.NextLoop, if_neg h1, if_pos h2])
  by_cases h3 : (c == ')') = true
  · exact .single _ hs (fun fuel r => by
      rw [Scanner.NextLoop, if_neg h1, if_neg h2, if_pos h3])
  by_cases h4 : (c == ';') = true
  · exact .single _ hs (fun fuel r => by
      rw [Scanner.NextLoop, if_neg h1, if_neg h2, if_neg h3, if_pos h4])
  by_cases h5 : (c == ',') = true
  · exact .single _ hs (fun fuel r => by
      rw [Scanner.NextLoop, if_neg h1, if_neg h2, if_neg h3, if_neg h4, if_pos h5])
  by_cases h6 : (c == '+') = true
  · exact .single _ hs (fun fuel r => by
      rw [Scanner.NextLoop, if_neg h1, if_neg h2, if_neg h3, if_neg h4, if_neg h5, if_pos h6])
  by_cases h7 : IsLetter T c = true
  · exact .letter hs h7 (fun fuel r => by
      rw [Scanner.NextLoop, if_neg h1, if_neg h2, if_neg h3, if_neg h4, if_neg h5, if_neg h6,
        if_pos h7])
  by_cases h8 : IsDigit T c = true
  · exact .digit hs h8 (fun fuel r => by
      rw [Scanner.NextLoop, if_neg h1, if_neg h2, if_neg h3, if_neg h4, if_neg h5, if_neg h6,
        if_neg h7, if_pos h8])
  by_cases h9 : (c == ':') = true
  · exact .colon (by simpa using h9) (fun fuel r => by
      rw [Scanner.NextLoop, if_neg h1, if_neg h2, if_neg h3, if_neg h4, if_neg h5, if_neg h6,
        if_neg h7, if_neg h8, if_pos h9])
  by_cases h10 : (c == '-') = true
  · have eq : ∀ fuel r, Scanner.NextLoop T (fuel + 1) (c :: r) =
        match Scanner.readMinusOPOrCommentToken r with
        | (.error err, reader) => some (.error err, reader)
        | (.ok (some token), reader) => some (.ok token, reader)
        | (.ok none, reader) => Scanner.NextLoop T fuel reader := by
      intro fuel r
      rw [Scanner.NextLoop, if_neg h1, if_neg h2, if_neg h3, if_neg h4, if_neg h5, if_neg h6,
        if_neg h7, if_neg h8, if_neg h9, if_pos h10]
    refine .dash (by simpa using h10) ?_ ?_ ?_ ?_
    · intro fuel
      rw [eq, Scanner.readMinusOPOrCommentToken]
    · intro fuel d r hd
      have hd2 : (d != '-') = true := by simpa using hd
      rw [eq, Scanner.readMinusOPOrCommentToken, if_pos hd2]
    · intro fuel r hr
      have hd2 : ¬ ('-' != '-') = true := by decide
      rw [eq, Scanner.readMinusOPOrCommentToken, if_neg hd2, hr]
    · intro fuel r r3 hr
      have hd2 : ¬ ('-' != '-') = true := by decide
      rw [eq, Scanner.readMinusOPOrCommentToken, if_neg hd2, hr]
  · exact .invalid hs (fun fuel r => by
      rw [Scanner.NextLoop, if_neg h1, if_neg h2, if_neg h3, if_neg h4, if_neg h5, if_neg h6,
        if_neg h7, if_neg h8, if_neg h9, if_neg h10])

/-- More fuel than runes: the result of the loop of `Next` does not depend on
the fuel. -/
theorem nextLoop_fuel (T : UnicodeTables) (f1 f2 : Nat) (r : List Char)
    (h1 : r.length < f1) (h2 : r.length < f2) :
    Scanner.NextLoop T f1 r = Scanner.NextLoop T f2 r := by
  induction f1 generalizing f2 r with
  | zero => omega
  | succ n ih =>
    obtain ⟨m, rfl⟩ : ∃ m, f2 = m + 1 := ⟨f2 - 1, by omega⟩
    cases r with
    | nil => rw [Scanner.NextLoop, Scanner.NextLoop]
    | cons c r =>
      simp only [List.length_cons] at h1 h2
      rcases nextBranch T c with ⟨-, eq⟩ | ⟨v, -, eq⟩ | ⟨-, -, eq⟩ | ⟨-, -, eq⟩ | ⟨-, eq⟩ |
        ⟨-, e1, e2, e3, e4⟩ | ⟨-, eq⟩
      · rw [eq, eq]
        exact ih m r (by omega) (by omega)
      · rw [eq, eq]
      · rw [eq, eq]
      · rw [eq, eq]
      · rw [eq, eq]
      · cases r with
        | nil => rw [e1, e1]
        | cons d r =>
          by_cases hd : d = '-'
          · subst hd
            rcases skipComment_spec r with hs | ⟨pre, -, hpre, hs⟩
            · rw [e3 _ _ hs, e3 _ _ hs]
            · have hs2 : Scanner.skipComment r = (.ok none, (Scanner.skipComment r).2) :=
                Prod.ext hs rfl
              rw [e4 _ _ _ hs2, e4 _ _ _ hs2]
              have : (Scanner.skipComment r).2.length ≤ r.length := by
                conv_rhs => rw [hpre]
                simp
              simp only [List.length_cons] at h1 h2
              exact ih m _ (by omega) (by omega)
          · rw [e2 _ _ _ hd, e2 _ _ _ hd]
      · rw [eq, eq]

theorem next_eq_nextLoop (T : UnicodeTables) (fuel : Nat) (r : List Char)
    (h : r.length < fuel) : Scanner.NextLoop T fuel r = Scanner.Next T r :=
  nextLoop_fuel T fuel _ r h (Nat.lt_succ_self _)

theorem lastSat_nil (P : Char → Prop) : LastSat P [] := by
  intro z hz
  cases hz

theorem lastSat_suffix {P : Char → Prop} {pre q : List Char} (h : LastSat P (pre ++ q)) :
    LastSat P q := by
  intro z hz
  apply h
  cases q with
  | nil => cases hz
  | cons a q => rw [List.getLast?_append_of_ne_nil _ (by simp)]; exact hz

theorem lastSat_mem {P : Char → Prop} {p : List Char} (h : LastSat P p) (hne : p ≠ []) :
    ∃ z ∈ p, P z := by
  obtain ⟨z, hz⟩ : ∃ z, p.getLast? = some z := by
    cases hp : p.getLast? with
    | none => exact absurd (List.getLast?_eq_none_iff.1 hp) hne
    | some z => exact ⟨z, rfl⟩
  exact ⟨z, List.mem_of_getLast?_eq_some hz, h z hz⟩

/-- Two readers on which the calls of `Next` keep returning the same results
give the same observable run of `Scan`. -/
theorem scanLoop_bisim (T : UnicodeTables) (N : Int) (S : List Char → List Char → Prop)
    (hS : ∀ rA rB, S rA rB → ∃ x rA2 rB2, Scanner.Next T rA = some (x, rA2) ∧
      Scanner.Next T rB = some (x, rB2) ∧ (x = .error Error.EOF ∨ S rA2 rB2))
    (fuelA : Nat) :
    ∀ (fuelB errorCount : Nat) (tokens : List Value) (logA logB : List ScanReport)
      (rA rB : List Char),
      S rA rB → rA.length < fuelA → rB.length < fuelB →
      logA.map (fun e => (e.number, e.char)) = logB.map (fun e => (e.number, e.char)) →
      ∃ resA resB, Scanner.ScanLoop T N fuelA errorCount tokens logA rA = some resA ∧
        Scanner.ScanLoop T N fuelB errorCount tokens logB rB = some resB ∧
        resA.observed = resB.observed := by
  induction fuelA with
  | zero => intro fuelB errorCount tokens logA logB rA rB _ h; omega
  | succ n ih =>
    intro fuelB errorCount tokens logA logB rA rB hs hA hB hlog
    obtain ⟨m, rfl⟩ : ∃ m, fuelB = m + 1 := ⟨fuelB - 1, by omega⟩
    have hend : (Scanner.scanEnd errorCount tokens logA rA).observed =
        (Scanner.scanEnd errorCount tokens logB rB).observed := by
      simp only [ScanResult.observed, Scanner.scanEnd, hlog]
    rw [Scanner.ScanLoop, Scanner.ScanLoop]
    by_cases hb : (errorCount : Int) ≥ N
    · rw [if_pos hb, if_pos hb]
      exact ⟨_, _, rfl, rfl, hend⟩
    rw [if_neg hb, if_neg hb]
    obtain ⟨x, rA2, rB2, hnA, hnB, hor⟩ := hS rA rB hs
    rw [hnA, hnB]
    have cA := next_consumed hnA
    have cB := next_consumed hnB
    match x, cA, cB, hor with
    | .ok v, cA, cB, hor =>
      have hs2 : S rA2 rB2 := by
        rcases hor with h | h
        · cases h
        · exact h
      have lA := consumed_length cA (by simp)
      have lB := consumed_length cB (by simp)
      exact ih m errorCount _ logA logB rA2 rB2 hs2 (by omega) (by omega) hlog
    | .error Error.EOF, _, _, _ =>
      refine ⟨_, _, rfl, rfl, ?_⟩
      simp only [ScanResult.observed, Scanner.scanEnd, hlog]
    | .error (Error.ScanError c), cA, cB, hor =>
      have hs2 : S rA2 rB2 := by
        rcases hor with h | h
        · cases h
        · exact h
      have lA := consumed_length cA (by simp)
      have lB := consumed_length cB (by simp)
      exact ih m (errorCount + 1) tokens _ _ rA2 rB2 hs2 (by omega) (by omega)
        (by simp [hlog])
    | .error (Error.StepError s), cA, _, _ => exact absurd cA id
    | .error (Error.other s), cA, _, _ => exact absurd cA id

/-- The observable run of `Scan` is the same on two readers related by a
relation that the calls of `Next` preserve. -/
theorem scan_bisim (T : UnicodeTables) (N : Int) (S : List Char → List Char → Prop)
    (hS : ∀ rA rB, S rA rB → ∃ x rA2 rB2, Scanner.Next T rA = some (x, rA2) ∧
      Scanner.Next T rB = some (x, rB2) ∧ (x = .error Error.EOF ∨ S rA2 rB2))
    (rA rB : List Char) (h : S rA rB) :
    ∃ resA resB, Scanner.Scan T N rA = some resA ∧ Scanner.Scan T N rB = some resB ∧
      resA.observed = resB.observed :=
  scanLoop_bisim T N S hS _ _ 0 [] [] [] rA rB h (Nat.lt_succ_self _) (Nat.lt_succ_self _) rfl

/-! ## A run at the end of the input -/

theorem readIdentTokenLoop_inside (T : UnicodeTables) (chars p : List Char)
    (h : ∃ d ∈ p, isRunChar T d = false) :
    ∃ v pre q, q ≠ [] ∧ p = pre ++ q ∧
      ∀ X, Scanner.readIdentTokenLoop T chars (p ++ X) = (.ok v, q ++ X) := by
  induction p generalizing chars with
  | nil =>
    obtain ⟨d, hd, -⟩ := h
    cases hd
  | cons c p ih =>
    by_cases hc : isRunChar T c = true
    · obtain ⟨v, pre, q, hq, hp, heq⟩ := ih (chars ++ [c]) (by
        obtain ⟨d, hd, hdr⟩ := h
        rcases List.mem_cons.1 hd with rfl | hd
        · rw [hc] at hdr; cases hdr
        · exact ⟨d, hd, hdr⟩)
      refine ⟨v, c :: pre, q, hq, by rw [hp]; rfl, fun X => ?_⟩
      have := readIdentTokenLoop_run T chars [c] (p ++ X) (by simpa using hc)
      rw [List.cons_append, ← List.singleton_append, this, heq]
    · have hc2 : isRunChar T c = false := by simpa using hc
      exact ⟨_, [], c :: p, by simp, rfl, fun X => readIdentTokenLoop_stop T chars c _ hc2⟩

theorem readIntLiteralTokenLoop_inside (T : UnicodeTables) (chars p : List Char)
    (h : ∃ d ∈ p, IsDigit T d = false) :
    ∃ v pre q, q ≠ [] ∧ p = pre ++ q ∧
      ∀ X, Scanner.readIntLiteralTokenLoop T chars (p ++ X) = (.ok v, q ++ X) := by
  induction p generalizing chars with
  | nil =>
    obtain ⟨d, hd, -⟩ := h
    cases hd
  | cons c p ih =>
    by_cases hc : IsDigit T c = true
    · obtain ⟨v, pre, q, hq, hp, heq⟩ := ih (chars ++ [c]) (by
        obtain ⟨d, hd, hdr⟩ := h
        rcases List.mem_cons.1 hd with rfl | hd
        · rw [hc] at hdr; cases hdr
        · exact ⟨d, hd, hdr⟩)
      refine ⟨v, c :: pre, q, hq, by rw [hp]; rfl, fun X => ?_⟩
      have := readIntLiteralTokenLoop_run T chars [c] (p ++ X) (by simpa using hc)
      rw [List.cons_append, ← List.singleton_append, this, heq]
    · have hc2 : IsDigit T c = false := by simpa using hc
      exact ⟨_, [], c :: p, by simp, rfl,
        fun X => readIntLiteralTokenLoop_stop T chars c _ hc2⟩

theorem skipComment_inside (p : List Char) (h : '\n' ∈ p) :
    ∃ pre q, p = pre ++ q ∧ ∀ X, Scanner.skipComment (p ++ X) = (.ok none, q ++ X) := by
  induction p with
  | nil => cases h
  | cons c p ih =>
    by_cases hc : c = '\n'
    · subst hc
      exact ⟨['\n'], p, rfl, fun X => by rw [List.cons_append, Scanner.skipComment]; rfl⟩
    · obtain ⟨pre, q, hp, heq⟩ := ih (by
        rcases List.mem_cons.1 h with h | h
        · exact absurd h.symm hc
        · exact h)
      refine ⟨c :: pre, q, by rw [hp]; rfl, fun X => ?_⟩
      have hc2 : ¬ (c == '\n') = true := by simpa using hc
      rw [List.cons_append, Scanner.skipComment, if_neg hc2, heq]

theorem skipComment_through (p : List Char) (h : '\n' ∉ p) (X : List Char) :
    Scanner.skipComment (p ++ X) = Scanner.skipComment X := by
  induction p with
  | nil => rfl
  | cons c p ih =>
    have hc2 : ¬ (c == '\n') = true := by
      simp only [beq_iff_eq]
      rintro rfl
      exact h (by simp)
    rw [List.cons_append, Scanner.skipComment, if_neg hc2]
    exact ih (fun hm => h (List.mem_cons_of_mem _ hm))

theorem isRun_chars {T : UnicodeTables} {w : List Char} (hw : IsRun T w) :
    ∀ d ∈ w, isRunChar T d = true := by
  rcases hw with ⟨c, run, rfl, hc, hrun⟩ | ⟨-, hd⟩
  · intro d hd
    rcases List.mem_cons.1 hd with rfl | hd
    · unfold isRunChar; simp [hc]
    · exact hrun d hd
  · intro d hdw
    unfold isRunChar
    simp [hd d hdw]

theorem isRun_no_newline {T : UnicodeTables} {w : List Char} (hw : IsRun T w) : '\n' ∉ w := by
  intro h
  have := isRun_chars hw _ h
  have hn : isRunChar T '\n' = false := rfl
  rw [hn] at this
  cases this

/-- A run read to the end of the input: `Next` returns `io.EOF`. -/
theorem nextLoop_run_eof (T : UnicodeTables) (hT : T.Coherent) (w : List Char)
    (hw : IsRun T w) (fuel : Nat) :
    Scanner.NextLoop T (fuel + 1) w = some (.error Error.EOF, []) := by
  have hchars := isRun_chars hw
  have ident : ∀ c run, IsLetter T c = true → (∀ d ∈ run, isRunChar T d = true) →
      Scanner.NextLoop T (fuel + 1) (c :: run) = some (.error Error.EOF, []) := by
    intro c run hc hrun
    rw [nextLoop_letter T hT _ c _ hc, Scanner.readIdentToken]
    have := readIdentTokenLoop_run T [c] run [] hrun
    rw [List.append_nil] at this
    rw [this, Scanner.readIdentTokenLoop]
  rcases hw with ⟨c, run, rfl, hc, hrun⟩ | ⟨hne, hd⟩
  · exact ident c run hc hrun
  · cases w with
    | nil => exact absurd rfl hne
    | cons c run =>
      have hc : IsDigit T c = true := hd c (by simp)
      by_cases hl : IsLetter T c = true
      · exact ident c run hl (fun d hdr => hchars d (by simp [hdr]))
      · have h1 : ¬ IsSpace T c = true := by
          intro h
          rw [(isSpace_not_run hT h).2.1] at hc
          cases hc
        have ne : ∀ d : Char, IsDigit T d = false → ¬ (c == d) = true := by
          intro d hdd h
          simp only [beq_iff_eq] at h
          subst h
          rw [hdd] at hc
          cases hc
        rw [Scanner.NextLoop, if_neg h1, if_neg (ne '(' rfl), if_neg (ne ')' rfl),
          if_neg (ne ';' rfl), if_neg (ne ',' rfl), if_neg (ne '+' rfl), if_neg hl, if_pos hc,
          Scanner.readIntLiteralToken]
        have := readIntLiteralTokenLoop_run T [c] run [] (fun d hdr => hd d (by simp [hdr]))
        rw [List.append_nil] at this
        rw [this, Scanner.readIntLiteralTokenLoop]

/-- One call of `Next` before a run that ends the input: the same as without
the run. -/
theorem nextLoop_before_run (T : UnicodeTables) (hT : T.Coherent) (w : List Char)
    (hw : IsRun T w) (fuelA : Nat) :
    ∀ (fuelB : Nat) (p : List Char), LastSat (fun z => IsSpace T z = true) p →
      (p ++ w).length < fuelA → p.length < fuelB →
      ∃ x rA2 rB2, Scanner.NextLoop T fuelA (p ++ w) = some (x, rA2) ∧
        Scanner.NextLoop T fuelB p = some (x, rB2) ∧
        (x = .error Error.EOF ∨
          ∃ p2, LastSat (fun z => IsSpace T z = true) p2 ∧ rA2 = p2 ++ w ∧ rB2 = p2) := by
  induction fuelA with
  | zero => intro fuelB p _ h; omega
  | succ n ih =>
    intro fuelB p hp hA hB
    obtain ⟨m, rfl⟩ : ∃ m, fuelB = m + 1 := ⟨fuelB - 1, by omega⟩
    cases p with
    | nil =>
      have hB0 : Scanner.NextLoop T (m + 1) [] = some (.error Error.EOF, []) := by
        rw [Scanner.NextLoop]
      exact ⟨_, _, [], nextLoop_run_eof T hT w hw n, hB0, Or.inl rfl⟩
    | cons c p =>
      have hp2 : LastSat (fun z => IsSpace T z = true) p :=
        @lastSat_suffix _ [c] p hp
      have hne : IsSpace T c = false → p ≠ [] := by
        rintro hs rfl
        have hc : IsSpace T c = true := hp c rfl
        rw [hs] at hc
        cases hc
      simp only [List.cons_append, List.length_cons] at hA hB ⊢
      rcases nextBranch T c with ⟨-, eq⟩ | ⟨v, hs, eq⟩ | ⟨hs, -, eq⟩ | ⟨hs, -, eq⟩ | ⟨hc, eq⟩ |
        ⟨hc, e1, e2, e3, e4⟩ | ⟨hs, eq⟩
      · rw [eq, eq]
        exact ih m p hp2 (by omega) (by omega)
      · rw [eq, eq]
        exact ⟨_, _, _, rfl, rfl, Or.inr ⟨p, hp2, rfl, rfl⟩⟩
      · rw [eq, eq, Scanner.readIdentToken, Scanner.readIdentToken]
        obtain ⟨z, hz, hzs⟩ := lastSat_mem hp2 (hne hs)
        obtain ⟨v, pre, q, -, hpq, heq⟩ := readIdentTokenLoop_inside T [c] p
          ⟨z, hz, (isSpace_not_run hT hzs).2.2.2⟩
        have hB2 := heq []
        rw [List.append_nil, List.append_nil] at hB2
        rw [heq w, hB2]
        exact ⟨_, _, _, rfl, rfl, Or.inr ⟨q, lastSat_suffix (hpq ▸ hp2), rfl, rfl⟩⟩
      · rw [eq, eq, Scanner.readIntLiteralToken, Scanner.readIntLiteralToken]
        obtain ⟨z, hz, hzs⟩ := lastSat_mem hp2 (hne hs)
        obtain ⟨v, pre, q, -, hpq, heq⟩ := readIntLiteralTokenLoop_inside T [c] p
          ⟨z, hz, (isSpace_not_run hT hzs).2.1⟩
        have hB2 := heq []
        rw [List.append_nil, List.append_nil] at hB2
        rw [heq w, hB2]
        exact ⟨_, _, _, rfl, rfl, Or.inr ⟨q, lastSat_suffix (hpq ▸ hp2), rfl, rfl⟩⟩
      · subst hc
        rw [eq, eq]
        cases p with
        | nil => exact absurd rfl (hne rfl)
        | cons d p =>
          have hp3 : LastSat (fun z => IsSpace T z = true) p := @lastSat_suffix _ [d] p hp2
          rw [List.cons_append, Scanner.readAssignOPToken, Scanner.readAssignOPToken]
          by_cases hd : (d != '=') = true
          · rw [if_pos hd, if_pos hd]
            exact ⟨_, _, _, rfl, rfl, Or.inr ⟨d :: p, hp2, rfl, rfl⟩⟩
          · rw [if_neg hd, if_neg hd]
            exact ⟨_, _, _, rfl, rfl, Or.inr ⟨p, hp3, rfl, rfl⟩⟩
      · subst hc
        cases p with
        | nil => exact absurd rfl (hne rfl)
        | cons d p =>
          have hp3 : LastSat (fun z => IsSpace T z = true) p := @lastSat_suffix _ [d] p hp2
          rw [List.cons_append]
          by_cases hd : d = '-'
          · subst hd
            simp only [List.length_cons, List.length_append] at hA hB
            by_cases hnl : '\n' ∈ p
            · obtain ⟨pre, q, hpq, heq⟩ := skipComment_inside p hnl
              have hB2 := heq []
              rw [List.append_nil, List.append_nil] at hB2
              rw [e4 _ _ _ (heq w), e4 _ _ _ hB2]
              have hl : q.length ≤ p.length := by rw [hpq]; simp
              exact ih m q (lastSat_suffix (hpq ▸ hp3))
                (by simp only [List.length_append] at hA ⊢; omega) (by omega)
            · have hA2 : Scanner.skipComment (p ++ w) = (.error Error.EOF, []) := by
                rw [skipComment_through p hnl, ← List.append_nil w,
                  skipComment_through w (isRun_no_newline hw)]
                rfl
              have hB2 : Scanner.skipComment p = (.error Error.EOF, []) := by
                have := skipComment_through p hnl []
                rw [List.append_nil] at this
                rw [this]
                rfl
              rw [e3 _ _ hA2, e3 _ _ hB2]
              exact ⟨_, _, _, rfl, rfl, Or.inl rfl⟩
          · rw [e2 _ _ _ hd, e2 _ _ _ hd]
            exact ⟨_, _, _, rfl, rfl, Or.inr ⟨d :: p, hp2, rfl, rfl⟩⟩
      · rw [eq, eq]
        exact ⟨_, _, _, rfl, rfl, Or.inr ⟨p, hp2, rfl, rfl⟩⟩

/-- C19. A run that reaches the end of the input is dropped: for every budget
`N`, every input `p` that is empty or ends in white space, and every run `w` (a
letter followed by letters, digits and underscores, or digits only), `Scan` on
`p ++ w` returns the same tokens, the same error and the same numbered error
lines as `Scan` on `p`; and `Scan` on `w` alone returns no token, no error and
no error line. -/
theorem scan_run_at_eof (T : UnicodeTables) (hT : T.Coherent) (N : Int) (p w : List Char)
    (hp : LastSat (fun z => IsSpace T z = true) p) (hw : IsRun T w) :
    (∃ resA resB, Scanner.Scan T N (p ++ w) = some resA ∧ Scanner.Scan T N p = some resB ∧
      resA.observed = resB.observed) ∧
    ∃ res, Scanner.Scan T N w = some res ∧ res.observed = ([], none, []) := by
  have key : ∀ q, LastSat (fun z => IsSpace T z = true) q →
      ∃ resA resB, Scanner.Scan T N (q ++ w) = some resA ∧ Scanner.Scan T N q = some resB ∧
        resA.observed = resB.observed := by
    intro q hq
    refine scan_bisim T N
      (fun rA rB => ∃ p2, LastSat (fun z => IsSpace T z = true) p2 ∧ rA = p2 ++ w ∧ rB = p2)
      ?_ _ _ ⟨q, hq, rfl, rfl⟩
    intro rA rB h
    obtain ⟨p2, hp2, hA, hB⟩ : ∃ p2, LastSat (fun z => IsSpace T z = true) p2 ∧
      rA = p2 ++ w ∧ rB = p2 := h
    subst hA hB
    exact nextLoop_before_run T hT w hw _ _ _ hp2 (Nat.lt_succ_self _) (Nat.lt_succ_self _)
  refine ⟨key p hp, ?_⟩
  obtain ⟨resA, resB, hA, hB, hobs⟩ := key [] (lastSat_nil _)
  refine ⟨resA, hA, ?_⟩
  rw [hobs]
  have : Scanner.Scan T N [] = some (Scanner.scanEnd 0 [] [] []) := by
    unfold Scanner.Scan
    rw [Scanner.ScanLoop]
    split <;> rfl
  rw [this] at hB
  cases hB
  rfl

/-- C19, witness: `x := 1 ` followed by the run `abc`, with budget 5. -/
theorem scan_run_at_eof_witness :
    (∃ resA resB, Scanner.Scan noTables 5 ("x := 1 ".toList ++ "abc".toList) = some resA ∧
      Scanner.Scan noTables 5 "x := 1 ".toList = some resB ∧
      resA.observed = resB.observed) ∧
    ∃ res, Scanner.Scan noTables 5 "abc".toList = some res ∧ res.observed = ([], none, []) :=
  scan_run_at_eof noTables (fun _ h => by cases h) 5 "x := 1 ".toList "abc".toList
    (by intro z hz; cases hz; rfl) (Or.inl ⟨'a', "bc".toList, rfl, rfl, by decide⟩)

/-! ## Comments -/

theorem nextLoop_newline (T : UnicodeTables) (fuel : Nat) (r : List Char) :
    Scanner.NextLoop T (fuel + 1) ('\n' :: r) = Scanner.NextLoop T fuel r := by
  have h : IsSpace T '\n' = true := rfl
  rw [Scanner.NextLoop, if_pos h]

theorem skipComment_body (c s : List Char) (hc : '\n' ∉ c) :
    Scanner.skipComment (c ++ '\n' :: s) = (.ok none, s) := by
  rw [skipComment_through c hc, Scanner.skipComment]
  rfl

/-- The comment `--c` and its newline, read at the start of a call of `Next`,
leave the call where the newline alone leaves it. -/
theorem nextLoop_comment_start (T : UnicodeTables) (c s : List Char) (hc : '\n' ∉ c)
    (n m : Nat) (hn : s.length < n) (hm : s.length < m) :
    Scanner.NextLoop T (n + 1) ('-' :: '-' :: (c ++ '\n' :: s)) =
      Scanner.NextLoop T (m + 1) ('\n' :: s) := by
  rcases nextBranch T '-' with ⟨h, -⟩ | ⟨v, -, eq⟩ | ⟨-, h, -⟩ | ⟨-, h, -⟩ | ⟨h, -⟩ |
    ⟨-, -, -, -, e4⟩ | ⟨-, eq⟩
  · cases h
  · have := eq 0 []
    cases this
  · cases h
  · cases h
  · cases h
  · rw [e4 _ _ _ (skipComment_body c s hc), nextLoop_newline]
    exact nextLoop_fuel T n m s hn hm
  · have := eq 0 []
    cases this

theorem nextLoop_total (T : UnicodeTables) (fuel : Nat) (r : List Char) (h : r.length < fuel) :
    ∃ x r2, Scanner.NextLoop T fuel r = some (x, r2) := by
  have := nextLoop_isSome T fuel r h
  cases hn : Scanner.NextLoop T fuel r with
  | none => rw [hn] at this; cases this
  | some y => exact ⟨y.1, y.2, rfl⟩

/-- One call of `Next` before the comment `--c` and its newline: the same as
before the newline alone. -/
theorem nextLoop_before_comment (T : UnicodeTables) (c s : List Char) (hc : '\n' ∉ c)
    (fuelA : Nat) :
    ∀ (fuelB : Nat) (p : List Char), LastSat (fun z => z ≠ '-') p →
      (p ++ '-' :: '-' :: (c ++ '\n' :: s)).length < fuelA →
      (p ++ '\n' :: s).length < fuelB →
      ∃ x rA2 rB2,
        Scanner.NextLoop T fuelA (p ++ '-' :: '-' :: (c ++ '\n' :: s)) = some (x, rA2) ∧
        Scanner.NextLoop T fuelB (p ++ '\n' :: s) = some (x, rB2) ∧
        (rA2 = rB2 ∨ ∃ p2, LastSat (fun z => z ≠ '-') p2 ∧
          rA2 = p2 ++ '-' :: '-' :: (c ++ '\n' :: s) ∧ rB2 = p2 ++ '\n' :: s) := by
  induction fuelA with
  | zero => intro fuelB p _ h; omega
  | succ n ih =>
    intro fuelB p hp hA hB
    obtain ⟨m, rfl⟩ : ∃ m, fuelB = m + 1 := ⟨fuelB - 1, by omega⟩
    have hrunA : isRunChar T '-' = false := rfl
    have hrunB : isRunChar T '\n' = false := rfl
    have hdigA : IsDigit T '-' = false := rfl
    have hdigB : IsDigit T '\n' = false := rfl
    cases p with
    | nil =>
      simp only [List.nil_append, List.length_cons, List.length_append] at hA hB ⊢
      rw [nextLoop_comment_start T c s hc n m (by omega) (by omega)]
      obtain ⟨x, r2, h⟩ := nextLoop_total T (m + 1) ('\n' :: s)
        (by simp only [List.length_cons]; omega)
      exact ⟨x, r2, r2, h, h, Or.inl rfl⟩
    | cons ch p =>
      have hp2 : LastSat (fun z => z ≠ '-') p := @lastSat_suffix _ [ch] p hp
      simp only [List.cons_append, List.length_cons, List.length_append] at hA hB ⊢
      rcases nextBranch T ch with ⟨-, eq⟩ | ⟨v, hs, eq⟩ | ⟨hs, -, eq⟩ | ⟨hs, -, eq⟩ | ⟨hch, eq⟩ |
        ⟨hch, e1, e2, e3, e4⟩ | ⟨hs, eq⟩
      · rw [eq, eq]
        exact ih m p hp2 (by simp only [List.length_cons, List.length_append]; omega)
          (by simp only [List.length_cons, List.length_append]; omega)
      · rw [eq, eq]
        exact ⟨_, _, _, rfl, rfl, Or.inr ⟨p, hp2, rfl, rfl⟩⟩
      · rw [eq, eq, Scanner.readIdentToken, Scanner.readIdentToken]
        by_cases hall : ∀ d ∈ p, isRunChar T d = true
        · rw [readIdentTokenLoop_run T [ch] p _ hall, readIdentTokenLoop_run T [ch] p _ hall,
            readIdentTokenLoop_stop T _ '-' _ hrunA, readIdentTokenLoop_stop T _ '\n' _ hrunB]
          exact ⟨_, _, _, rfl, rfl, Or.inr ⟨[], lastSat_nil _, rfl, rfl⟩⟩
        · have hex : ∃ d ∈ p, isRunChar T d = false := by
            by_contra hcon
            apply hall
            intro d hd
            by_contra hdr
            exact hcon ⟨d, hd, by simpa using hdr⟩
          obtain ⟨v, pre, q, -, hpq, heq⟩ := readIdentTokenLoop_inside T [ch] p hex
          rw [heq, heq]
          exact ⟨_, _, _, rfl, rfl, Or.inr ⟨q, lastSat_suffix (hpq ▸ hp2), rfl, rfl⟩⟩
      · rw [eq, eq, Scanner.readIntLiteralToken, Scanner.readIntLiteralToken]
        by_cases hall : ∀ d ∈ p, IsDigit T d = true
        · rw [readIntLiteralTokenLoop_run T [ch] p _ hall,
            readIntLiteralTokenLoop_run T [ch] p _ hall,
            readIntLiteralTokenLoop_stop T _ '-' _ hdigA,
            readIntLiteralTokenLoop_stop T _ '\n' _ hdigB]
          exact ⟨_, _, _, rfl, rfl, Or.inr ⟨[], lastSat_nil _, rfl, rfl⟩⟩
        · have hex : ∃ d ∈ p, IsDigit T d = false := by
            by_contra hcon
            apply hall
            intro d hd
            by_contra hdr
            exact hcon ⟨d, hd, by simpa using hdr⟩
          obtain ⟨v, pre, q, -, hpq, heq⟩ := readIntLiteralTokenLoop_inside T [ch] p hex
          rw [heq, heq]
          exact ⟨_, _, _, rfl, rfl, Or.inr ⟨q, lastSat_suffix (hpq ▸ hp2), rfl, rfl⟩⟩
      · rw [eq, eq]
        cases p with
        | nil =>
          exact ⟨_, _, _, rfl, rfl, Or.inr ⟨[], lastSat_nil _, rfl, rfl⟩⟩
        | cons d p =>
          have hp3 : LastSat (fun z => z ≠ '-') p := @lastSat_suffix _ [d] p hp2
          rw [List.cons_append, List.cons_append, Scanner.readAssignOPToken,
            Scanner.readAssignOPToken]
          by_cases hd : (d != '=') = true
          · rw [if_pos hd, if_pos hd]
            exact ⟨_, _, _, rfl, rfl, Or.inr ⟨d :: p, hp2, rfl, rfl⟩⟩
          · rw [if_neg hd, if_neg hd]
            exact ⟨_, _, _, rfl, rfl, Or.inr ⟨p, hp3, rfl, rfl⟩⟩
      · subst hch
        cases p with
        | nil => exact absurd rfl (hp '-' rfl)
        | cons d p =>
          have hp3 : LastSat (fun z => z ≠ '-') p := @lastSat_suffix _ [d] p hp2
          rw [List.cons_append, List.cons_append]
          simp only [List.length_cons] at hA hB
          by_cases hd : d = '-'
          · subst hd
            by_cases hnl : '\n' ∈ p
            · obtain ⟨pre, q, hpq, heq⟩ := skipComment_inside p hnl
              rw [e4 _ _ _ (heq _), e4 _ _ _ (heq _)]
              have hl : q.length ≤ p.length := by rw [hpq]; simp
              exact ih m q (lastSat_suffix (hpq ▸ hp3))
                (by simp only [List.length_cons, List.length_append]; omega)
                (by simp only [List.length_cons, List.length_append]; omega)
            · have hA2 : Scanner.skipComment (p ++ '-' :: '-' :: (c ++ '\n' :: s)) =
                  (.ok none, s) := by
                rw [skipComment_through p hnl]
                exact skipComment_body ('-' :: '-' :: c) s (by
                  intro h
                  rcases List.mem_cons.1 h with h | h
                  · cases h
                  rcases List.mem_cons.1 h with h | h
                  · cases h
                  exact hc h)
              have hB2 : Scanner.skipComment (p ++ '\n' :: s) = (.ok none, s) :=
                skipComment_body p s hnl
              rw [e4 _ _ _ hA2, e4 _ _ _ hB2, nextLoop_fuel T n m s (by omega) (by omega)]
              obtain ⟨x, r2, h⟩ := nextLoop_total T m s (by omega)
              exact ⟨x, r2, r2, h, h, Or.inl rfl⟩
          · rw [e2 _ _ _ hd, e2 _ _ _ hd]
            exact ⟨_, _, _, rfl, rfl, Or.inr ⟨d :: p, hp2, rfl, rfl⟩⟩
      · rw [eq, eq]
        exact ⟨_, _, _, rfl, rfl, Or.inr ⟨p, hp2, rfl, rfl⟩⟩

/-- C13. Comment transparency: for every budget `N`, every prefix `p` that does
not end in `-`, every comment body `c` without a newline and every suffix `s`,
`Scan` on `p`, `--`, `c`, newline, `s` returns the same tokens, the same error
and the same numbered error lines as `Scan` on `p`, newline, `s`. -/
theorem scan_comment_transparent (T : UnicodeTables) (N : Int) (p c s : List Char)
    (hp : LastSat (fun z => z ≠ '-') p) (hc : '\n' ∉ c) :
    ∃ resA resB, Scanner.Scan T N (p ++ '-' :: '-' :: (c ++ '\n' :: s)) = some resA ∧
      Scanner.Scan T N (p ++ '\n' :: s) = some resB ∧ resA.observed = resB.observed := by
  refine scan_bisim T N
    (fun rA rB => rA = rB ∨ ∃ p2, LastSat (fun z => z ≠ '-') p2 ∧
      rA = p2 ++ '-' :: '-' :: (c ++ '\n' :: s) ∧ rB = p2 ++ '\n' :: s)
    ?_ _ _ (Or.inr ⟨p, hp, rfl, rfl⟩)
  intro rA rB h
  have h2 : rA = rB ∨ ∃ p2, LastSat (fun z => z ≠ '-') p2 ∧
      rA = p2 ++ '-' :: '-' :: (c ++ '\n' :: s) ∧ rB = p2 ++ '\n' :: s := h
  rcases h2 with heq | ⟨p2, hp2, hA, hB⟩
  · subst heq
    obtain ⟨x, r2, hn⟩ := nextLoop_total T _ rA (Nat.lt_succ_self _)
    exact ⟨x, r2, r2, hn, hn, Or.inr (Or.inl rfl)⟩
  · subst hA hB
    obtain ⟨x, rA2, rB2, h1, h2, h3⟩ := nextLoop_before_comment T c s hc _ _ p2 hp2
      (Nat.lt_succ_self _) (Nat.lt_succ_self _)
    exact ⟨x, rA2, rB2, h1, h2, Or.inr h3⟩

theorem scan_commented (T : UnicodeTables) :
    Scanner.Scan T maxErrors "a:=1; -- comment\n b:=2;".toList =
      some { tokens := [⟨.Ident, "a"⟩, ⟨.AssignOP, ":="⟩, ⟨.IntLiteral, "1"⟩, ⟨.Semicolon, ";"⟩,
                        ⟨.Ident, "b"⟩, ⟨.AssignOP, ":="⟩, ⟨.IntLiteral, "2"⟩, ⟨.Semicolon, ";"⟩],
             err := none, stderr := [], Reader := [] } ∧
    Scanner.Scan T maxErrors "a:=1; \n b:=2;".toList =
      some { tokens := [⟨.Ident, "a"⟩, ⟨.AssignOP, ":="⟩, ⟨.IntLiteral, "1"⟩, ⟨.Semicolon, ";"⟩,
                        ⟨.Ident, "b"⟩, ⟨.AssignOP, ":="⟩, ⟨.IntLiteral, "2"⟩, ⟨.Semicolon, ";"⟩],
             err := none, stderr := [], Reader := [] } :=
  ⟨rfl, rfl⟩

/-- C13, witness: `a:=1; -- comment`, newline, ` b:=2;` with budget 5. -/
theorem scan_comment_transparent_witness :
    ∃ resA resB,
      Scanner.Scan noTables 5
        ("a:=1; ".toList ++ '-' :: '-' :: (" comment".toList ++ '\n' :: " b:=2;".toList)) =
          some resA ∧
      Scanner.Scan noTables 5 ("a:=1; ".toList ++ '\n' :: " b:=2;".toList) = some resB ∧
      resA.observed = resB.observed :=
  scan_comment_transparent noTables 5 "a:=1; ".toList " comment".toList " b:=2;".toList
    (by intro z hz; cases hz; decide) (by decide)

end Micro
